import Mathlib

/-!
Verification of the EmbedDB storage engine (crates/embeddb) against its
natural-language specification.

The Rust source is shallowly embedded as follows:
* machine integers (`u32`, `u64`) are `Nat`; saturating arithmetic is written
  out explicitly (`min _ bound`, and `Nat` subtraction is itself saturating,
  matching `saturating_sub`);
* the IEEE `f32`/`f64` values stored in rows and vectors are modelled as exact
  rationals (`Rat`); the special values produced by `vector.rs` (`f32::INFINITY`
  and NaN) are modelled by the type `F` below;
* `BTreeMap`/`HashMap`/`BTreeSet` are association lists with no duplicate keys
  (operations that depend on iteration order in the source either sort
  explicitly, as the source does, or are order-insensitive);
* fallible operations return `Except String`; file-system state (the WAL file
  and the SST files of a table) is threaded explicitly through a `World`;
* external collaborators that the engine only calls as black boxes
  (`sha2::Sha256`, `base64`, `crc32fast`, `serde_json` decoding, `f32::sqrt`,
  the pluggable `Embedder`) are universally-quantified function parameters:
  every theorem holds for all choices of these functions.
-/

set_option maxHeartbeats 4000000

namespace EmbedDb

/-- Scalar column types (`schema.rs`, `DataType`). -/
inductive DataType
  | int
  | float
  | bool
  | str
  | bytes
deriving DecidableEq, Repr

/-- Tagged scalar values (`schema.rs`, `Value`).  `f64` is modelled as `Rat`,
`Vec<u8>` as `List Nat`. -/
inductive Value
  | int (v : Int)
  | float (v : Rat)
  | bool (v : Bool)
  | str (v : String)
  | bytes (v : List Nat)
  | null
deriving DecidableEq, Repr

/-- A column definition (`schema.rs`, `Column`). -/
structure Column where
  name : String
  data_type : DataType
  nullable : Bool
deriving DecidableEq, Repr

/-- A table schema: an ordered list of columns (`schema.rs`, `TableSchema`). -/
structure TableSchema where
  columns : List Column
deriving DecidableEq, Repr

/-- The field map of a row: `BTreeMap<String, Value>` modelled as an
association list (unique keys). -/
abbrev Fields := List (String × Value)

/-- Lookup in a `BTreeMap<String, Value>` (`fields.get(name)`). -/
def fieldsGet (fields : Fields) (name : String) : Option Value :=
  match fields with
  | [] => none
  | p :: t => if p.1 = name then some p.2 else fieldsGet t name

/-- Tag test for a value against a declared type (`schema.rs`,
`Value::matches`): the tag matches, or the value is `Null`. -/
def Value.matches : Value → DataType → Bool
  | .int _, .int => true
  | .float _, .float => true
  | .bool _, .bool => true
  | .str _, .str => true
  | .bytes _, .bytes => true
  | .null, _ => true
  | _, _ => false

/-- First loop of `TableSchema::validate_row`: each declared column must be
present with a matching value, or absent and nullable. -/
def checkColumns (fields : Fields) : List Column → Except String Unit
  | [] => .ok ()
  | col :: rest =>
    match fieldsGet fields col.name with
    | some value =>
      if value.matches col.data_type then checkColumns fields rest
      else .error ("column type mismatch: " ++ col.name)
    | none =>
      if col.nullable then checkColumns fields rest
      else .error ("missing required column: " ++ col.name)

/-- Second loop of `TableSchema::validate_row`: every field name must be a
declared column. -/
def checkUnknown (columns : List Column) : Fields → Except String Unit
  | [] => .ok ()
  | p :: rest =>
    if columns.any (fun col => col.name = p.1) then checkUnknown columns rest
    else .error ("unknown column: " ++ p.1)

/-- Row validation (`schema.rs`, `TableSchema::validate_row`). -/
def TableSchema.validate_row (s : TableSchema) (fields : Fields) : Except String Unit := do
  let _ ← checkColumns fields s.columns
  checkUnknown s.columns fields

/-- Schema validation (`schema.rs`, `TableSchema::validate_schema`):
column names must be unique. -/
def TableSchema.validate_schema (s : TableSchema) : Except String Unit :=
  if (s.columns.map Column.name).Nodup then .ok ()
  else .error "duplicate column"

/-- External black-box functions the engine calls: base64 encoding of bytes
and lowercase-hex SHA-256 of a string.  All theorems are universally
quantified over these. -/
structure Ext where
  b64 : List Nat → String
  sha256hex : String → String

/-- Textual rendering of a value (`schema.rs`, `Value::as_string`).  It never
fails. -/
def Value.as_string (E : Ext) : Value → String
  | .int v => toString v
  | .float v => toString v
  | .bool v => toString v
  | .str v => v
  | .bytes v => E.b64 v
  | .null => ""

/-- An embedding spec: ordered source fields (`schema.rs`, `EmbeddingSpec`). -/
structure EmbeddingSpec where
  source_fields : List String
deriving DecidableEq, Repr

/-- Canonical embedding input (`schema.rs`, `EmbeddingSpec::input_string`):
the rendered source fields joined by a newline; fails when a source field is
missing from the row. -/
def EmbeddingSpec.input_string (E : Ext) (spec : EmbeddingSpec) (fields : Fields) :
    Except String String := do
  let parts ← spec.source_fields.mapM (fun name =>
    match fieldsGet fields name with
    | some v => Except.ok (v.as_string E)
    | none => Except.error ("missing embedding field: " ++ name))
  return String.intercalate "\n" parts

/-- Content hash (`schema.rs`, `EmbeddingSpec::content_hash`): SHA-256 of the
input string; fails exactly when `input_string` does. -/
def EmbeddingSpec.content_hash (E : Ext) (spec : EmbeddingSpec) (fields : Fields) :
    Except String String := do
  let input ← spec.input_string E fields
  return E.sha256hex input

/-- Embedding job status (`lib.rs`, `EmbeddingStatus`). -/
inductive EmbeddingStatus
  | pending
  | ready
  | failed
deriving DecidableEq, Repr

/-- Per-row embedding metadata (`lib.rs` usage of `EmbeddingMeta`). -/
structure EmbeddingMeta where
  status : EmbeddingStatus
  content_hash : String
  last_error : Option String
  attempts : Nat
  next_retry_at_ms : Nat
deriving DecidableEq, Repr

/-! ## Vector distances (`vector.rs`)

Stored vectors are `List Rat`.  A computed distance is an `F`: a finite
rational, positive infinity, or NaN, mirroring the `f32` values the source can
produce and the total order `f32::total_cmp` imposes on them. -/

/-- Distance metric selector (`lib.rs`, `DistanceMetric`). -/
inductive DistanceMetric
  | cosine
  | l2
deriving DecidableEq, Repr

/-- Model of the `f32` distance values: finite, `+equiv`, or NaN. -/
inductive F
  | fin (q : Rat)
  | inf
  | nan
deriving DecidableEq, Repr

/-- The order `f32::total_cmp` induces on the distance values the engine
produces: finite values by numeric order, then `+inf`, then NaN greatest. -/
def F.totalLe : F → F → Bool
  | .fin a, .fin b => a ≤ b
  | .fin _, _ => true
  | .inf, .fin _ => false
  | .inf, _ => true
  | .nan, .nan => true
  | .nan, _ => false

/-- Squared L2 distance (`vector.rs`, `l2_distance`): fold over the zipped
components accumulating the squared differences. -/
def l2_distance (a b : List Rat) : Rat :=
  (a.zip b).foldl (fun sum p => sum + (p.1 - p.2) * (p.1 - p.2)) 0

/-- The accumulator loop of `vector.rs::cosine_distance`: `(dot, norm_a,
norm_b)` over the zipped components. -/
def dotAcc (a b : List Rat) : Rat × Rat × Rat :=
  (a.zip b).foldl (fun s p => (s.1 + p.1 * p.2, s.2.1 + p.1 * p.1, s.2.2 + p.2 * p.2))
    ((0 : Rat), (0 : Rat), (0 : Rat))

/-- Cosine distance (`vector.rs`, `cosine_distance`).  `sqrtF` models
`f32::sqrt`, a black box of the embedding.  When either accumulated norm is
zero the guard returns exactly `1.0` without dividing. -/
def cosine_distance (sqrtF : Rat → Rat) (a b : List Rat) : F :=
  let acc := dotAcc a b
  if acc.2.1 = 0 ∨ acc.2.2 = 0 then .fin 1
  else .fin (1 - acc.1 / (sqrtF acc.2.1 * sqrtF acc.2.2))

/-- Dispatching distance (`vector.rs`, `distance`): mismatched lengths or an
empty query give `+inf`. -/
def distance (sqrtF : Rat → Rat) (query vector : List Rat) (metric : DistanceMetric) : F :=
  if query.length ≠ vector.length ∨ query.isEmpty then .inf
  else
    match metric with
    | .l2 => .fin (l2_distance query vector)
    | .cosine => cosine_distance sqrtF query vector

/-! ## Association-list maps and sets

`BTreeMap`/`HashMap` are modelled as association lists whose keys are kept
free of duplicates; `BTreeSet<u64>` as a duplicate-free `List Nat`.  Where the
source relies on sorted iteration it sorts explicitly, so list order never
leaks into results. -/

/-- Map lookup (`get`). -/
def alLookup {κ α : Type} [DecidableEq κ] (k : κ) : List (κ × α) → Option α
  | [] => none
  | p :: t => if p.1 = k then some p.2 else alLookup k t

/-- Map insert-or-replace (`insert`). -/
def alInsert {κ α : Type} [DecidableEq κ] (k : κ) (v : α) : List (κ × α) → List (κ × α)
  | [] => [(k, v)]
  | p :: t => if p.1 = k then (k, v) :: t else p :: alInsert k v t

/-- Map removal (`remove`). -/
def alErase {κ α : Type} [DecidableEq κ] (k : κ) : List (κ × α) → List (κ × α)
  | [] => []
  | p :: t => if p.1 = k then t else p :: alErase k t

/-- Insert only when the key is absent (`BTreeMap::entry(..).or_insert(..)`). -/
def alInsertIfAbsent {κ α : Type} [DecidableEq κ] (k : κ) (v : α) (m : List (κ × α)) :
    List (κ × α) :=
  match alLookup k m with
  | some _ => m
  | none => m ++ [(k, v)]

/-- Set insert (`BTreeSet::insert`). -/
def setInsert (k : Nat) (s : List Nat) : List Nat :=
  if k ∈ s then s else k :: s

/-- Insert into a sorted list, before the first element it is `le`-below
(the insertion step of the stable sort below). -/
def insertOrd {β : Type} (le : β → β → Bool) (x : β) : List β → List β
  | [] => [x]
  | y :: t => if le x y then x :: y :: t else y :: insertOrd le x t

/-- Stable insertion sort, modelling the stable `sort_by_key`/`sort` calls of
the source (`Vec::sort_by_key` is stable; any stable sort has the same
result). -/
def insSort {β : Type} (le : β → β → Bool) : List β → List β
  | [] => []
  | x :: t => insertOrd le x (insSort le t)

/-! ## SST store (`storage/sst.rs`)

An SST file is identified by its level and sequence number (in the source the
file name `sst_L{level}_{seq}.json` is authoritative for both).  The table's
directory is modelled as an association list from file identity to the sorted
entry list stored in the file. -/

/-- A stored row (`schema.rs`, `RowData`): id (allocated from 1) and fields. -/
structure RowData where
  id : Nat
  fields : Fields
deriving DecidableEq, Repr

/-- One SST entry (`sst.rs`, `SstEntry`): `row = none` is a tombstone. -/
structure SstEntry where
  row_id : Nat
  row : Option RowData
deriving DecidableEq, Repr

/-- Identity of an SST file (`sst.rs`, `SstFile` without the redundant path). -/
structure SstFile where
  level : Nat
  seq : Nat
deriving DecidableEq, Repr

/-- A table's SST directory: file identity to file contents. -/
abbrev FsT := List (SstFile × List SstEntry)

/-- Write a file (`sst.rs`, `write_sst`): create or overwrite. -/
def writeSst (fs : FsT) (f : SstFile) (entries : List SstEntry) : FsT :=
  alInsert f entries fs

/-- Read a file (`sst.rs`, `read_sst`).  Under the engine's invariants every
file it reads is present; a missing file reads as empty. -/
def readSst (fs : FsT) (f : SstFile) : List SstEntry :=
  (alLookup f fs).getD []

/-- Delete files from the directory (`sst.rs`, `remove_files`). -/
def removeFiles (fs : FsT) (files : List SstFile) : FsT :=
  files.foldl (fun acc f => alErase f acc) fs

/-- Directory listing (`sst.rs`, `list_sst_files`): all parseable file names,
sorted by `(level, seq)`. -/
def listSstFiles (fs : FsT) : List SstFile :=
  insSort (fun a b => a.level < b.level || (a.level == b.level && a.seq ≤ b.seq))
    (fs.map Prod.fst)

/-- Largest sequence number of any listed file, `0` when empty
(`sst.rs`, `max_seq`). -/
def maxSeq (files : List SstFile) : Nat :=
  files.foldl (fun acc f => max acc f.seq) 0

/-- The recursive core of the slice binary search used by
`sst.rs::find_entry` (`binary_search_by_key` over entries sorted by
`row_id`).  The structural fuel argument only bounds the recursion depth;
`findEntry` supplies enough for the search to run to completion. -/
def bsGo (es : List SstEntry) (target : Nat) : Nat → Nat → Nat → Option SstEntry
  | _, _, 0 => none
  | lo, hi, fuel + 1 =>
    if lo < hi then
      let mid := (lo + hi) / 2
      match es.get? mid with
      | none => none
      | some e =>
        if e.row_id = target then some e
        else if e.row_id < target then bsGo es target (mid + 1) hi fuel
        else bsGo es target lo mid fuel
    else none

/-- Point lookup in one file (`sst.rs`, `find_entry`): binary search by
`row_id`. -/
def findEntry (es : List SstEntry) (rid : Nat) : Option SstEntry :=
  bsGo es rid 0 es.length (es.length + 1)

/-- The merge loop of `sst.rs::compact_level_zero`: visit the input files in
descending `seq` order and keep, per `row_id`, the first entry seen
(`BTreeMap::entry(..).or_insert(..)`, newest-wins). -/
def compactMerged (fs : FsT) (files : List SstFile) : List (Nat × SstEntry) :=
  (insSort (fun a b => a.seq ≤ b.seq) files).reverse.foldl
    (fun m f => (readSst fs f).foldl (fun m e => alInsertIfAbsent e.row_id e m) m)
    ([] : List (Nat × SstEntry))

/-- The output entry list of `sst.rs::compact_level_zero`: the merged entries
sorted ascending by `row_id`. -/
def compactOut (fs : FsT) (files : List SstFile) : List SstEntry :=
  insSort (fun a b => a.row_id ≤ b.row_id) ((compactMerged fs files).map Prod.snd)

/-- Level-0 to level-1 compaction (`sst.rs`, `compact_level_zero`): `none` on
no input files, otherwise write the merged output as a new level-1 file with
the given sequence number. -/
def compactLevelZero (fs : FsT) (files : List SstFile) (next_seq : Nat) :
    Option (SstFile × FsT) :=
  if files.isEmpty then none
  else some (⟨1, next_seq⟩, writeSst fs ⟨1, next_seq⟩ (compactOut fs files))

/-! ## WAL records and replay application (`storage/wal.rs` record type as used
by `lib.rs`, and `lib.rs::apply_record`)

The engine is modelled per table (every engine operation and every replay rule
touches only the state of the one table named in it, so tables are
independent); the `table` name fields of the records are therefore omitted. -/

/-- A WAL record (`WalRecord` as constructed and consumed by `lib.rs`). -/
inductive WalRecord
  | createTable (schema : TableSchema) (spec : Option EmbeddingSpec)
  | setNextRowId (next_row_id : Nat)
  | putRow (row_id : Nat) (row : RowData)
  | deleteRow (row_id : Nat)
  | enqueueEmbedding (row_id : Nat) (content_hash : String)
  | updateEmbeddingStatus (row_id : Nat) (status : EmbeddingStatus)
      (last_error : Option String) (attempts : Option Nat) (next_retry_at_ms : Option Nat)
  | storeEmbedding (row_id : Nat) (vector : List Rat)
deriving DecidableEq

/-- Per-table in-memory state (`lib.rs`, `TableState`). -/
structure TableState where
  schema : TableSchema
  next_row_id : Nat
  rows : List (Nat × RowData)
  tombstones : List Nat
  embeddings : List (Nat × List Rat)
  embedding_meta : List (Nat × EmbeddingMeta)
  embedding_spec : Option EmbeddingSpec
  sst_files : List SstFile
  next_sst_seq : Nat
deriving DecidableEq

/-- A fresh table (`lib.rs`, `create_table` / `apply_record` CreateTable). -/
def freshTableState (schema : TableSchema) (spec : Option EmbeddingSpec) : TableState :=
  { schema := schema, next_row_id := 1, rows := [], tombstones := [], embeddings := [],
    embedding_meta := [], embedding_spec := spec, sst_files := [], next_sst_seq := 1 }

/-- Update the meta entry for a row when it exists
(the `if let Some(meta) = ...get_mut(..)` pattern in `lib.rs`). -/
def metaAdjust (ts : TableState) (rid : Nat) (f : EmbeddingMeta → EmbeddingMeta) : TableState :=
  match alLookup rid ts.embedding_meta with
  | some m => { ts with embedding_meta := alInsert rid (f m) ts.embedding_meta }
  | none => ts

/-- Replay application of one record (`lib.rs`, `apply_record`).  Records for
a table that does not exist are skipped silently. -/
def applyRecord (state : Option TableState) : WalRecord → Option TableState
  | .createTable schema spec => some (freshTableState schema spec)
  | .setNextRowId n => state.map (fun ts => { ts with next_row_id := n })
  | .putRow rid row => state.map (fun ts =>
      { ts with rows := alInsert rid row ts.rows,
                tombstones := ts.tombstones.erase rid,
                next_row_id := if ts.next_row_id ≤ rid then rid + 1 else ts.next_row_id })
  | .deleteRow rid => state.map (fun ts =>
      { ts with rows := alErase rid ts.rows,
                tombstones := setInsert rid ts.tombstones,
                embeddings := alErase rid ts.embeddings,
                embedding_meta := alErase rid ts.embedding_meta })
  | .enqueueEmbedding rid hash => state.map (fun ts =>
      { ts with embedding_meta :=
          alInsert rid ⟨.pending, hash, none, 0, 0⟩ ts.embedding_meta })
  | .updateEmbeddingStatus rid st le att rt => state.map (fun ts =>
      metaAdjust ts rid (fun m =>
        { m with status := st, last_error := le,
                 attempts := att.getD m.attempts,
                 next_retry_at_ms := rt.getD m.next_retry_at_ms }))
  | .storeEmbedding rid vec => state.map (fun ts =>
      { ts with embeddings := alInsert rid vec ts.embeddings })

/-- Replay a whole WAL from the empty state (`EmbedDb::open`, replay loop). -/
def replayState (wal : List WalRecord) : Option TableState :=
  wal.foldl applyRecord none

/-! ## The engine (`lib.rs`, `EmbedDb`)

A `World` is the engine's in-memory state plus the persistent state it owns:
the logical WAL contents and the table's SST directory.  `tick` counts WAL
append attempts; the oracle `failAt` below says which append attempts fail at
the I/O layer (so theorems quantify over all patterns of append failures).
`allocated` is a ghost history of every row id handed out by `insert_row`. -/

/-- Engine world: persistent state (wal, fs), in-memory state (table), ghost
allocation history, and the I/O tick counter. -/
structure World where
  wal : List WalRecord
  fs : FsT
  table : Option TableState
  allocated : List Nat
  tick : Nat
deriving DecidableEq

/-- Row lookup against the SST chain, newest file first
(`lib.rs::load_row`, the `sst_files.iter().rev()` loop; the argument list is
already reversed). -/
def loadRowSst (fs : FsT) (rid : Nat) : List SstFile → Option RowData
  | [] => none
  | f :: rest =>
    match findEntry (readSst fs f) rid with
    | some entry => entry.row
    | none => loadRowSst fs rid rest

/-- Row lookup (`lib.rs`, `load_row`): memtable, then tombstones, then the SST
files newest-first. -/
def load_row (fs : FsT) (ts : TableState) (rid : Nat) : Option RowData :=
  match alLookup rid ts.rows with
  | some row => some row
  | none =>
    if rid ∈ ts.tombstones then none
    else loadRowSst fs rid ts.sst_files.reverse

/-- Row existence (`lib.rs`, `row_exists`). -/
def row_exists (fs : FsT) (ts : TableState) (rid : Nat) : Bool :=
  (load_row fs ts rid).isSome

section Engine

variable (E : Ext) (failAt : Nat → Bool)

/-- One durable WAL append attempt (`Wal::append` as the engine uses it): the
oracle decides whether this I/O attempt succeeds; the record reaches the log
exactly when it does. -/
def walAppend (w : World) (r : WalRecord) : Bool × World :=
  if failAt w.tick then (false, { w with tick := w.tick + 1 })
  else (true, { w with wal := w.wal ++ [r], tick := w.tick + 1 })

/-- `EmbedDb::create_table`. -/
def createTableW (schema : TableSchema) (spec : Option EmbeddingSpec) (w : World) :
    Except String Unit × World :=
  match w.table with
  | some _ => (.error "table already exists", w)
  | none =>
    match schema.validate_schema with
    | .error e => (.error e, w)
    | .ok _ =>
      let (ok, w1) := walAppend failAt w (.createTable schema spec)
      if ok then (.ok (), { w1 with table := some (freshTableState schema spec) })
      else (.error "wal append failed", w1)

/-- `EmbedDb::insert_row`. -/
def insertRowW (fields : Fields) (w : World) : Except String Nat × World :=
  match w.table with
  | none => (.error "table not found", w)
  | some ts =>
    match ts.schema.validate_row fields with
    | .error e => (.error e, w)
    | .ok _ =>
      let rid := ts.next_row_id
      let row : RowData := ⟨rid, fields⟩
      let (ok, w1) := walAppend failAt w (.putRow rid row)
      if !ok then (.error "wal append failed", w1)
      else
        let ts1 := { ts with
          next_row_id := if ts.next_row_id ≤ rid then rid + 1 else ts.next_row_id,
          rows := alInsert rid row ts.rows,
          tombstones := ts.tombstones.erase rid }
        let w2 := { w1 with table := some ts1, allocated := w1.allocated ++ [rid] }
        match ts.embedding_spec with
        | none => (.ok rid, w2)
        | some spec =>
          match spec.content_hash E fields with
          | .error e => (.error e, w2)
          | .ok hash =>
            let (ok2, w3) := walAppend failAt w2 (.enqueueEmbedding rid hash)
            if !ok2 then (.error "wal append failed", w3)
            else
              let ts2 := { ts1 with
                embedding_meta := alInsert rid ⟨.pending, hash, none, 0, 0⟩ ts1.embedding_meta }
              (.ok rid, { w3 with table := some ts2 })

/-- `EmbedDb::update_row`. -/
def updateRowW (rid : Nat) (fields : Fields) (w : World) : Except String Unit × World :=
  match w.table with
  | none => (.error "table not found", w)
  | some ts =>
    if !row_exists w.fs ts rid then (.error "row not found", w)
    else
      match ts.schema.validate_row fields with
      | .error e => (.error e, w)
      | .ok _ =>
        let row : RowData := ⟨rid, fields⟩
        let (ok, w1) := walAppend failAt w (.putRow rid row)
        if !ok then (.error "wal append failed", w1)
        else
          let ts1 := { ts with
            rows := alInsert rid row ts.rows,
            tombstones := ts.tombstones.erase rid }
          let w2 := { w1 with table := some ts1 }
          match ts.embedding_spec with
          | none => (.ok (), w2)
          | some spec =>
            match spec.content_hash E fields with
            | .error e => (.error e, w2)
            | .ok hash =>
              let (ok2, w3) := walAppend failAt w2 (.enqueueEmbedding rid hash)
              if !ok2 then (.error "wal append failed", w3)
              else
                let ts2 := { ts1 with
                  embedding_meta := alInsert rid ⟨.pending, hash, none, 0, 0⟩ ts1.embedding_meta }
                (.ok (), { w3 with table := some ts2 })

/-- `EmbedDb::delete_row`. -/
def deleteRowW (rid : Nat) (w : World) : Except String Unit × World :=
  match w.table with
  | none => (.error "table not found", w)
  | some ts =>
    if !row_exists w.fs ts rid then (.error "row not found", w)
    else
      let (ok, w1) := walAppend failAt w (.deleteRow rid)
      if !ok then (.error "wal append failed", w1)
      else
        let ts1 := { ts with
          rows := alErase rid ts.rows,
          tombstones := setInsert rid ts.tombstones,
          embeddings := alErase rid ts.embeddings,
          embedding_meta := alErase rid ts.embedding_meta }
        (.ok (), { w1 with table := some ts1 })

/-- `EmbedDb::get_row`. -/
def getRowW (w : World) (rid : Nat) : Except String (Option RowData) :=
  match w.table with
  | none => .error "table not found"
  | some ts => .ok (load_row w.fs ts rid)

/-- `lib.rs::flush_table_state`: drain memtable and tombstones into a new
level-0 SST file; no-op when both are empty. -/
def flushTableState (fs : FsT) (ts : TableState) : FsT × TableState :=
  if ts.rows.isEmpty && ts.tombstones.isEmpty then (fs, ts)
  else
    let entries :=
      insSort (fun a b => a.row_id ≤ b.row_id)
        (ts.rows.map (fun p => SstEntry.mk p.2.id (some p.2)) ++
          ts.tombstones.map (fun rid => SstEntry.mk rid none))
    let seq := ts.next_sst_seq
    let file : SstFile := ⟨0, seq⟩
    (writeSst fs file entries,
      { ts with next_sst_seq := seq + 1, sst_files := ts.sst_files ++ [file],
                rows := [], tombstones := [] })

/-- `EmbedDb::flush_table`. -/
def flushTableW (w : World) : Except String Unit × World :=
  match w.table with
  | none => (.error "table not found", w)
  | some ts =>
    let (fs1, ts1) := flushTableState w.fs ts
    (.ok (), { w with fs := fs1, table := some ts1 })

/-- `EmbedDb::compact_table`. -/
def compactTableW (w : World) : Except String Unit × World :=
  match w.table with
  | none => (.error "table not found", w)
  | some ts =>
    let level_zero := ts.sst_files.filter (fun f => decide (f.level = 0))
    if level_zero.isEmpty then (.ok (), w)
    else
      let seq := ts.next_sst_seq
      let ts1 := { ts with next_sst_seq := seq + 1 }
      match compactLevelZero w.fs level_zero seq with
      | none => (.ok (), { w with table := some ts1 })
      | some (newFile, fs1) =>
        let fs2 := removeFiles fs1 level_zero
        let ts2 := { ts1 with
          sst_files := ts1.sst_files.filter (fun f => decide (f.level ≠ 0)) ++ [newFile] }
        (.ok (), { w with fs := fs2, table := some ts2 })

/-- The record list a checkpoint writes for the table
(`EmbedDb::checkpoint`, record-building loop). -/
def checkpointRecords (ts : TableState) : List WalRecord :=
  [.createTable ts.schema ts.embedding_spec, .setNextRowId ts.next_row_id]
    ++ ts.embedding_meta.flatMap (fun p =>
        [.enqueueEmbedding p.1 p.2.content_hash,
         .updateEmbeddingStatus p.1 p.2.status p.2.last_error
           (some p.2.attempts) (some p.2.next_retry_at_ms)])
    ++ ts.embeddings.map (fun p => .storeEmbedding p.1 p.2)

/-- Append attempts for the records of the new checkpoint WAL: returns the
tick after the attempts and whether all succeeded. -/
def newWalAppendAll (tick : Nat) : List WalRecord → Nat × Bool
  | [] => (tick, true)
  | _ :: rest =>
    if failAt tick then (tick + 1, false) else newWalAppendAll (tick + 1) rest

/-- `EmbedDb::checkpoint`: flush the table, write a fresh WAL holding exactly
the checkpoint records, and atomically rotate it in place of the old WAL.  On
an append failure the old WAL stays (only the flush has happened). -/
def checkpointW (w : World) : Except String Unit × World :=
  match w.table with
  | none => (.ok (), { w with wal := [] })
  | some ts =>
    let (fs1, ts1) := flushTableState w.fs ts
    let records := checkpointRecords ts1
    let (tick1, ok) := newWalAppendAll failAt w.tick records
    if ok then (.ok (), { w with fs := fs1, table := some ts1, wal := records, tick := tick1 })
    else (.error "wal append failed", { w with fs := fs1, table := some ts1, tick := tick1 })

/-- `EmbedDb::open` on existing persistent state: replay the WAL into a fresh
in-memory state, then list the SST directory to rebuild `sst_files` and
`next_sst_seq` (`lib.rs`, `open`). -/
def openWorld (fs : FsT) (wal : List WalRecord) (allocated : List Nat) (tick : Nat) : World :=
  let ts := (replayState wal).map (fun ts =>
    { ts with sst_files := listSstFiles fs, next_sst_seq := maxSeq (listSstFiles fs) + 1 })
  { wal := wal, fs := fs, table := ts, allocated := allocated, tick := tick }

/-- Drop the engine handle and `open` the same directory again. -/
def reopenW (w : World) : World :=
  openWorld w.fs w.wal w.allocated w.tick

end Engine

/-! ## Embedding scheduler (`lib.rs`: backoff, retry, process_pending_jobs) -/

/-- `lib.rs`, `EMBEDDING_MAX_ATTEMPTS`. -/
def EMBEDDING_MAX_ATTEMPTS : Nat := 5

/-- `lib.rs`, `EMBEDDING_BACKOFF_BASE_MS`. -/
def EMBEDDING_BACKOFF_BASE_MS : Nat := 250

/-- `lib.rs`, `EMBEDDING_BACKOFF_CAP_MS`. -/
def EMBEDDING_BACKOFF_CAP_MS : Nat := 30000

/-- `u32::MAX` as a `Nat`. -/
def u32Max : Nat := 2 ^ 32 - 1

/-- `u64::MAX` as a `Nat`. -/
def u64Max : Nat := 2 ^ 64 - 1

/-- Retry backoff (`lib.rs`, `embedding_backoff_ms`).  `Nat` subtraction is
saturating exactly like `saturating_sub`; `checked_shl` fails only for shifts
of 64 or more bits; `saturating_mul` and the final `min` are written out. -/
def embedding_backoff_ms (attempts : Nat) : Nat :=
  if attempts ≤ 1 then EMBEDDING_BACKOFF_BASE_MS
  else
    let exp := min (attempts - 1) 20
    let mult := if exp < 64 then 1 <<< exp else u64Max
    min (min (EMBEDDING_BACKOFF_BASE_MS * mult) u64Max) EMBEDDING_BACKOFF_CAP_MS

/-- The `(new_attempts, next_retry, new_status)` triple computed by the
embedder-error branch of `process_pending_jobs_internal_at` (`lib.rs`).  The
`none` case is the branch taken when the row has no meta entry. -/
def procFailTriple (meta : Option EmbeddingMeta) (now_ms : Nat) : Nat × Nat × EmbeddingStatus :=
  match meta with
  | some m =>
    let attempts := min (m.attempts + 1) u32Max
    if EMBEDDING_MAX_ATTEMPTS ≤ attempts then (attempts, 0, .failed)
    else (attempts, min (now_ms + embedding_backoff_ms attempts) u64Max, .pending)
  | none => (1, min (now_ms + embedding_backoff_ms 1) u64Max, .pending)

section Scheduler

variable (E : Ext) (failAt : Nat → Bool)

/-- `EmbedDb::retry_failed_jobs`, snapshot phase: the Failed metas (optionally
restricted to one row id) whose row still exists. -/
def retryIds (fs : FsT) (ts : TableState) (filter : Option Nat) : List Nat :=
  ts.embedding_meta.filterMap (fun p =>
    if p.2.status = .failed && (match filter with | some f => p.1 = f | none => true)
        && row_exists fs ts p.1
    then some p.1 else none)

/-- `EmbedDb::retry_failed_jobs`, per-id loop: durably log the Pending reset,
then reflect it in memory. -/
def retryLoop (count : Nat) : List Nat → World → Except String Nat × World
  | [], w => (.ok count, w)
  | rid :: rest, w =>
    let (ok, w1) := walAppend failAt w (.updateEmbeddingStatus rid .pending none (some 0) (some 0))
    if !ok then (.error "wal append failed", w1)
    else
      let w2 := { w1 with table := w1.table.map (fun ts =>
        metaAdjust ts rid (fun m =>
          { m with status := .pending, last_error := none, attempts := 0,
                   next_retry_at_ms := 0 })) }
      retryLoop (count + 1) rest w2

/-- `EmbedDb::retry_failed_jobs`. -/
def retryFailedJobsW (filter : Option Nat) (w : World) : Except String Nat × World :=
  match w.table with
  | none => (.error "table not found", w)
  | some ts => retryLoop failAt 0 (retryIds w.fs ts filter) w

/-- `process_pending_jobs_internal_at`, snapshot phase: Pending metas whose
`next_retry_at_ms` has passed, sorted ascending and truncated to the limit. -/
def pendingIds (ts : TableState) (limit : Option Nat) (now_ms : Nat) : List Nat :=
  let ids := insSort (fun a b => a ≤ b) (ts.embedding_meta.filterMap (fun p =>
    if p.2.status = .pending && p.2.next_retry_at_ms ≤ now_ms then some p.1 else none))
  match limit with
  | some l => ids.take l
  | none => ids

/-- `process_pending_jobs_internal_at`, snapshot phase: load each row and
build its embedding input; rows that no longer load are skipped, an
`input_string` failure aborts the whole call. -/
def collectJobs (spec : EmbeddingSpec) (fs : FsT) (ts : TableState) :
    List Nat → Except String (List (Nat × String))
  | [] => .ok []
  | rid :: rest =>
    match load_row fs ts rid with
    | none => collectJobs spec fs ts rest
    | some row =>
      match spec.input_string E row.fields with
      | .error e => .error e
      | .ok input => do
        let tail ← collectJobs spec fs ts rest
        return (rid, input) :: tail

/-- `process_pending_jobs_internal_at`, dispatch loop: call the embedder for
each snapshotted job; on success durably log the vector and the Ready status,
on error durably log the retry/failure transition computed by
`procFailTriple`, and reflect each logged record in memory. -/
def jobLoop (embedder : String → Except String (List Rat)) (now_ms : Nat) (count : Nat) :
    List (Nat × String) → World → Except String Nat × World
  | [], w => (.ok count, w)
  | (rid, input) :: rest, w =>
    match embedder input with
    | .ok vec =>
      let (ok, w1) := walAppend failAt w (.storeEmbedding rid vec)
      if !ok then (.error "wal append failed", w1)
      else
        let w2 := { w1 with table := w1.table.map (fun ts =>
          { ts with embeddings := alInsert rid vec ts.embeddings }) }
        let (ok2, w3) := walAppend failAt w2
          (.updateEmbeddingStatus rid .ready none (some 0) (some 0))
        if !ok2 then (.error "wal append failed", w3)
        else
          let w4 := { w3 with table := w3.table.map (fun ts =>
            metaAdjust ts rid (fun m =>
              { m with status := .ready, last_error := none, attempts := 0,
                       next_retry_at_ms := 0 })) }
          jobLoop embedder now_ms (count + 1) rest w4
    | .error err =>
      let meta := w.table.bind (fun ts => alLookup rid ts.embedding_meta)
      let t := procFailTriple meta now_ms
      let (ok, w1) := walAppend failAt w
        (.updateEmbeddingStatus rid t.2.2 (some err) (some t.1) (some t.2.1))
      if !ok then (.error "wal append failed", w1)
      else
        let w2 := { w1 with table := w1.table.map (fun ts =>
          metaAdjust ts rid (fun m =>
            { m with status := t.2.2, last_error := some err, attempts := t.1,
                     next_retry_at_ms := t.2.1 })) }
        jobLoop embedder now_ms (count + 1) rest w2

/-- `EmbedDb::process_pending_jobs_internal_at`. -/
def processPendingJobsW (embedder : String → Except String (List Rat))
    (limit : Option Nat) (now_ms : Nat) (w : World) : Except String Nat × World :=
  match w.table with
  | none => (.error "table not found", w)
  | some ts =>
    match ts.embedding_spec with
    | none => (.ok 0, w)
    | some spec =>
      match collectJobs E spec w.fs ts (pendingIds ts limit now_ms) with
      | .error e => (.error e, w)
      | .ok jobs => jobLoop failAt embedder now_ms 0 jobs w

end Scheduler

/-! ## k-NN search (`lib.rs`, `search_knn`) -/

/-- One search result (`lib.rs`, `SearchHit`). -/
structure SearchHit where
  row_id : Nat
  distance : F
deriving DecidableEq, Repr

/-- Whether a stored embedding takes part in search: its meta status is Ready,
or it has no meta entry (`search_knn` candidate filter). -/
def eligibleB (meta : List (Nat × EmbeddingMeta)) (rid : Nat) : Bool :=
  match alLookup rid meta with
  | some m => m.status = .ready
  | none => true

/-- `EmbedDb::search_knn` over a table state: collect the distance of every
eligible stored embedding, sort ascending by the `total_cmp` order, take the
first `k`. -/
def searchKnn (sqrtF : Rat → Rat) (ts : TableState) (query : List Rat) (k : Nat)
    (metric : DistanceMetric) : List SearchHit :=
  let results := ts.embeddings.filterMap (fun p =>
    if eligibleB ts.embedding_meta p.1
    then some (SearchHit.mk p.1 (distance sqrtF query p.2 metric))
    else none)
  (insSort (fun a b => F.totalLe a.distance b.distance) results).take k

/-! ## Operation sequences

`Op` is one public mutating engine call (plus close-and-reopen); `runOps`
executes a sequence, keeping the world across errors exactly as the source
does (an error leaves whatever the call had already persisted). -/

/-- One engine operation. -/
inductive Op
  | create (schema : TableSchema) (spec : Option EmbeddingSpec)
  | insert (fields : Fields)
  | update (rid : Nat) (fields : Fields)
  | delete (rid : Nat)
  | flush
  | compact
  | checkpoint
  | reopen
  | retryFailed (filter : Option Nat)
  | processJobs (embedder : String → Except String (List Rat)) (limit : Option Nat) (now_ms : Nat)

section Run

variable (E : Ext) (failAt : Nat → Bool)

/-- Execute one operation, keeping the resulting world. -/
def stepOp (w : World) : Op → World
  | .create schema spec => (createTableW failAt schema spec w).2
  | .insert fields => (insertRowW E failAt fields w).2
  | .update rid fields => (updateRowW E failAt rid fields w).2
  | .delete rid => (deleteRowW failAt rid w).2
  | .flush => (flushTableW w).2
  | .compact => (compactTableW w).2
  | .checkpoint => (checkpointW failAt w).2
  | .reopen => reopenW w
  | .retryFailed filter => (retryFailedJobsW failAt filter w).2
  | .processJobs embedder limit now_ms => (processPendingJobsW E failAt embedder limit now_ms w).2

/-- Execute a sequence of operations. -/
def runOps (ops : List Op) (w : World) : World :=
  ops.foldl (stepOp E failAt) w

end Run

/-- The world of a freshly opened empty data directory. -/
def initWorld : World :=
  { wal := [], fs := [], table := none, allocated := [], tick := 0 }

/-! ## Byte-level WAL frames and replay (`storage/wal.rs`)

Bytes are `Nat` values below 256.  The CRC function (`crc32fast`) and the
payload decoder (`serde_json::from_slice`) are black boxes of the embedding:
`replay`'s control flow treats them abstractly, so all theorems quantify over
them. -/

/-- Little-endian 4-byte encoding of a `u32` value (`to_le_bytes`). -/
def le32 (n : Nat) : List Nat :=
  [n % 256, n / 256 % 256, n / 256 ^ 2 % 256, n / 256 ^ 3 % 256]

/-- Little-endian read of 4 bytes (`from_le_bytes`). -/
def readLe32 (bs : List Nat) : Nat :=
  match bs with
  | [a, b, c, d] => a + b * 256 + c * 256 ^ 2 + d * 256 ^ 3
  | _ => 0

section WalBytes

variable {α : Type} (crcF : List Nat → Nat) (dec : List Nat → Option α)

/-- The frame `Wal::append` writes for a payload: length, CRC over the
payload, payload — all little-endian `u32` headers. -/
def mkFrame (payload : List Nat) : List Nat :=
  le32 payload.length ++ le32 (crcF payload) ++ payload

/-- One iteration of the `Wal::replay` loop: read the length, the checksum
and the payload (stopping on a short read), verify the checksum, decode the
payload.  Returns the decoded record and the remaining bytes, or `none` for
any of the stop conditions. -/
def parseFrame (bs : List Nat) : Option (α × List Nat) :=
  if bs.length < 4 then none
  else
    let len := readLe32 (bs.take 4)
    if bs.length < 8 then none
    else
      let expected := readLe32 ((bs.drop 4).take 4)
      if (bs.drop 8).length < len then none
      else
        let payload := (bs.drop 8).take len
        if crcF payload % 2 ^ 32 ≠ expected then none
        else
          match dec payload with
          | some record => some (record, bs.drop (8 + len))
          | none => none

/-- `Wal::replay`: decode frames from the front until the first incomplete,
corrupt, or undecodable frame; return the decoded records in order. -/
def walReplay (bs : List Nat) : List α :=
  match h : parseFrame crcF dec bs with
  | none => []
  | some (record, rest) => record :: walReplay rest
termination_by bs.length
decreasing_by
  simp only [parseFrame] at h
  split at h
  · exact absurd h (by simp)
  · split at h
    · exact absurd h (by simp)
    · split at h
      · exact absurd h (by simp)
      · split at h
        · exact absurd h (by simp)
        · split at h
          · rename_i record heq
            simp only [Option.some.injEq, Prod.mk.injEq] at h
            rw [← h.2]
            simp only [List.length_drop]
            omega
          · exact absurd h (by simp)

end WalBytes

/-! ## Specification-side definitions and concrete sample data -/

/-- Modelled from the spec: the backoff formula as §4.3 states it
("if `attempts ≤ 1` → 250 ms. Otherwise `250 ms × 2^(min(attempts−1, 20))`,
capped at 30 000 ms"), written independently of `embedding_backoff_ms` for
comparison against it. -/
def specBackoff (attempts : Nat) : Nat :=
  if attempts ≤ 1 then 250 else min (250 * 2 ^ min (attempts - 1) 20) 30000

/-- Oracle under which every WAL append attempt succeeds. -/
def okOracle : Nat → Bool := fun _ => false

/-- A concrete choice of the external black boxes, for witnesses. -/
def extId : Ext := ⟨fun _ => "", fun s => s⟩

/-- A concrete stand-in for `f32::sqrt`, for witnesses. -/
def sqrtId : Rat → Rat := fun q => q

/-- A one-column sample schema. -/
def sampleSchema : TableSchema := ⟨[⟨"title", DataType.str, false⟩]⟩

/-- Sample fields, versions 1 and 2, and a generic row. -/
def fieldsV1 : Fields := [("title", Value.str "v1")]

/-- Second version of the sample fields. -/
def fieldsV2 : Fields := [("title", Value.str "v2")]

/-- Sample fields for bulk inserts. -/
def fieldsX : Fields := [("title", Value.str "x")]

/-- An embedding spec whose source field is not a schema column, so
`content_hash` fails on every row of `sampleSchema`. -/
def specBad : EmbeddingSpec := ⟨["missing"]⟩

/-- Scenario S5 of the spec: create, 200 inserts, checkpoint, reopen. -/
def opsS5 : List Op :=
  Op.create sampleSchema none ::
    (List.replicate 200 (Op.insert fieldsX) ++ [Op.checkpoint, Op.reopen])

/-- Scenario S3-style sequence of claim C1: insert, flush, compact, update,
flush, reopen. -/
def opsC1seq : List Op :=
  [Op.create sampleSchema none, Op.insert fieldsV1, Op.flush, Op.compact,
   Op.update 1 fieldsV2, Op.flush, Op.reopen]

/-- A world holding an empty table whose embedding spec references a missing
field: the smallest state on which `insert_row` fails after its `PutRow`. -/
def worldC2 : World :=
  (createTableW okOracle sampleSchema (some specBad) initWorld).2

deriving instance DecidableEq for Except

/-- Records that only touch the embedding maps of a table state (enqueue,
status update, store): replaying them never changes rows, tombstones, or the
row-id counter. -/
def isMetaRecord : WalRecord → Prop
  | .enqueueEmbedding _ _ => True
  | .updateEmbeddingStatus _ _ _ _ _ => True
  | .storeEmbedding _ _ => True
  | _ => False

/-- The last WAL record that determines whether row `i` is present after a
replay: a `PutRow` yields the row, a `DeleteRow` or a `CreateTable` (which
resets the table) yields absence, and `none` means no record decided it. -/
def lastRowEffect (wal : List WalRecord) (i : Nat) : Option (Option RowData) :=
  wal.foldl (fun acc r =>
    match r with
    | .createTable _ _ => some none
    | .putRow rid row => if rid = i then some (some row) else acc
    | .deleteRow rid => if rid = i then some none else acc
    | _ => acc) none

/-- The row `i` is pinned to `fields` in world `w`: the WAL's last word on it
is the `PutRow` of exactly that row (never deleted or overwritten since),
every SST entry on disk keyed by `i` holds exactly that row, and the
in-memory state serves the row — from the memtable, or (when neither the
memtable nor the tombstones mention `i`) from some SST file of the table.
This is the invariant that flush, compaction, and reopen preserve. -/
def rowPinned (w : World) (i : Nat) (fields : Fields) : Prop :=
  lastRowEffect w.wal i = some (some ⟨i, fields⟩) ∧
  (∀ fe ∈ w.fs, ∀ e ∈ fe.2, e.row_id = i → e.row = some (⟨i, fields⟩ : RowData)) ∧
  ∃ ts, w.table = some ts ∧
    (alLookup i ts.rows = some (⟨i, fields⟩ : RowData) ∨
      (alLookup i ts.rows = none ∧ i ∉ ts.tombstones ∧
        ∃ f ∈ ts.sst_files, ∃ e ∈ readSst w.fs f, e.row_id = i))

/-- The well-formedness invariant tying together the in-memory table state
`ts`, the state `rts` that replaying the current WAL yields, and the
persistent state of the world: row-id bounds, duplicate-freeness, the
memtable/tombstone disjointness, the correspondence between `sst_files` and
the files on disk, sortedness of file contents, sequence-number freshness,
and agreement of the replayed state's row-id counter with the live one. -/
structure WFts (w : World) (ts : TableState) (rts : TableState) : Prop where
  alloc_bound : ∀ id ∈ w.allocated, id < ts.next_row_id
  rows_bound : ∀ p ∈ ts.rows, p.1 < ts.next_row_id
  tombs_bound : ∀ id ∈ ts.tombstones, id < ts.next_row_id
  fs_bound : ∀ fe ∈ w.fs, ∀ e ∈ fe.2, e.row_id < ts.next_row_id
  rows_nodup : (ts.rows.map Prod.fst).Nodup
  tombs_nodup : ts.tombstones.Nodup
  disj : ∀ p ∈ ts.rows, p.1 ∉ ts.tombstones
  id_match : ∀ p ∈ ts.rows, p.2.id = p.1
  fs_keys_nodup : (w.fs.map Prod.fst).Nodup
  fs_seq_nodup : (w.fs.map (fun fe => fe.1.seq)).Nodup
  files_nodup : ts.sst_files.Nodup
  files_match : ∀ f : SstFile, f ∈ ts.sst_files ↔ f ∈ w.fs.map Prod.fst
  entries_sorted : ∀ fe ∈ w.fs, fe.2.Pairwise (fun a b => a.row_id < b.row_id)
  seq_bound : ∀ f ∈ ts.sst_files, f.seq < ts.next_sst_seq
  replay_nri : rts.next_row_id = ts.next_row_id
  replay_rows_bound : ∀ p ∈ rts.rows, p.1 < rts.next_row_id
  replay_rows_nodup : (rts.rows.map Prod.fst).Nodup
  replay_id_match : ∀ p ∈ rts.rows, p.2.id = p.1
  replay_tombs_bound : ∀ id ∈ rts.tombstones, id < rts.next_row_id
  replay_tombs_nodup : rts.tombstones.Nodup
  replay_disj : ∀ p ∈ rts.rows, p.1 ∉ rts.tombstones

/-- World well-formedness: either no table exists yet (empty WAL view, no
files, nothing allocated), or the table exists, the WAL replays to a state,
and `WFts` ties everything together. -/
def WF (w : World) : Prop :=
  match w.table, replayState w.wal with
  | none, none => w.allocated = [] ∧ w.fs = []
  | some ts, some rts => WFts w ts rts
  | _, _ => False

/-!
# Theorems

Everything below is proof; no further definitions are introduced except
through the statements themselves.
-/

/-! ## Association-list lemmas -/

section AlLemmas

variable {κ α : Type} [DecidableEq κ]

theorem alLookup_insert_self (k : κ) (v : α) (m : List (κ × α)) :
    alLookup k (alInsert k v m) = some v := by
  induction m with
  | nil => simp [alInsert, alLookup]
  | cons p t ih =>
    by_cases h : p.1 = k
    · simp [alInsert, alLookup, h]
    · simp [alInsert, alLookup, h, ih]

theorem alLookup_not_mem_none (k : κ) (m : List (κ × α)) (h : k ∉ m.map Prod.fst) :
    alLookup k m = none := by
  induction m with
  | nil => rfl
  | cons q t ih =>
    simp only [List.map_cons, List.mem_cons, not_or] at h
    simp only [alLookup, if_neg (fun hh : q.1 = k => h.1 hh.symm)]
    exact ih h.2

theorem alLookup_insert_ne (k j : κ) (v : α) (m : List (κ × α)) (h : j ≠ k) :
    alLookup j (alInsert k v m) = alLookup j m := by
  induction m with
  | nil =>
    simp only [alInsert, alLookup]
    rw [if_neg (fun hh : k = j => h hh.symm)]
  | cons p t ih =>
    simp only [alInsert]
    by_cases hp : p.1 = k
    · rw [if_pos hp]
      simp only [alLookup]
      rw [if_neg (fun hh : k = j => h hh.symm), if_neg (fun hh : p.1 = j => h (hh.symm.trans hp))]
    · rw [if_neg hp]
      simp only [alLookup]
      by_cases hj : p.1 = j
      · rw [if_pos hj, if_pos hj]
      · rw [if_neg hj, if_neg hj]
        exact ih

theorem mem_alInsert (k : κ) (v : α) (m : List (κ × α)) (p : κ × α)
    (h : p ∈ alInsert k v m) : p = (k, v) ∨ p ∈ m := by
  induction m with
  | nil => simpa [alInsert] using h
  | cons q t ih =>
    by_cases hq : q.1 = k
    · simp only [alInsert, hq, if_pos] at h
      rcases List.mem_cons.mp h with h | h
      · exact Or.inl h
      · exact Or.inr (List.mem_cons_of_mem _ h)
    · simp only [alInsert, hq, if_neg, not_false_iff] at h
      rcases List.mem_cons.mp h with h | h
      · exact Or.inr (h ▸ List.mem_cons_self _ _)
      · rcases ih h with h | h
        · exact Or.inl h
        · exact Or.inr (List.mem_cons_of_mem _ h)

theorem keys_alInsert (k : κ) (v : α) (m : List (κ × α)) (j : κ) :
    j ∈ (alInsert k v m).map Prod.fst ↔ j = k ∨ j ∈ m.map Prod.fst := by
  induction m with
  | nil => simp [alInsert]
  | cons q t ih =>
    by_cases hq : q.1 = k
    · subst hq
      simp [alInsert]
    · simp only [alInsert, hq, if_neg, not_false_iff, List.map_cons, List.mem_cons, ih]
      tauto

theorem nodup_keys_alInsert (k : κ) (v : α) (m : List (κ × α))
    (h : (m.map Prod.fst).Nodup) : ((alInsert k v m).map Prod.fst).Nodup := by
  induction m with
  | nil => simp [alInsert]
  | cons q t ih =>
    simp only [List.map_cons, List.nodup_cons] at h
    by_cases hq : q.1 = k
    · subst hq
      simp only [alInsert, if_pos]
      simpa using h
    · simp only [alInsert, hq, if_neg, not_false_iff, List.map_cons, List.nodup_cons]
      constructor
      · intro hin
        rcases (keys_alInsert k v t q.1).mp hin with h1 | h1
        · exact hq h1
        · exact h.1 h1
      · exact ih h.2

theorem mem_alErase (k : κ) (m : List (κ × α)) (p : κ × α) (h : p ∈ alErase k m) : p ∈ m := by
  induction m with
  | nil => simpa [alErase] using h
  | cons q t ih =>
    by_cases hq : q.1 = k
    · simp only [alErase, hq, if_pos] at h
      exact List.mem_cons_of_mem _ h
    · simp only [alErase, hq, if_neg, not_false_iff] at h
      rcases List.mem_cons.mp h with h | h
      · exact h ▸ List.mem_cons_self _ _
      · exact List.mem_cons_of_mem _ (ih h)

theorem keys_alErase (k : κ) (m : List (κ × α)) (j : κ)
    (h : j ∈ (alErase k m).map Prod.fst) : j ∈ m.map Prod.fst := by
  rcases List.mem_map.mp h with ⟨p, hp, rfl⟩
  exact List.mem_map_of_mem _ (mem_alErase k m p hp)

theorem nodup_keys_alErase (k : κ) (m : List (κ × α))
    (h : (m.map Prod.fst).Nodup) : ((alErase k m).map Prod.fst).Nodup := by
  induction m with
  | nil => simp [alErase]
  | cons q t ih =>
    simp only [List.map_cons, List.nodup_cons] at h
    by_cases hq : q.1 = k
    · simp only [alErase, hq, if_pos]
      exact h.2
    · simp only [alErase, hq, if_neg, not_false_iff, List.map_cons, List.nodup_cons]
      exact ⟨fun hin => h.1 (keys_alErase k t q.1 hin), ih h.2⟩

theorem alLookup_erase_self (k : κ) (m : List (κ × α)) (h : (m.map Prod.fst).Nodup) :
    alLookup k (alErase k m) = none := by
  induction m with
  | nil => rfl
  | cons q t ih =>
    simp only [List.map_cons, List.nodup_cons] at h
    simp only [alErase]
    by_cases hq : q.1 = k
    · rw [if_pos hq]
      exact alLookup_not_mem_none k t (hq ▸ h.1)
    · rw [if_neg hq]
      simp only [alLookup, if_neg hq]
      exact ih h.2

theorem alLookup_erase_ne (k j : κ) (m : List (κ × α)) (h : j ≠ k) :
    alLookup j (alErase k m) = alLookup j m := by
  induction m with
  | nil => rfl
  | cons q t ih =>
    simp only [alErase]
    by_cases hq : q.1 = k
    · rw [if_pos hq]
      simp only [alLookup, if_neg (fun hh : q.1 = j => h (hh.symm.trans hq))]
    · rw [if_neg hq]
      simp only [alLookup]
      by_cases hj : q.1 = j
      · rw [if_pos hj, if_pos hj]
      · rw [if_neg hj, if_neg hj]
        exact ih

theorem alLookup_mem (k : κ) (m : List (κ × α)) (v : α) (h : alLookup k m = some v) :
    (k, v) ∈ m := by
  induction m with
  | nil => simp [alLookup] at h
  | cons q t ih =>
    simp only [alLookup] at h
    by_cases hq : q.1 = k
    · rw [if_pos hq] at h
      injection h with h2
      have hqe : q = (k, v) := by
        obtain ⟨q1, q2⟩ := q
        simp only at hq h2
        rw [hq, h2]
      rw [← hqe]
      exact List.mem_cons_self _ _
    · rw [if_neg hq] at h
      exact List.mem_cons_of_mem _ (ih h)

theorem alLookup_none_not_mem (k : κ) (m : List (κ × α)) (h : alLookup k m = none) :
    k ∉ m.map Prod.fst := by
  induction m with
  | nil => simp
  | cons q t ih =>
    by_cases hq : q.1 = k
    · simp [alLookup, hq] at h
    · simp only [alLookup, hq, if_neg, not_false_iff] at h
      simp only [List.map_cons, List.mem_cons, not_or]
      exact ⟨fun hh => hq hh.symm, ih h⟩

theorem alLookup_isSome_of_mem (k : κ) (m : List (κ × α)) (v : α) (h : (k, v) ∈ m) :
    (alLookup k m).isSome := by
  induction m with
  | nil => simp at h
  | cons q t ih =>
    rcases List.mem_cons.mp h with h | h
    · simp [alLookup, ← h]
    · by_cases hq : q.1 = k
      · simp [alLookup, hq]
      · simp only [alLookup, hq, if_neg, not_false_iff]
        exact ih h

theorem mem_setInsert (k j : Nat) (s : List Nat) :
    j ∈ setInsert k s ↔ j = k ∨ j ∈ s := by
  by_cases h : k ∈ s
  · simp only [setInsert, h, if_pos]
    constructor
    · exact Or.inr
    · rintro (rfl | hj)
      · exact h
      · exact hj
  · simp [setInsert, h]

theorem nodup_setInsert (k : Nat) (s : List Nat) (h : s.Nodup) : (setInsert k s).Nodup := by
  by_cases hk : k ∈ s
  · simpa [setInsert, hk] using h
  · simp only [setInsert, hk, if_neg, not_false_iff]
    exact List.nodup_cons.mpr ⟨hk, h⟩

end AlLemmas

/-! ## Stable sort lemmas -/

section SortLemmas

variable {β : Type} (le : β → β → Bool)

theorem insertOrd_perm (x : β) (l : List β) : (insertOrd le x l).Perm (x :: l) := by
  induction l with
  | nil => exact List.Perm.refl _
  | cons y t ih =>
    by_cases h : le x y
    · simp only [insertOrd, h, if_pos]
      exact List.Perm.refl _
    · simp only [insertOrd, h, if_neg, not_false_iff, Bool.false_eq_true]
      exact (ih.cons y).trans (List.Perm.swap x y t)

theorem insSort_perm (l : List β) : (insSort le l).Perm l := by
  induction l with
  | nil => exact List.Perm.refl _
  | cons x t ih =>
    exact (insertOrd_perm le x (insSort le t)).trans (ih.cons x)

theorem insertOrd_sorted
    (htrans : ∀ a b c, le a b = true → le b c = true → le a c = true)
    (htot : ∀ a b, (le a b || le b a) = true)
    (x : β) (l : List β) (hs : l.Pairwise (fun a b => le a b = true)) :
    (insertOrd le x l).Pairwise (fun a b => le a b = true) := by
  induction l with
  | nil => exact List.pairwise_singleton _ _
  | cons y t ih =>
    rcases List.pairwise_cons.mp hs with ⟨hy, ht⟩
    by_cases h : le x y
    · simp only [insertOrd, h, if_pos]
      refine List.pairwise_cons.mpr ⟨?_, hs⟩
      intro z hz
      rcases List.mem_cons.mp hz with rfl | hz
      · exact h
      · exact htrans x y z h (hy z hz)
    · simp only [insertOrd, h, if_neg, not_false_iff, Bool.false_eq_true]
      have hyx : le y x = true := by
        rcases Bool.or_eq_true_iff.mp (htot x y) with h1 | h1
        · exact absurd h1 h
        · exact h1
      refine List.pairwise_cons.mpr ⟨?_, ih ht⟩
      intro z hz
      have hz' : z ∈ x :: t := (insertOrd_perm le x t).subset hz
      rcases List.mem_cons.mp hz' with rfl | hz'
      · exact hyx
      · exact hy z hz'

theorem insSort_sorted
    (htrans : ∀ a b c, le a b = true → le b c = true → le a c = true)
    (htot : ∀ a b, (le a b || le b a) = true)
    (l : List β) : (insSort le l).Pairwise (fun a b => le a b = true) := by
  induction l with
  | nil => exact List.Pairwise.nil
  | cons x t ih => exact insertOrd_sorted le htrans htot x (insSort le t) ih

end SortLemmas

/-! ## Total order on distance values -/

theorem F.totalLe_trans (a b c : F) (hab : F.totalLe a b = true) (hbc : F.totalLe b c = true) :
    F.totalLe a c = true := by
  cases a <;> cases b <;> cases c <;> simp_all [F.totalLe] <;> exact le_trans hab hbc

theorem F.totalLe_total (a b : F) : (F.totalLe a b || F.totalLe b a) = true := by
  cases a <;> cases b <;> simp [F.totalLe] <;> exact le_total _ _

/-- NaN is the greatest element of the total order. -/
theorem F.totalLe_nan (a : F) : F.totalLe a .nan = true := by
  cases a <;> rfl

theorem dotAcc_norms_nonneg (a b : List Rat) :
    0 ≤ (dotAcc a b).2.1 ∧ 0 ≤ (dotAcc a b).2.2 := by
  unfold dotAcc
  generalize a.zip b = l
  induction l using List.reverseRecOn with
  | nil => simp
  | append_singleton xs x ih =>
    rw [List.foldl_append]
    refine ⟨?_, ?_⟩
    · exact add_nonneg ih.1 (mul_self_nonneg _)
    · exact add_nonneg ih.2 (mul_self_nonneg _)

theorem dotAcc_zero_of_left_zero (a b : List Rat) (h : ∀ x ∈ a, x = 0) :
    (dotAcc a b).2.1 = 0 := by
  unfold dotAcc
  have hz0 : ∀ p ∈ a.zip b, p.1 = 0 := by
    intro p hp
    exact h p.1 (List.of_mem_zip hp).1
  revert hz0
  generalize a.zip b = l
  intro hz
  induction l using List.reverseRecOn with
  | nil => simp
  | append_singleton xs x ih =>
    rw [List.foldl_append]
    have hx : x.1 = 0 := hz x (by simp)
    have hs := ih (fun p hp => hz p (by simp [hp]))
    simp only [List.foldl_cons, List.foldl_nil]
    simp [hx]
    exact hs

/-! ## Claim C9: row validation and Null -/

theorem checkColumns_ok_iff (fields : Fields) (cols : List Column) :
    checkColumns fields cols = .ok () ↔
      ∀ c ∈ cols, (match fieldsGet fields c.name with
        | some v => v.matches c.data_type
        | none => c.nullable) = true := by
  induction cols with
  | nil => simp [checkColumns]
  | cons c rest ih =>
    simp only [checkColumns]
    cases hv : fieldsGet fields c.name with
    | some v =>
      by_cases hm : v.matches c.data_type
      · simp only [hm, if_pos, ih, List.mem_cons]
        constructor
        · intro hall d hd
          rcases hd with rfl | hd
          · simp [hv, hm]
          · exact hall d hd
        · intro hall d hd
          exact hall d (Or.inr hd)
      · simp only [hm, if_neg, not_false_iff]
        constructor
        · intro hh
          exact absurd hh (by simp)
        · intro hall
          have := hall c (List.mem_cons_self _ _)
          rw [hv] at this
          exact absurd this hm
    | none =>
      by_cases hn : c.nullable
      · simp only [hn, if_pos, ih, List.mem_cons]
        constructor
        · intro hall d hd
          rcases hd with rfl | hd
          · simp [hv, hn]
          · exact hall d hd
        · intro hall d hd
          exact hall d (Or.inr hd)
      · simp only [hn, if_neg, not_false_iff]
        constructor
        · intro hh
          exact absurd hh (by simp)
        · intro hall
          have := hall c (List.mem_cons_self _ _)
          rw [hv] at this
          simp only [hn] at this
          cases this

theorem checkUnknown_ok_iff (cols : List Column) (fields : Fields) :
    checkUnknown cols fields = .ok () ↔
      ∀ kv ∈ fields, cols.any (fun col => col.name = kv.1) = true := by
  induction fields with
  | nil => simp [checkUnknown]
  | cons p rest ih =>
    simp only [checkUnknown]
    by_cases hp : cols.any (fun col => col.name = p.1)
    · simp only [hp, if_pos, ih, List.mem_cons]
      constructor
      · intro hall kv hkv
        rcases hkv with rfl | hkv
        · exact hp
        · exact hall kv hkv
      · intro hall kv hkv
        exact hall kv (Or.inr hkv)
    · simp only [hp, if_neg, not_false_iff]
      constructor
      · intro hh
        exact absurd hh (by simp)
      · intro hall
        exact absurd (hall p (List.mem_cons_self _ _)) hp

theorem validate_row_split (s : TableSchema) (fields : Fields) :
    s.validate_row fields = .ok () ↔
      checkColumns fields s.columns = .ok () ∧ checkUnknown s.columns fields = .ok () := by
  simp only [TableSchema.validate_row, bind, Except.bind]
  cases hc : checkColumns fields s.columns with
  | error e => simp
  | ok u =>
    cases u
    simp

theorem validate_row_ok_iff (s : TableSchema) (fields : Fields) :
    s.validate_row fields = .ok () ↔
      (∀ c ∈ s.columns, (match fieldsGet fields c.name with
        | some v => v.matches c.data_type
        | none => c.nullable) = true) ∧
      (∀ kv ∈ fields, s.columns.any (fun col => col.name = kv.1) = true) := by
  rw [validate_row_split, checkColumns_ok_iff, checkUnknown_ok_iff]

/-- Claim C9: row validation accepts an explicit `Null` for a non-nullable
column, because a `Null` value matches every declared type and the
non-nullable check only requires presence; validation fails only for a
missing non-nullable column, a present non-Null value of the wrong tag, or an
unknown field name. -/
theorem claim_C9 :
    (∀ t : DataType, Value.null.matches t = true) ∧
    (∀ s : TableSchema, ∀ fields : Fields,
      s.validate_row fields = .ok () ↔
        (∀ c ∈ s.columns, (match fieldsGet fields c.name with
          | some v => v.matches c.data_type
          | none => c.nullable) = true) ∧
        (∀ kv ∈ fields, s.columns.any (fun col => col.name = kv.1) = true)) ∧
    (∀ name : String, ∀ ty : DataType,
      TableSchema.validate_row ⟨[⟨name, ty, false⟩]⟩ [(name, Value.null)] = .ok ()) := by
  refine ⟨fun t => by cases t <;> rfl, validate_row_ok_iff, ?_⟩
  intro name ty
  rw [validate_row_ok_iff]
  constructor
  · intro c hc
    rcases List.mem_singleton.mp hc with rfl
    simp only [fieldsGet, if_pos rfl]
    cases ty <;> rfl
  · intro kv hkv
    rcases List.mem_singleton.mp hkv with rfl
    simp [List.any]

/-! ## Claim C10: cosine distance zero-norm guard -/

/-- Claim C10: when either accumulated squared norm is zero (for example, a
vector of zeros), cosine distance returns exactly `1.0` from the guard; and
when the guard does not fire, the divisor `sqrt(norm_a) * sqrt(norm_b)` is
nonzero for any square root that is positive on positives, so the division by
the norm product never divides by zero. -/
theorem claim_C10 :
    (∀ (sqrtF : Rat → Rat) (a b : List Rat),
      (dotAcc a b).2.1 = 0 ∨ (dotAcc a b).2.2 = 0 →
        cosine_distance sqrtF a b = .fin 1) ∧
    (∀ (sqrtF : Rat → Rat) (a b : List Rat),
      a.length = b.length → a ≠ [] → (∀ x ∈ a, x = 0) →
        distance sqrtF a b .cosine = .fin 1) ∧
    (∀ (sqrtF : Rat → Rat), (∀ q : Rat, 0 < q → 0 < sqrtF q) →
      ∀ (a b : List Rat), ¬((dotAcc a b).2.1 = 0 ∨ (dotAcc a b).2.2 = 0) →
        sqrtF (dotAcc a b).2.1 * sqrtF (dotAcc a b).2.2 ≠ 0) := by
  refine ⟨?_, ?_, ?_⟩
  · intro sqrtF a b h
    simp [cosine_distance, h]
  · intro sqrtF a b hlen hne hz
    have hguard : (dotAcc a b).2.1 = 0 ∨ (dotAcc a b).2.2 = 0 :=
      Or.inl (dotAcc_zero_of_left_zero a b hz)
    have hemp : a.isEmpty = false := by
      cases a with
      | nil => exact absurd rfl hne
      | cons x t => rfl
    simp only [distance, hlen, ne_eq, not_true_eq_false, false_or, hemp,
      Bool.false_eq_true, if_false]
    simp [cosine_distance, hguard]
  · intro sqrtF hpos a b h
    push_neg at h
    have h1 : 0 < (dotAcc a b).2.1 :=
      lt_of_le_of_ne (dotAcc_norms_nonneg a b).1 (Ne.symm h.1)
    have h2 : 0 < (dotAcc a b).2.2 :=
      lt_of_le_of_ne (dotAcc_norms_nonneg a b).2 (Ne.symm h.2)
    exact ne_of_gt (mul_pos (hpos _ h1) (hpos _ h2))

/-- Witness for C10 at concrete inputs: the zero vector against `[3]` under
the cosine metric gives exactly `1`, and for nonzero norms the divisor is
nonzero at a concrete positive-preserving square root. -/
theorem claim_C10_witness :
    distance sqrtId [0] [3] .cosine = .fin 1 ∧
    sqrtId (dotAcc [2] [3]).2.1 * sqrtId (dotAcc [2] [3]).2.2 ≠ 0 := by
  constructor
  · exact claim_C10.2.1 sqrtId [0] [3] (by simp) (by simp) (by simp)
  · refine claim_C10.2.2 sqrtId (fun q hq => hq) [2] [3] ?_
    simp only [dotAcc, List.zip, List.zipWith, List.foldl]
    norm_num

/-! ## Claim C7: k-NN search -/

theorem filterMap_if_eq_map_filter {β γ : Type} (p : β → Bool) (f : β → γ) (l : List β) :
    l.filterMap (fun x => if p x then some (f x) else none) = (l.filter p).map f := by
  induction l with
  | nil => rfl
  | cons x t ih =>
    by_cases hx : p x
    · simp [List.filterMap_cons, List.filter_cons, hx, ih]
    · simp [List.filterMap_cons, List.filter_cons, hx, ih]

theorem hitLe_trans (a b c : SearchHit)
    (hab : F.totalLe a.distance b.distance = true)
    (hbc : F.totalLe b.distance c.distance = true) :
    F.totalLe a.distance c.distance = true :=
  F.totalLe_trans _ _ _ hab hbc

theorem hitLe_total (a b : SearchHit) :
    (F.totalLe a.distance b.distance || F.totalLe b.distance a.distance) = true :=
  F.totalLe_total _ _

/-- Claim C7: `search_knn` considers exactly the stored embeddings whose meta
is Ready or absent, sorts the candidates ascending under the `total_cmp`
order (which places NaN greatest), and returns the first `k` — the returned
hits are sorted and, together with some leftover list, are a permutation of
the full eligible candidate list, with every left-out candidate at least as
far (in the total order) as every returned hit, so the result is exactly the
`k` nearest; a length-mismatched or empty query yields `+inf` distance
instead of an error. -/
theorem claim_C7 :
    (∀ (sqrtF : Rat → Rat) (ts : TableState) (query : List Rat) (k : Nat)
        (metric : DistanceMetric),
      (searchKnn sqrtF ts query k metric).length =
        min k ((ts.embeddings.filter (fun p => eligibleB ts.embedding_meta p.1)).length) ∧
      (∀ h ∈ searchKnn sqrtF ts query k metric, ∃ p, p ∈ ts.embeddings ∧
        eligibleB ts.embedding_meta p.1 = true ∧
        h = SearchHit.mk p.1 (distance sqrtF query p.2 metric)) ∧
      (searchKnn sqrtF ts query k metric).Pairwise
        (fun a b => F.totalLe a.distance b.distance = true) ∧
      (∃ rest : List SearchHit,
        (searchKnn sqrtF ts query k metric ++ rest).Perm
          ((ts.embeddings.filter (fun p => eligibleB ts.embedding_meta p.1)).map
            (fun p => SearchHit.mk p.1 (distance sqrtF query p.2 metric))) ∧
        ∀ r ∈ rest, ∀ h ∈ searchKnn sqrtF ts query k metric,
          F.totalLe h.distance r.distance = true)) ∧
    (∀ (sqrtF : Rat → Rat) (q v : List Rat) (metric : DistanceMetric),
      q.length ≠ v.length ∨ q = [] → distance sqrtF q v metric = .inf) ∧
    (∀ x : F, F.totalLe x .nan = true) ∧
    (∀ x y : F, F.totalLe x y = true ∨ F.totalLe y x = true) := by
  refine ⟨?_, ?_, F.totalLe_nan, ?_⟩
  · intro sqrtF ts query k metric
    have hres : ts.embeddings.filterMap (fun p =>
        if eligibleB ts.embedding_meta p.1
        then some (SearchHit.mk p.1 (distance sqrtF query p.2 metric))
        else none) =
        (ts.embeddings.filter (fun p => eligibleB ts.embedding_meta p.1)).map
          (fun p => SearchHit.mk p.1 (distance sqrtF query p.2 metric)) :=
      filterMap_if_eq_map_filter _ _ _
    have hsorted := insSort_sorted (fun a b => F.totalLe a.distance b.distance)
      (fun a b c => hitLe_trans a b c) hitLe_total
      ((ts.embeddings.filter (fun p => eligibleB ts.embedding_meta p.1)).map
        (fun p => SearchHit.mk p.1 (distance sqrtF query p.2 metric)))
    refine ⟨?_, ?_, ?_, ?_⟩
    · simp only [searchKnn, hres, List.length_take]
      rw [(insSort_perm _ _).length_eq]
      simp
    · intro h hh
      simp only [searchKnn, hres] at hh
      have h1 := List.mem_of_mem_take hh
      rw [(insSort_perm _ _).mem_iff] at h1
      rcases List.mem_map.mp h1 with ⟨p, hp, rfl⟩
      exact ⟨p, (List.mem_filter.mp hp).1, (List.mem_filter.mp hp).2, rfl⟩
    · simp only [searchKnn, hres]
      exact List.Pairwise.sublist (List.take_sublist _ _) hsorted
    · simp only [searchKnn, hres]
      refine ⟨(insSort (fun a b => F.totalLe a.distance b.distance)
          ((ts.embeddings.filter (fun p => eligibleB ts.embedding_meta p.1)).map
            (fun p => SearchHit.mk p.1 (distance sqrtF query p.2 metric)))).drop k,
        ?_, ?_⟩
      · rw [List.take_append_drop]
        exact insSort_perm _ _
      · intro r hr h hh
        rw [← List.take_append_drop k (insSort (fun a b => F.totalLe a.distance b.distance)
          ((ts.embeddings.filter (fun p => eligibleB ts.embedding_meta p.1)).map
            (fun p => SearchHit.mk p.1 (distance sqrtF query p.2 metric)))),
          List.pairwise_append] at hsorted
        exact hsorted.2.2 h hh r hr
  · intro sqrtF q v metric h
    rcases h with h | h
    · simp [distance, h]
    · subst h
      simp [distance]
  · intro x y
    have := F.totalLe_total x y
    rcases Bool.or_eq_true_iff.mp this with h | h
    · exact Or.inl h
    · exact Or.inr h

/-- Witness for C7 at a concrete input: a query of length 1 against a stored
vector of length 2 gets distance `+inf`. -/
theorem claim_C7_witness : distance sqrtId [1] [1, 2] DistanceMetric.l2 = F.inf :=
  claim_C7.2.1 sqrtId [1] [1, 2] DistanceMetric.l2 (Or.inl (by simp))

/-! ## Claim C6: retry backoff and the embedder-error transition -/

theorem backoff_eq_specBackoff (a : Nat) : embedding_backoff_ms a = specBackoff a := by
  unfold embedding_backoff_ms specBackoff
  by_cases h : a ≤ 1
  · simp [h, EMBEDDING_BACKOFF_BASE_MS]
  · simp only [h, if_neg, not_false_iff, if_false]
    have hexp : min (a - 1) 20 < 64 := by
      have := min_le_right (a - 1) 20
      omega
    rw [if_pos hexp, Nat.shiftLeft_eq, one_mul]
    have h2 : (2 : Nat) ^ min (a - 1) 20 ≤ 2 ^ 20 :=
      Nat.pow_le_pow_right (by norm_num) (min_le_right _ _)
    have hle : EMBEDDING_BACKOFF_BASE_MS * 2 ^ min (a - 1) 20 ≤ u64Max := by
      have : EMBEDDING_BACKOFF_BASE_MS * 2 ^ min (a - 1) 20 ≤
          EMBEDDING_BACKOFF_BASE_MS * 2 ^ 20 := Nat.mul_le_mul_left _ h2
      have hconst : EMBEDDING_BACKOFF_BASE_MS * 2 ^ 20 ≤ u64Max := by
        norm_num [EMBEDDING_BACKOFF_BASE_MS, u64Max]
      omega
    rw [min_eq_left hle]
    rfl

/-- Claim C6: on an embedder error for a job with meta, the new attempts
count is the old plus one (saturating at `u32::MAX`); at 5 or more new
attempts the job becomes Failed with `next_retry = 0`, otherwise it stays
Pending with `next_retry = now + backoff(new)` (saturating at `u64::MAX`),
where the backoff is exactly the spec's `min(250 · 2^min(a−1,20), 30000)`
formula (250 for `a ≤ 1`); the error text is stored as `last_error`. -/
theorem claim_C6 :
    (∀ a : Nat, embedding_backoff_ms a = specBackoff a) ∧
    (∀ (m : EmbeddingMeta) (now_ms : Nat),
      procFailTriple (some m) now_ms =
        (min (m.attempts + 1) u32Max,
         if 5 ≤ min (m.attempts + 1) u32Max then 0
           else min (now_ms + specBackoff (min (m.attempts + 1) u32Max)) u64Max,
         if 5 ≤ min (m.attempts + 1) u32Max then EmbeddingStatus.failed
           else EmbeddingStatus.pending)) ∧
    (∀ (ts : TableState) (rid : Nat) (m : EmbeddingMeta) (now_ms : Nat) (err : String),
      alLookup rid ts.embedding_meta = some m →
      alLookup rid (metaAdjust ts rid (fun mm =>
        { mm with status := (procFailTriple (some m) now_ms).2.2,
                  last_error := some err,
                  attempts := (procFailTriple (some m) now_ms).1,
                  next_retry_at_ms := (procFailTriple (some m) now_ms).2.1 })).embedding_meta =
        some { m with status := (procFailTriple (some m) now_ms).2.2,
                      last_error := some err,
                      attempts := (procFailTriple (some m) now_ms).1,
                      next_retry_at_ms := (procFailTriple (some m) now_ms).2.1 }) := by
  refine ⟨backoff_eq_specBackoff, ?_, ?_⟩
  · intro m now_ms
    simp only [procFailTriple, EMBEDDING_MAX_ATTEMPTS, backoff_eq_specBackoff]
    split <;> rfl
  · intro ts rid m now_ms err h
    simp only [metaAdjust, h]
    exact alLookup_insert_self _ _ _

/-- Witness for C6: a job with one prior attempt failing at `now = 1000000`
moves to attempts 2, Pending, retry at `1000500` (backoff 500 ms), with the
error text stored. -/
theorem claim_C6_witness :
    alLookup 1 (metaAdjust
        ⟨sampleSchema, 2, [], [], [], [(1, ⟨.pending, "h", none, 1, 0⟩)], none, [], 1⟩ 1
        (fun mm =>
          { mm with
            status := (procFailTriple (some ⟨.pending, "h", none, 1, 0⟩) 1000000).2.2,
            last_error := some "boom",
            attempts := (procFailTriple (some ⟨.pending, "h", none, 1, 0⟩) 1000000).1,
            next_retry_at_ms :=
              (procFailTriple (some ⟨.pending, "h", none, 1, 0⟩) 1000000).2.1 })).embedding_meta =
      some ⟨.pending, "h", some "boom", 2, 1000500⟩ := by
  have h := claim_C6.2.2
    ⟨sampleSchema, 2, [], [], [], [(1, ⟨.pending, "h", none, 1, 0⟩)], none, [], 1⟩
    1 ⟨.pending, "h", none, 1, 0⟩ 1000000 "boom" (by decide)
  rw [h]
  decide

/-! ## Claim C4: WAL replay returns exactly the valid frame prefix -/

theorem readLe32_le32 (n : Nat) : readLe32 (le32 n) = n % 2 ^ 32 := by
  simp only [le32, readLe32]
  omega

theorem le32_mod (n : Nat) : le32 (n % 2 ^ 32) = le32 n := by
  simp only [le32, List.cons.injEq, and_true]
  omega

theorem le32_readLe32 (bs : List Nat) (hlen : bs.length = 4) (hb : ∀ b ∈ bs, b < 256) :
    le32 (readLe32 bs) = bs := by
  match bs, hlen with
  | [a, b, c, d], _ =>
    have ha := hb a (by simp)
    have hbb := hb b (by simp)
    have hc := hb c (by simp)
    have hd := hb d (by simp)
    simp only [readLe32, le32, List.cons.injEq, and_true]
    omega

theorem walReplay_parse_none {α : Type} (crcF : List Nat → Nat) (dec : List Nat → Option α)
    (bs : List Nat) (h : parseFrame crcF dec bs = none) : walReplay crcF dec bs = [] := by
  rw [walReplay.eq_def]
  split
  · rfl
  · rename_i r rest heq
    rw [h] at heq
    cases heq

theorem walReplay_parse_some {α : Type} (crcF : List Nat → Nat) (dec : List Nat → Option α)
    (bs : List Nat) (r : α) (rest : List Nat) (h : parseFrame crcF dec bs = some (r, rest)) :
    walReplay crcF dec bs = r :: walReplay crcF dec rest := by
  rw [walReplay.eq_def]
  split
  · rename_i heq
    rw [h] at heq
    cases heq
  · rename_i r' rest' heq
    rw [h] at heq
    simp only [Option.some.injEq, Prod.mk.injEq] at heq
    rw [← heq.1, ← heq.2]

theorem walReplay_spec {α : Type} (crcF : List Nat → Nat) (dec : List Nat → Option α)
    (bs : List Nat) (hb : ∀ b ∈ bs, b < 256) :
    ∃ (ps : List (List Nat)) (sfx : List Nat),
      bs = (ps.map (mkFrame crcF)).flatten ++ sfx ∧
      ps.map dec = (walReplay crcF dec bs).map some ∧
      parseFrame crcF dec sfx = none := by
  cases hp : parseFrame crcF dec bs with
  | none =>
    refine ⟨[], bs, by simp, ?_, hp⟩
    rw [walReplay_parse_none crcF dec bs hp]
    rfl
  | some pr =>
    obtain ⟨r, rest⟩ := pr
    have hp' := hp
    simp only [parseFrame] at hp'
    split at hp'
    · exact absurd hp' (by simp)
    · split at hp'
      · exact absurd hp' (by simp)
      · split at hp'
        · exact absurd hp' (by simp)
        · split at hp'
          · exact absurd hp' (by simp)
          · split at hp'
            · rename_i h4 h8 hlen hcrc xscr rec0 hdec
              simp only [Option.some.injEq, Prod.mk.injEq] at hp'
              obtain ⟨hrec, hrest⟩ := hp'
              -- abbreviations matching parseFrame
              have hblen4 : ¬ bs.length < 4 := h4
              have hblen8 : ¬ bs.length < 8 := h8
              have hrest' : rest = bs.drop (8 + readLe32 (bs.take 4)) := hrest.symm
              have hdrop : rest.length < bs.length := by
                rw [hrest']
                simp only [List.length_drop]
                omega
              have hbrest : ∀ b ∈ rest, b < 256 := by
                intro b hbm
                exact hb b (List.mem_of_mem_drop (hrest' ▸ hbm))
              obtain ⟨ps', sfx, hbs', hmap', hsfx⟩ := walReplay_spec crcF dec rest hbrest
              -- the payload of the first frame
              refine ⟨(bs.drop 8).take (readLe32 (bs.take 4)) :: ps', sfx, ?_, ?_, hsfx⟩
              · -- byte-level decomposition
                have hlen4 : (bs.take 4).length = 4 := by
                  simp only [List.length_take]
                  omega
                have hlencrc : ((bs.drop 4).take 4).length = 4 := by
                  simp only [List.length_take, List.length_drop]
                  omega
                have hplen : ((bs.drop 8).take (readLe32 (bs.take 4))).length =
                    readLe32 (bs.take 4) := by
                  simp only [List.length_take, List.length_drop] at hlen ⊢
                  omega
                have hhead : le32 ((bs.drop 8).take (readLe32 (bs.take 4))).length =
                    bs.take 4 := by
                  rw [hplen]
                  exact le32_readLe32 _ hlen4 (fun b hbm => hb b (List.mem_of_mem_take hbm))
                have hcrceq : le32 (crcF ((bs.drop 8).take (readLe32 (bs.take 4)))) =
                    (bs.drop 4).take 4 := by
                  rw [← le32_mod]
                  push_neg at hcrc
                  rw [hcrc]
                  exact le32_readLe32 _ hlencrc
                    (fun b hbm => hb b (List.mem_of_mem_drop (List.mem_of_mem_take hbm)))
                have hsplit8 : (bs.drop 4).take 4 ++ bs.drop 8 = bs.drop 4 := by
                  have := List.take_append_drop 4 (bs.drop 4)
                  rwa [List.drop_drop] at this
                have hsplitp : (bs.drop 8).take (readLe32 (bs.take 4)) ++
                    bs.drop (8 + readLe32 (bs.take 4)) = bs.drop 8 := by
                  have h0 := List.take_append_drop (readLe32 (bs.take 4)) (bs.drop 8)
                  rw [List.drop_drop] at h0
                  exact h0
                simp only [List.map_cons, List.flatten_cons, mkFrame, hhead, hcrceq,
                  List.append_assoc]
                rw [← hbs', hrest', hsplitp, hsplit8, List.take_append_drop]
              · rw [walReplay_parse_some crcF dec bs r rest hp]
                simp only [List.map_cons, hmap', hdec, hrec]
            · exact absurd hp' (by simp)
termination_by bs.length
decreasing_by
  exact hdrop

/-- Claim C4: for any WAL file contents, replay returns, in log order, the
records of the longest prefix of complete frames whose stored checksum
matches the CRC of the payload and whose payload decodes; it stops silently
at the first incomplete, corrupt, or undecodable frame.  Formally: the bytes
split into a run of well-formed frames whose payloads decode exactly to the
replayed records, followed by a suffix on which frame parsing stops.  The
theorem holds for every checksum function and every payload decoder. -/
theorem claim_C4 :
    ∀ {α : Type} (crcF : List Nat → Nat) (dec : List Nat → Option α)
      (bs : List Nat), (∀ b ∈ bs, b < 256) →
      ∃ (ps : List (List Nat)) (sfx : List Nat),
        bs = (ps.map (mkFrame crcF)).flatten ++ sfx ∧
        ps.map dec = (walReplay crcF dec bs).map some ∧
        parseFrame crcF dec sfx = none :=
  fun crcF dec bs hb => walReplay_spec crcF dec bs hb

/-- Witness for C4 at concrete bytes: one valid frame carrying payload `[7]`
(with the sum function as checksum and a decoder recognising `[7]`) followed
by a truncated byte is replayed as exactly one record. -/
theorem claim_C4_witness :
    walReplay (fun p => p.foldl (· + ·) 0)
        (fun p => if p = [7] then some true else none)
        (mkFrame (fun p => p.foldl (· + ·) 0) [7] ++ [9]) = [true] ∧
    (∃ (ps : List (List Nat)) (sfx : List Nat),
      mkFrame (fun p => p.foldl (· + ·) 0) [7] ++ [9] =
        (ps.map (mkFrame (fun p => p.foldl (· + ·) 0))).flatten ++ sfx ∧
      ps.map (fun p => if p = [7] then some true else none) =
        (walReplay (fun p => p.foldl (· + ·) 0)
          (fun p => if p = [7] then some true else none)
          (mkFrame (fun p => p.foldl (· + ·) 0) [7] ++ [9])).map some ∧
      parseFrame (fun p => p.foldl (· + ·) 0)
        (fun p => if p = [7] then some true else none) sfx = none) := by
  constructor
  · have h1 : parseFrame (fun p => p.foldl (· + ·) 0)
        (fun p => if p = [7] then some true else none)
        (mkFrame (fun p => p.foldl (· + ·) 0) [7] ++ [9]) = some (true, [9]) := by
      decide
    have h2 : parseFrame (fun p => p.foldl (· + ·) 0)
        (fun p => if p = [7] then some true else none) ([9] : List Nat) =
        (none : Option (Bool × List Nat)) := by
      decide
    rw [walReplay_parse_some _ _ _ _ _ h1, walReplay_parse_none _ _ _ h2]
  · exact claim_C4 (fun p => p.foldl (· + ·) 0)
      (fun p => if p = [7] then some true else none)
      (mkFrame (fun p => p.foldl (· + ·) 0) [7] ++ [9]) (by decide)

/-! ## Claim C5: level-0 compaction -/

theorem alLookup_append {κ α : Type} [DecidableEq κ] (k : κ) (m n : List (κ × α)) :
    alLookup k (m ++ n) =
      (match alLookup k m with | some v => some v | none => alLookup k n) := by
  induction m with
  | nil => simp [alLookup]
  | cons p t ih =>
    by_cases hp : p.1 = k
    · simp [alLookup, hp]
    · simp only [List.cons_append, alLookup, hp, if_neg, not_false_iff]
      exact ih

theorem foldl_ins_lookup (flat : List SstEntry) (m : List (Nat × SstEntry)) (i : Nat) :
    alLookup i (flat.foldl (fun m e => alInsertIfAbsent e.row_id e m) m) =
      (match alLookup i m with
       | some v => some v
       | none => flat.find? (fun e => e.row_id == i)) := by
  induction flat generalizing m with
  | nil =>
    simp only [List.foldl_nil, List.find?_nil]
    cases alLookup i m <;> rfl
  | cons e rest ih =>
    simp only [List.foldl_cons, ih, List.find?_cons]
    by_cases hei : e.row_id = i
    · subst hei
      cases hm : alLookup e.row_id m with
      | some v => simp [alInsertIfAbsent, hm]
      | none =>
        simp only [alInsertIfAbsent, hm]
        rw [alLookup_append]
        simp [hm, alLookup, List.find?_cons]
    · have hbe : (e.row_id == i) = false := by
        simp [hei]
      simp only [hbe]
      cases hm : alLookup e.row_id m with
      | some v => simp [alInsertIfAbsent, hm]
      | none =>
        simp only [alInsertIfAbsent, hm]
        rw [alLookup_append]
        cases hi : alLookup i m with
        | some v => simp [hi]
        | none => simp [hi, alLookup, fun h : e.row_id = i => hei h]

theorem foldl_ins_id_inv (flat : List SstEntry) (m : List (Nat × SstEntry))
    (h : ∀ p ∈ m, p.2.row_id = p.1) :
    ∀ p ∈ flat.foldl (fun m e => alInsertIfAbsent e.row_id e m) m, p.2.row_id = p.1 := by
  induction flat generalizing m with
  | nil => exact h
  | cons e rest ih =>
    simp only [List.foldl_cons]
    refine ih _ ?_
    intro p hp
    unfold alInsertIfAbsent at hp
    cases hm : alLookup e.row_id m with
    | some v =>
      rw [hm] at hp
      exact h p hp
    | none =>
      rw [hm] at hp
      rcases List.mem_append.mp hp with hp | hp
      · exact h p hp
      · rcases List.mem_singleton.mp hp with rfl
        rfl

theorem foldl_ins_nodup (flat : List SstEntry) (m : List (Nat × SstEntry))
    (h : (m.map Prod.fst).Nodup) :
    ((flat.foldl (fun m e => alInsertIfAbsent e.row_id e m) m).map Prod.fst).Nodup := by
  induction flat generalizing m with
  | nil => exact h
  | cons e rest ih =>
    simp only [List.foldl_cons]
    refine ih _ ?_
    unfold alInsertIfAbsent
    cases hm : alLookup e.row_id m with
    | some v => exact h
    | none =>
      rw [List.map_append]
      simp only [List.map_cons, List.map_nil]
      rw [List.nodup_append]
      refine ⟨h, List.nodup_singleton _, ?_⟩
      intro a ha hb
      rcases List.mem_singleton.mp hb with rfl
      exact alLookup_none_not_mem _ _ hm ha

theorem alLookup_of_mem_nodup {κ α : Type} [DecidableEq κ] (k : κ) (v : α)
    (m : List (κ × α)) (hm : (k, v) ∈ m) (hnd : (m.map Prod.fst).Nodup) :
    alLookup k m = some v := by
  induction m with
  | nil => simp at hm
  | cons p t ih =>
    simp only [List.map_cons, List.nodup_cons] at hnd
    rcases List.mem_cons.mp hm with rfl | hm
    · simp [alLookup]
    · have hne : p.1 ≠ k := by
        intro hh
        exact hnd.1 (hh ▸ List.mem_map_of_mem Prod.fst hm)
      simp only [alLookup, hne, if_neg, not_false_iff]
      exact ih hm hnd.2

theorem pairwise_strict_of_le {β : Type} (f : β → Nat) (l : List β)
    (hle : l.Pairwise (fun a b => f a ≤ f b)) (hnd : (l.map f).Nodup) :
    l.Pairwise (fun a b => f a < f b) := by
  induction l with
  | nil => exact List.Pairwise.nil
  | cons x t ih =>
    rcases List.pairwise_cons.mp hle with ⟨hx, ht⟩
    simp only [List.map_cons, List.nodup_cons] at hnd
    refine List.pairwise_cons.mpr ⟨?_, ih ht hnd.2⟩
    intro b hb
    refine lt_of_le_of_ne (hx b hb) ?_
    intro hh
    exact hnd.1 (hh ▸ List.mem_map_of_mem f hb)

theorem foldl_files_eq_flat (fs : FsT) (fl : List SstFile) (m : List (Nat × SstEntry)) :
    fl.foldl (fun m f => (readSst fs f).foldl (fun m e => alInsertIfAbsent e.row_id e m) m) m =
      ((fl.map (readSst fs)).flatten).foldl (fun m e => alInsertIfAbsent e.row_id e m) m := by
  induction fl generalizing m with
  | nil => rfl
  | cons f rest ih =>
    simp only [List.foldl_cons, List.map_cons, List.flatten_cons, List.foldl_append]
    exact ih _

theorem find?_unique_sorted (es : List SstEntry) (i : Nat) (e : SstEntry)
    (hs : es.Pairwise (fun a b => a.row_id < b.row_id)) (he : e ∈ es) (hid : e.row_id = i) :
    es.find? (fun x => x.row_id == i) = some e := by
  induction es with
  | nil => simp at he
  | cons x t ih =>
    rcases List.pairwise_cons.mp hs with ⟨hx, ht⟩
    rcases List.mem_cons.mp he with rfl | he
    · simp [List.find?_cons, hid]
    · have hlt : x.row_id < i := hid ▸ hx e he
      have hbe : (x.row_id == i) = false := by
        simp
        omega
      simp only [List.find?_cons, hbe]
      exact ih ht he

theorem flatten_find?_desc (fs : FsT) (sflist : List SstFile)
    (hdesc : sflist.Pairwise (fun a b => b.seq < a.seq))
    (hsorted : ∀ f ∈ sflist, (readSst fs f).Pairwise (fun a b => a.row_id < b.row_id))
    (i : Nat) (e : SstEntry) :
    ((sflist.map (readSst fs)).flatten.find? (fun x => x.row_id == i) = some e) ↔
      (e.row_id = i ∧ ∃ f ∈ sflist, e ∈ readSst fs f ∧
        ∀ g ∈ sflist, (∃ e2 ∈ readSst fs g, e2.row_id = i) → g.seq ≤ f.seq) := by
  induction sflist with
  | nil => simp
  | cons f rest ih =>
    rcases List.pairwise_cons.mp hdesc with ⟨hf, hrest⟩
    have ihh := ih hrest (fun g hg => hsorted g (List.mem_cons_of_mem _ hg))
    simp only [List.map_cons, List.flatten_cons, List.find?_append]
    cases hfind : (readSst fs f).find? (fun x => x.row_id == i) with
    | some e0 =>
      have he0mem := List.mem_of_find?_eq_some hfind
      have he0id : e0.row_id = i := by
        have := List.find?_some hfind
        simpa using this
      simp only [Option.or]
      constructor
      · intro hh
        injection hh with hh
        subst hh
        refine ⟨he0id, f, List.mem_cons_self _ _, he0mem, ?_⟩
        intro g hg _
        rcases List.mem_cons.mp hg with rfl | hg
        · exact le_refl _
        · exact le_of_lt (hf g hg)
      · rintro ⟨hid, f', hf', hmem', hmax'⟩
        have hf'f : f' = f := by
          rcases List.mem_cons.mp hf' with rfl | hf'
          · rfl
          · exfalso
            have h1 : f.seq ≤ f'.seq :=
              hmax' f (List.mem_cons_self _ _) ⟨e0, he0mem, he0id⟩
            exact absurd h1 (not_le.mpr (hf f' hf'))
        rw [hf'f] at hmem'
        have := find?_unique_sorted (readSst fs f) i e
          (hsorted f (List.mem_cons_self _ _)) hmem' hid
        rw [this] at hfind
        exact hfind.symm
    | none =>
      have hnone : ∀ x ∈ readSst fs f, ¬ x.row_id = i := by
        intro x hx
        have := List.find?_eq_none.mp hfind x hx
        simpa using this
      simp only [Option.or, ihh]
      constructor
      · rintro ⟨hid, f', hf', hmem', hmax'⟩
        refine ⟨hid, f', List.mem_cons_of_mem _ hf', hmem', ?_⟩
        intro g hg hhas
        rcases List.mem_cons.mp hg with rfl | hg
        · rcases hhas with ⟨e2, he2, he2i⟩
          exact absurd he2i (hnone e2 he2)
        · exact hmax' g hg hhas
      · rintro ⟨hid, f', hf', hmem', hmax'⟩
        have hf'rest : f' ∈ rest := by
          rcases List.mem_cons.mp hf' with rfl | hf'
          · exact absurd hid (hnone e hmem')
          · exact hf'
        exact ⟨hid, f', hf'rest,
          hmem', fun g hg hhas => hmax' g (List.mem_cons_of_mem _ hg) hhas⟩

theorem insSort_seq_le_sorted (files : List SstFile) :
    (insSort (fun a b => a.seq ≤ b.seq) files).Pairwise (fun a b => a.seq ≤ b.seq) := by
  have h := insSort_sorted (fun a b : SstFile => decide (a.seq ≤ b.seq))
    (by
      intro a b c hab hbc
      simp only [decide_eq_true_eq] at hab hbc ⊢
      omega)
    (by
      intro a b
      simp only [Bool.or_eq_true, decide_eq_true_eq]
      omega)
    files
  refine List.Pairwise.imp ?_ h
  intro a b hab
  simpa using hab

theorem compactMerged_id_inv (fs : FsT) (files : List SstFile) :
    ∀ p ∈ compactMerged fs files, p.2.row_id = p.1 := by
  rw [compactMerged, foldl_files_eq_flat]
  exact foldl_ins_id_inv _ _ (by simp)

theorem compactMerged_nodup (fs : FsT) (files : List SstFile) :
    ((compactMerged fs files).map Prod.fst).Nodup := by
  rw [compactMerged, foldl_files_eq_flat]
  exact foldl_ins_nodup _ _ (by simp)

theorem compactOut_sorted (fs : FsT) (files : List SstFile) :
    (compactOut fs files).Pairwise (fun a b => a.row_id < b.row_id) := by
  have hveq : ((compactMerged fs files).map Prod.snd).map SstEntry.row_id =
      (compactMerged fs files).map Prod.fst := by
    rw [List.map_map]
    exact List.map_congr_left (fun p hp => compactMerged_id_inv fs files p hp)
  have hvnodup : (((compactMerged fs files).map Prod.snd).map SstEntry.row_id).Nodup :=
    hveq ▸ compactMerged_nodup fs files
  have houtperm : (compactOut fs files).Perm ((compactMerged fs files).map Prod.snd) :=
    insSort_perm _ _
  have hle : (compactOut fs files).Pairwise (fun a b => a.row_id ≤ b.row_id) := by
    have h := insSort_sorted (fun a b : SstEntry => decide (a.row_id ≤ b.row_id))
      (by
        intro a b c hab hbc
        simp only [decide_eq_true_eq] at hab hbc ⊢
        omega)
      (by
        intro a b
        simp only [Bool.or_eq_true, decide_eq_true_eq]
        omega)
      ((compactMerged fs files).map Prod.snd)
    refine List.Pairwise.imp ?_ h
    intro a b hab
    simpa using hab
  exact pairwise_strict_of_le SstEntry.row_id _ hle
    ((houtperm.map SstEntry.row_id).nodup_iff.mpr hvnodup)

theorem compactOut_mem_iff (fs : FsT) (files : List SstFile)
    (hseq : (files.map SstFile.seq).Nodup)
    (hsorted : ∀ f ∈ files, (readSst fs f).Pairwise (fun a b => a.row_id < b.row_id))
    (e : SstEntry) :
    e ∈ compactOut fs files ↔ ∃ f ∈ files, e ∈ readSst fs f ∧
      ∀ g ∈ files, (∃ e2 ∈ readSst fs g, e2.row_id = e.row_id) → g.seq ≤ f.seq := by
  have hperm : (insSort (fun a b => a.seq ≤ b.seq) files).Perm files :=
    insSort_perm _ files
  have hpermrev : (insSort (fun a b => a.seq ≤ b.seq) files).reverse.Perm files :=
    (List.reverse_perm _).trans hperm
  have hseqsorted : ((insSort (fun a b => a.seq ≤ b.seq) files).map SstFile.seq).Nodup :=
    ((hperm.map SstFile.seq).nodup_iff).mpr hseq
  have hdesc : (insSort (fun a b => a.seq ≤ b.seq) files).reverse.Pairwise
      (fun a b => b.seq < a.seq) := by
    rw [List.pairwise_reverse]
    exact pairwise_strict_of_le SstFile.seq _ (insSort_seq_le_sorted files) hseqsorted
  have houtperm : (compactOut fs files).Perm ((compactMerged fs files).map Prod.snd) :=
    insSort_perm _ _
  rw [houtperm.mem_iff]
  have hlook : e ∈ (compactMerged fs files).map Prod.snd ↔
      alLookup e.row_id (compactMerged fs files) = some e := by
    constructor
    · intro hm
      rcases List.mem_map.mp hm with ⟨p, hp, rfl⟩
      have hid := compactMerged_id_inv fs files p hp
      have hkey : p = (p.2.row_id, p.2) := by
        rw [hid]
      rw [hkey] at hp
      exact alLookup_of_mem_nodup _ _ _ hp (compactMerged_nodup fs files)
    · intro hl
      exact List.mem_map.mpr ⟨(e.row_id, e), alLookup_mem _ _ _ hl, rfl⟩
  rw [hlook]
  have hlk : alLookup e.row_id (compactMerged fs files) =
      ((insSort (fun a b => a.seq ≤ b.seq) files).reverse.map (readSst fs)).flatten.find?
        (fun x => x.row_id == e.row_id) := by
    rw [compactMerged, foldl_files_eq_flat, foldl_ins_lookup]
    rfl
  rw [hlk]
  rw [flatten_find?_desc fs _ hdesc (fun g hg => hsorted g (hpermrev.subset hg)) e.row_id e]
  constructor
  · rintro ⟨_, f, hf, hmem, hmax⟩
    exact ⟨f, hpermrev.subset hf, hmem,
      fun g hg hhas => hmax g (hpermrev.mem_iff.mpr hg) hhas⟩
  · rintro ⟨f, hf, hmem, hmax⟩
    exact ⟨rfl, f, hpermrev.mem_iff.mpr hf, hmem,
      fun g hg hhas => hmax g (hpermrev.subset hg) hhas⟩

theorem compactLevelZero_eq (fs : FsT) (files : List SstFile) (next_seq : Nat)
    (hne : files ≠ []) :
    compactLevelZero fs files next_seq =
      some (⟨1, next_seq⟩, writeSst fs ⟨1, next_seq⟩ (compactOut fs files)) := by
  have hnemp : files.isEmpty = false := by
    cases files with
    | nil => exact absurd rfl hne
    | cons a b => rfl
  simp [compactLevelZero, hnemp]

theorem removeFiles_lookup (files : List SstFile) (fs : FsT) (k : SstFile)
    (hnd : (fs.map Prod.fst).Nodup) :
    alLookup k (removeFiles fs files) = if k ∈ files then none else alLookup k fs := by
  induction files generalizing fs with
  | nil => simp [removeFiles]
  | cons f rest ih =>
    have hstep : removeFiles fs (f :: rest) = removeFiles (alErase f fs) rest := rfl
    rw [hstep, ih (alErase f fs) (nodup_keys_alErase f fs hnd)]
    by_cases hkr : k ∈ rest
    · simp [hkr]
    · by_cases hkf : k = f
      · subst hkf
        simp [hkr, alLookup_erase_self k fs hnd]
      · simp only [hkr, if_neg, not_false_iff, List.mem_cons, hkf, false_or]
        rw [alLookup_erase_ne f k fs hkf]

theorem removeFiles_keys_nodup (files : List SstFile) (fs : FsT)
    (hnd : (fs.map Prod.fst).Nodup) :
    ((removeFiles fs files).map Prod.fst).Nodup := by
  induction files generalizing fs with
  | nil => exact hnd
  | cons f rest ih => exact ih (alErase f fs) (nodup_keys_alErase f fs hnd)

/-- Engine-level behaviour of `compact_table` on a table with level-0 files:
it succeeds, replaces the level-0 files of `sst_files` by the single new
level-1 file with the allocated sequence number, bumps `next_sst_seq`,
removes the level-0 files from disk, and writes the compaction output as the
new file's contents. -/
theorem compactTableW_spec (w : World) (ts : TableState) (hw : w.table = some ts)
    (hnd : (w.fs.map Prod.fst).Nodup)
    (hlz : ts.sst_files.filter (fun f => decide (f.level = 0)) ≠ []) :
    (compactTableW w).1 = .ok () ∧
    ∃ ts', (compactTableW w).2.table = some ts' ∧
      ts'.sst_files = ts.sst_files.filter (fun f => decide (f.level ≠ 0)) ++
        [⟨1, ts.next_sst_seq⟩] ∧
      ts'.next_sst_seq = ts.next_sst_seq + 1 ∧
      (∀ f ∈ ts.sst_files.filter (fun f => decide (f.level = 0)),
        alLookup f (compactTableW w).2.fs = none) ∧
      alLookup (⟨1, ts.next_sst_seq⟩ : SstFile) (compactTableW w).2.fs =
        some (compactOut w.fs (ts.sst_files.filter (fun f => decide (f.level = 0)))) := by
  have hnempty : (ts.sst_files.filter (fun f => decide (f.level = 0))).isEmpty = false := by
    cases hfl : ts.sst_files.filter (fun f => decide (f.level = 0)) with
    | nil => exact absurd hfl hlz
    | cons a b => rfl
  have hcz := compactLevelZero_eq w.fs (ts.sst_files.filter (fun f => decide (f.level = 0)))
    ts.next_sst_seq hlz
  have hnotin : (⟨1, ts.next_sst_seq⟩ : SstFile) ∉
      ts.sst_files.filter (fun f => decide (f.level = 0)) := by
    intro hmem
    have := List.of_mem_filter hmem
    simp at this
  have hres : compactTableW w =
      (.ok (), { w with
        fs := removeFiles
          (writeSst w.fs ⟨1, ts.next_sst_seq⟩
            (compactOut w.fs (ts.sst_files.filter (fun f => decide (f.level = 0)))))
          (ts.sst_files.filter (fun f => decide (f.level = 0))),
        table := some { ts with
          next_sst_seq := ts.next_sst_seq + 1,
          sst_files := ts.sst_files.filter (fun f => decide (f.level ≠ 0)) ++
            [⟨1, ts.next_sst_seq⟩] } }) := by
    simp only [compactTableW, hw, hnempty, Bool.false_eq_true, if_false, hcz]
  have hnd2 : ((writeSst w.fs ⟨1, ts.next_sst_seq⟩
      (compactOut w.fs (ts.sst_files.filter (fun f => decide (f.level = 0))))).map
        Prod.fst).Nodup := by
    unfold writeSst
    exact nodup_keys_alInsert _ _ _ hnd
  rw [hres]
  dsimp only
  refine ⟨rfl, _, rfl, by simp, by simp, ?_, ?_⟩
  · intro f hf
    rw [removeFiles_lookup _ _ _ hnd2]
    simp [hf]
  · rw [removeFiles_lookup _ _ _ hnd2, if_neg hnotin]
    unfold writeSst
    exact alLookup_insert_self _ _ _

/-- Claim C5: compaction of a non-empty set of level-0 files keeps, for every
row id occurring in any input file, exactly the entry of the highest-seq
input file containing it (tombstone entries included), emits the merge as a
single level-1 file sorted strictly ascending by row id, and `compact_table`
removes the source level-0 files from disk and from `sst_files`, adding only
the new level-1 file. -/
theorem claim_C5 :
    (∀ (fs : FsT) (files : List SstFile) (next_seq : Nat),
      files ≠ [] → (files.map SstFile.seq).Nodup →
      (∀ f ∈ files, (readSst fs f).Pairwise (fun a b => a.row_id < b.row_id)) →
      compactLevelZero fs files next_seq =
        some (⟨1, next_seq⟩, writeSst fs ⟨1, next_seq⟩ (compactOut fs files)) ∧
      (compactOut fs files).Pairwise (fun a b => a.row_id < b.row_id) ∧
      (∀ e : SstEntry, e ∈ compactOut fs files ↔ ∃ f ∈ files, e ∈ readSst fs f ∧
        ∀ g ∈ files, (∃ e2 ∈ readSst fs g, e2.row_id = e.row_id) → g.seq ≤ f.seq)) ∧
    (∀ (w : World) (ts : TableState), w.table = some ts →
      (w.fs.map Prod.fst).Nodup →
      ts.sst_files.filter (fun f => decide (f.level = 0)) ≠ [] →
      (compactTableW w).1 = .ok () ∧
      ∃ ts', (compactTableW w).2.table = some ts' ∧
        ts'.sst_files = ts.sst_files.filter (fun f => decide (f.level ≠ 0)) ++
          [⟨1, ts.next_sst_seq⟩] ∧
        ts'.next_sst_seq = ts.next_sst_seq + 1 ∧
        (∀ f ∈ ts.sst_files.filter (fun f => decide (f.level = 0)),
          alLookup f (compactTableW w).2.fs = none) ∧
        alLookup (⟨1, ts.next_sst_seq⟩ : SstFile) (compactTableW w).2.fs =
          some (compactOut w.fs (ts.sst_files.filter (fun f => decide (f.level = 0))))) := by
  constructor
  · intro fs files next_seq hne hseq hsorted
    exact ⟨compactLevelZero_eq fs files next_seq hne, compactOut_sorted fs files,
      compactOut_mem_iff fs files hseq hsorted⟩
  · intro w ts hw hnd hlz
    exact compactTableW_spec w ts hw hnd hlz

/-- Witness for C5 at concrete files: two level-0 files both holding an entry
for row 1; the newer (seq 2) version is the one in the compaction output. -/
theorem claim_C5_witness :
    (⟨1, some ⟨1, fieldsV2⟩⟩ : SstEntry) ∈
      compactOut
        [(⟨0, 1⟩, [⟨1, some ⟨1, fieldsV1⟩⟩]), (⟨0, 2⟩, [⟨1, some ⟨1, fieldsV2⟩⟩])]
        [⟨0, 1⟩, ⟨0, 2⟩] := by
  have h := (claim_C5.1
    [(⟨0, 1⟩, [⟨1, some ⟨1, fieldsV1⟩⟩]), (⟨0, 2⟩, [⟨1, some ⟨1, fieldsV2⟩⟩])]
    [⟨0, 1⟩, ⟨0, 2⟩] 3 (by decide) (by decide) (by decide)).2.2 ⟨1, some ⟨1, fieldsV2⟩⟩
  rw [h]
  refine ⟨⟨0, 2⟩, by decide, by decide, ?_⟩
  decide

/-! ## Replay and search auxiliary lemmas -/

theorem replayState_append (wal : List WalRecord) (r : WalRecord) :
    replayState (wal ++ [r]) = applyRecord (replayState wal) r := by
  simp [replayState, List.foldl_append]

theorem applyRecord_meta (X : TableState) (r : WalRecord) (h : isMetaRecord r) :
    ∃ Y, applyRecord (some X) r = some Y ∧ Y.rows = X.rows ∧
      Y.tombstones = X.tombstones ∧ Y.next_row_id = X.next_row_id ∧
      Y.sst_files = X.sst_files ∧ Y.next_sst_seq = X.next_sst_seq := by
  cases r with
  | enqueueEmbedding rid hash => exact ⟨_, rfl, rfl, rfl, rfl, rfl, rfl⟩
  | updateEmbeddingStatus rid st le att rt =>
    refine ⟨_, rfl, ?_, ?_, ?_, ?_, ?_⟩ <;> simp [metaAdjust] <;> split <;> rfl
  | storeEmbedding rid vec => exact ⟨_, rfl, rfl, rfl, rfl, rfl, rfl⟩
  | createTable s sp => cases h
  | setNextRowId n => cases h
  | putRow rid row => cases h
  | deleteRow rid => cases h

theorem foldl_applyRecord_meta (recs : List WalRecord) (h : ∀ r ∈ recs, isMetaRecord r)
    (X : TableState) :
    ∃ Y, recs.foldl applyRecord (some X) = some Y ∧ Y.rows = X.rows ∧
      Y.tombstones = X.tombstones ∧ Y.next_row_id = X.next_row_id ∧
      Y.sst_files = X.sst_files ∧ Y.next_sst_seq = X.next_sst_seq := by
  induction recs generalizing X with
  | nil => exact ⟨X, rfl, rfl, rfl, rfl, rfl, rfl⟩
  | cons r rest ih =>
    obtain ⟨Y, hY, h1, h2, h3, h4, h5⟩ := applyRecord_meta X r (h r (List.mem_cons_self _ _))
    obtain ⟨Z, hZ, g1, g2, g3, g4, g5⟩ := ih (fun r hr => h r (List.mem_cons_of_mem _ hr)) Y
    refine ⟨Z, ?_, ?_, ?_, ?_, ?_, ?_⟩
    · simpa [List.foldl_cons, hY] using hZ
    · rw [g1, h1]
    · rw [g2, h2]
    · rw [g3, h3]
    · rw [g4, h4]
    · rw [g5, h5]

theorem checkpointRecords_meta (ts : TableState) :
    ∀ r ∈ ts.embedding_meta.flatMap (fun p =>
        [WalRecord.enqueueEmbedding p.1 p.2.content_hash,
         WalRecord.updateEmbeddingStatus p.1 p.2.status p.2.last_error
           (some p.2.attempts) (some p.2.next_retry_at_ms)]) ++
      ts.embeddings.map (fun p => WalRecord.storeEmbedding p.1 p.2), isMetaRecord r := by
  intro r hr
  rcases List.mem_append.mp hr with hr | hr
  · rcases List.mem_flatMap.mp hr with ⟨p, _, hp⟩
    rcases List.mem_cons.mp hp with rfl | hp
    · trivial
    · rcases List.mem_singleton.mp hp with rfl
      trivial
  · rcases List.mem_map.mp hr with ⟨p, _, rfl⟩
    trivial

theorem replay_checkpointRecords (ts : TableState) :
    ∃ rts, replayState (checkpointRecords ts) = some rts ∧
      rts.rows = [] ∧ rts.tombstones = [] ∧ rts.next_row_id = ts.next_row_id := by
  have hshape : checkpointRecords ts =
      WalRecord.createTable ts.schema ts.embedding_spec ::
        WalRecord.setNextRowId ts.next_row_id ::
        (ts.embedding_meta.flatMap (fun p =>
          [WalRecord.enqueueEmbedding p.1 p.2.content_hash,
           WalRecord.updateEmbeddingStatus p.1 p.2.status p.2.last_error
             (some p.2.attempts) (some p.2.next_retry_at_ms)]) ++
         ts.embeddings.map (fun p => WalRecord.storeEmbedding p.1 p.2)) := rfl
  rw [hshape]
  simp only [replayState, List.foldl_cons]
  obtain ⟨Y, hY, h1, h2, h3, _, _⟩ := foldl_applyRecord_meta _ (checkpointRecords_meta ts)
    { freshTableState ts.schema ts.embedding_spec with next_row_id := ts.next_row_id }
  refine ⟨Y, ?_, ?_, ?_, ?_⟩
  · exact hY
  · rw [h1]
    rfl
  · rw [h2]
    rfl
  · rw [h3]

theorem WFts_congr (w w' : World) (ts ts' rts rts' : TableState)
    (h : WFts w ts rts)
    (hfs : w'.fs = w.fs) (halloc : w'.allocated = w.allocated)
    (hrows : ts'.rows = ts.rows) (htombs : ts'.tombstones = ts.tombstones)
    (hnri : ts'.next_row_id = ts.next_row_id) (hsst : ts'.sst_files = ts.sst_files)
    (hseq : ts'.next_sst_seq = ts.next_sst_seq)
    (hrrows : rts'.rows = rts.rows) (hrtombs : rts'.tombstones = rts.tombstones)
    (hrnri : rts'.next_row_id = rts.next_row_id) : WFts w' ts' rts' := by
  constructor <;>
    simp only [hfs, halloc, hrows, htombs, hnri, hsst, hseq, hrrows, hrtombs, hrnri] <;>
    first
      | exact h.alloc_bound
      | exact h.rows_bound
      | exact h.tombs_bound
      | exact h.fs_bound
      | exact h.rows_nodup
      | exact h.tombs_nodup
      | exact h.disj
      | exact h.id_match
      | exact h.fs_keys_nodup
      | exact h.fs_seq_nodup
      | exact h.files_nodup
      | exact h.files_match
      | exact h.entries_sorted
      | exact h.seq_bound
      | exact h.replay_nri
      | exact h.replay_rows_bound
      | exact h.replay_rows_nodup
      | exact h.replay_id_match
      | exact h.replay_tombs_bound
      | exact h.replay_tombs_nodup
      | exact h.replay_disj

theorem bsGo_sound (es : List SstEntry) (target lo hi fuel : Nat) (e : SstEntry)
    (h : bsGo es target lo hi fuel = some e) : e ∈ es ∧ e.row_id = target := by
  induction fuel generalizing lo hi with
  | zero => cases h
  | succ fuel ih =>
    simp only [bsGo] at h
    split at h
    · cases hget : es.get? ((lo + hi) / 2) with
      | none =>
        rw [hget] at h
        cases h
      | some m =>
        rw [hget] at h
        dsimp only at h
        by_cases hm : m.row_id = target
        · rw [if_pos hm] at h
          injection h with h
          subst h
          exact ⟨List.get?_mem hget, hm⟩
        · rw [if_neg hm] at h
          by_cases hlt : m.row_id < target
          · rw [if_pos hlt] at h
            exact ih _ _ h
          · rw [if_neg hlt] at h
            exact ih _ _ h
    · cases h

theorem findEntry_sound (es : List SstEntry) (rid : Nat) (e : SstEntry)
    (h : findEntry es rid = some e) : e ∈ es ∧ e.row_id = rid :=
  bsGo_sound es rid 0 es.length (es.length + 1) e h

theorem mem_readSst (fs : FsT) (f : SstFile) (e : SstEntry) (h : e ∈ readSst fs f) :
    ∃ entries, (f, entries) ∈ fs ∧ e ∈ entries := by
  unfold readSst at h
  cases hl : alLookup f fs with
  | none =>
    rw [hl] at h
    cases h
  | some entries =>
    rw [hl] at h
    exact ⟨entries, alLookup_mem _ _ _ hl, h⟩

theorem loadRowSst_sound (fs : FsT) (rid : Nat) (files : List SstFile) (row : RowData)
    (h : loadRowSst fs rid files = some row) :
    ∃ f ∈ files, ∃ e ∈ readSst fs f, e.row_id = rid ∧ e.row = some row := by
  induction files with
  | nil => cases h
  | cons f rest ih =>
    simp only [loadRowSst] at h
    cases hfe : findEntry (readSst fs f) rid with
    | some entry =>
      rw [hfe] at h
      obtain ⟨hmem, hid⟩ := findEntry_sound _ _ _ hfe
      exact ⟨f, List.mem_cons_self _ _, entry, hmem, hid, h⟩
    | none =>
      rw [hfe] at h
      obtain ⟨g, hg, hrest⟩ := ih h
      exact ⟨g, List.mem_cons_of_mem _ hg, hrest⟩

theorem load_row_id_bound (w : World) (ts rts : TableState) (hwf : WFts w ts rts)
    (rid : Nat) (row : RowData) (h : load_row w.fs ts rid = some row) :
    rid < ts.next_row_id := by
  unfold load_row at h
  cases hl : alLookup rid ts.rows with
  | some r =>
    exact hwf.rows_bound _ (alLookup_mem _ _ _ hl)
  | none =>
    rw [hl] at h
    by_cases ht : rid ∈ ts.tombstones
    · rw [if_pos ht] at h
      cases h
    · rw [if_neg ht] at h
      obtain ⟨f, _, e, he, hid, _⟩ := loadRowSst_sound _ _ _ _ h
      obtain ⟨entries, hfe, hee⟩ := mem_readSst _ _ _ he
      exact hid ▸ hwf.fs_bound _ hfe _ hee

theorem mem_keys_lookup_isSome {κ α : Type} [DecidableEq κ] (k : κ) (m : List (κ × α)) :
    k ∈ m.map Prod.fst ↔ (alLookup k m).isSome := by
  constructor
  · intro h
    rcases List.mem_map.mp h with ⟨p, hp, rfl⟩
    exact alLookup_isSome_of_mem _ _ p.2 hp
  · intro h
    cases hl : alLookup k m with
    | none =>
      rw [hl] at h
      cases h
    | some v => exact List.mem_map_of_mem Prod.fst (alLookup_mem _ _ _ hl)

theorem alInsert_of_not_mem {κ α : Type} [DecidableEq κ] (k : κ) (v : α)
    (m : List (κ × α)) (h : k ∉ m.map Prod.fst) : alInsert k v m = m ++ [(k, v)] := by
  induction m with
  | nil => rfl
  | cons p t ih =>
    simp only [List.map_cons, List.mem_cons, not_or] at h
    simp only [alInsert, if_neg (fun hh : p.1 = k => h.1 hh.symm), List.cons_append,
      List.cons.injEq, true_and]
    exact ih h.2

theorem alErase_mem_ne {κ α : Type} [DecidableEq κ] (k : κ) (m : List (κ × α))
    (hnd : (m.map Prod.fst).Nodup) (p : κ × α) (h : p ∈ alErase k m) : p.1 ≠ k := by
  induction m with
  | nil => cases h
  | cons q t ih =>
    simp only [List.map_cons, List.nodup_cons] at hnd
    by_cases hq : q.1 = k
    · simp only [alErase, hq, if_pos] at h
      intro hh
      exact hnd.1 (hq ▸ hh ▸ List.mem_map_of_mem Prod.fst h)
    · simp only [alErase, hq, if_neg, not_false_iff] at h
      rcases List.mem_cons.mp h with rfl | h
      · exact hq
      · exact ih hnd.2 h

theorem alErase_sublist {κ α : Type} [DecidableEq κ] (k : κ) (m : List (κ × α)) :
    List.Sublist (alErase k m) m := by
  induction m with
  | nil => exact List.Sublist.refl _
  | cons q t ih =>
    by_cases hq : q.1 = k
    · simp only [alErase, hq, if_pos]
      exact List.sublist_cons_self _ _
    · simp only [alErase, hq, if_neg, not_false_iff]
      exact ih.cons₂ q

theorem removeFiles_sublist (files : List SstFile) (fs : FsT) :
    List.Sublist (removeFiles fs files) fs := by
  induction files generalizing fs with
  | nil => exact List.Sublist.refl _
  | cons f rest ih =>
    exact (ih (alErase f fs)).trans (alErase_sublist f fs)

theorem foldl_max_init_le (files : List SstFile) :
    ∀ acc, acc ≤ files.foldl (fun a g => max a g.seq) acc := by
  induction files with
  | nil => exact fun acc => le_refl _
  | cons g rest ih =>
    intro acc
    simp only [List.foldl_cons]
    exact le_trans (le_max_left acc g.seq) (ih (max acc g.seq))

theorem maxSeq_ge (files : List SstFile) (f : SstFile) (h : f ∈ files) :
    f.seq ≤ maxSeq files := by
  unfold maxSeq
  induction files with
  | nil => cases h
  | cons g rest ih =>
    simp only [List.foldl_cons]
    rcases List.mem_cons.mp h with rfl | hf
    · calc f.seq ≤ max 0 f.seq := le_max_right _ _
        _ ≤ _ := foldl_max_init_le rest _
    · have := ih hf
      simp only [List.foldl_cons] at *
      have hmono : ∀ (l : List SstFile) (a b : Nat), a ≤ b →
          l.foldl (fun x g => max x g.seq) a ≤ l.foldl (fun x g => max x g.seq) b := by
        intro l
        induction l with
        | nil => exact fun a b hab => hab
        | cons x t iht =>
          intro a b hab
          simp only [List.foldl_cons]
          exact iht _ _ (max_le_max hab (le_refl _))
      exact le_trans this (hmono rest 0 (max 0 g.seq) (Nat.zero_le _))

theorem map_nodup_inj {β γ : Type} (g : β → γ) (l : List β) (hnd : (l.map g).Nodup)
    (a b : β) (ha : a ∈ l) (hb : b ∈ l) (hab : g a = g b) : a = b := by
  induction l with
  | nil => cases ha
  | cons x t ih =>
    simp only [List.map_cons, List.nodup_cons] at hnd
    rcases List.mem_cons.mp ha with rfl | ha'
    · rcases List.mem_cons.mp hb with rfl | hb'
      · rfl
      · exfalso
        have hmem : g a ∈ List.map g t := by
          rw [hab]
          exact List.mem_map_of_mem g hb'
        exact hnd.1 hmem
    · rcases List.mem_cons.mp hb with rfl | hb'
      · exfalso
        have hmem : g b ∈ List.map g t := by
          rw [← hab]
          exact List.mem_map_of_mem g ha'
        exact hnd.1 hmem
      · exact ih hnd.2 ha' hb'

/-! ## Well-formedness: constructors, destructors, and step lemmas -/

theorem WF_destruct (w : World) (hwf : WF w) :
    (w.table = none ∧ replayState w.wal = none ∧ w.allocated = [] ∧ w.fs = []) ∨
    (∃ ts rts, w.table = some ts ∧ replayState w.wal = some rts ∧ WFts w ts rts) := by
  unfold WF at hwf
  cases ht : w.table with
  | none =>
    cases hr : replayState w.wal with
    | none =>
      rw [ht, hr] at hwf
      exact Or.inl ⟨rfl, rfl, hwf.1, hwf.2⟩
    | some rts =>
      rw [ht, hr] at hwf
      cases hwf
  | some ts =>
    cases hr : replayState w.wal with
    | none =>
      rw [ht, hr] at hwf
      cases hwf
    | some rts =>
      rw [ht, hr] at hwf
      exact Or.inr ⟨ts, rts, rfl, rfl, hwf⟩

theorem WF_mk_none (w : World) (ht : w.table = none) (hr : replayState w.wal = none)
    (ha : w.allocated = []) (hf : w.fs = []) : WF w := by
  unfold WF
  rw [ht, hr]
  exact ⟨ha, hf⟩

theorem WF_mk_some (w : World) (ts rts : TableState) (ht : w.table = some ts)
    (hr : replayState w.wal = some rts) (h : WFts w ts rts) : WF w := by
  unfold WF
  rw [ht, hr]
  exact h

theorem WF_tick (w : World) (t : Nat) (hwf : WF w) : WF { w with tick := t } := by
  rcases WF_destruct w hwf with ⟨h1, h2, h3, h4⟩ | ⟨ts, rts, h1, h2, h3⟩
  · exact WF_mk_none _ h1 h2 h3 h4
  · refine WF_mk_some _ ts rts h1 h2 ?_
    exact WFts_congr _ _ _ _ _ _ h3 rfl rfl rfl rfl rfl rfl rfl rfl rfl rfl

theorem WF_putRow_step (w : World) (ts rts : TableState) (ht : w.table = some ts)
    (hr : replayState w.wal = some rts) (hwf : WFts w ts rts)
    (rid : Nat) (fields : Fields) (hle : rid ≤ ts.next_row_id)
    (alloc' : List Nat)
    (halloc : alloc' = w.allocated ∨ (alloc' = w.allocated ++ [rid] ∧ rid = ts.next_row_id))
    (t : Nat) :
    WF { w with
      wal := w.wal ++ [.putRow rid ⟨rid, fields⟩],
      table := some { ts with
        next_row_id := if ts.next_row_id ≤ rid then rid + 1 else ts.next_row_id,
        rows := alInsert rid ⟨rid, fields⟩ ts.rows,
        tombstones := ts.tombstones.erase rid },
      allocated := alloc', tick := t } := by
  have hrep : replayState (w.wal ++ [WalRecord.putRow rid ⟨rid, fields⟩]) =
      some { rts with
        rows := alInsert rid ⟨rid, fields⟩ rts.rows,
        tombstones := rts.tombstones.erase rid,
        next_row_id := if rts.next_row_id ≤ rid then rid + 1 else rts.next_row_id } := by
    rw [replayState_append, hr]
    rfl
  set nri' := if ts.next_row_id ≤ rid then rid + 1 else ts.next_row_id with hnri'
  have hmono : ts.next_row_id ≤ nri' := by
    rw [hnri']
    split <;> omega
  have hrid : rid < nri' := by
    rw [hnri']
    split <;> omega
  have hrnri : (if rts.next_row_id ≤ rid then rid + 1 else rts.next_row_id) = nri' := by
    rw [hwf.replay_nri]
  refine WF_mk_some _ _ _ rfl hrep ?_
  constructor
  · intro id hid
    rcases halloc with rfl | ⟨rfl, hrideq⟩
    · exact lt_of_lt_of_le (hwf.alloc_bound id hid) hmono
    · rcases List.mem_append.mp hid with hid | hid
      · exact lt_of_lt_of_le (hwf.alloc_bound id hid) hmono
      · rcases List.mem_singleton.mp hid with rfl
        exact hrid
  · intro p hp
    rcases mem_alInsert _ _ _ _ hp with rfl | hp
    · exact hrid
    · exact lt_of_lt_of_le (hwf.rows_bound p hp) hmono
  · intro id hid
    exact lt_of_lt_of_le (hwf.tombs_bound id (List.mem_of_mem_erase hid)) hmono
  · intro fe hfe e he
    exact lt_of_lt_of_le (hwf.fs_bound fe hfe e he) hmono
  · exact nodup_keys_alInsert _ _ _ hwf.rows_nodup
  · exact List.Nodup.erase _ hwf.tombs_nodup
  · intro p hp
    rcases mem_alInsert _ _ _ _ hp with rfl | hp
    · exact List.Nodup.not_mem_erase hwf.tombs_nodup
    · intro hmem
      exact hwf.disj p hp (List.mem_of_mem_erase hmem)
  · intro p hp
    rcases mem_alInsert _ _ _ _ hp with rfl | hp
    · rfl
    · exact hwf.id_match p hp
  · exact hwf.fs_keys_nodup
  · exact hwf.fs_seq_nodup
  · exact hwf.files_nodup
  · exact hwf.files_match
  · exact hwf.entries_sorted
  · exact hwf.seq_bound
  · exact hrnri
  · intro p hp
    simp only []
    rw [hrnri]
    rcases mem_alInsert _ _ _ _ hp with rfl | hp
    · exact hrid
    · exact lt_of_lt_of_le (hwf.replay_rows_bound p hp) (hwf.replay_nri ▸ hmono)
  · exact nodup_keys_alInsert _ _ _ hwf.replay_rows_nodup
  · intro p hp
    rcases mem_alInsert _ _ _ _ hp with rfl | hp
    · rfl
    · exact hwf.replay_id_match p hp
  · intro id hid
    rw [hrnri]
    exact lt_of_lt_of_le (hwf.replay_tombs_bound id (List.mem_of_mem_erase hid))
      (hwf.replay_nri ▸ hmono)
  · exact List.Nodup.erase _ hwf.replay_tombs_nodup
  · intro p hp
    rcases mem_alInsert _ _ _ _ hp with rfl | hp
    · exact List.Nodup.not_mem_erase hwf.replay_tombs_nodup
    · intro hmem
      exact hwf.replay_disj p hp (List.mem_of_mem_erase hmem)

theorem WF_metaRecord_step (w : World) (ts rts : TableState) (ht : w.table = some ts)
    (hr : replayState w.wal = some rts) (hwf : WFts w ts rts)
    (r : WalRecord) (hmeta : isMetaRecord r) (ts' : TableState)
    (hrows : ts'.rows = ts.rows) (htombs : ts'.tombstones = ts.tombstones)
    (hnri : ts'.next_row_id = ts.next_row_id) (hsst : ts'.sst_files = ts.sst_files)
    (hnss : ts'.next_sst_seq = ts.next_sst_seq) (t : Nat) :
    WF { w with wal := w.wal ++ [r], table := some ts', tick := t } := by
  obtain ⟨rts', hrts', g1, g2, g3, _, _⟩ := applyRecord_meta rts r hmeta
  have hrep : replayState (w.wal ++ [r]) = some rts' := by
    rw [replayState_append, hr, hrts']
  refine WF_mk_some _ _ _ rfl hrep ?_
  exact WFts_congr _ _ _ _ _ _ hwf rfl rfl hrows htombs hnri hsst hnss g1 g2 g3

theorem WF_deleteRow_step (w : World) (ts rts : TableState) (ht : w.table = some ts)
    (hr : replayState w.wal = some rts) (hwf : WFts w ts rts)
    (rid : Nat) (hlt : rid < ts.next_row_id) (t : Nat) :
    WF { w with
      wal := w.wal ++ [.deleteRow rid],
      table := some { ts with
        rows := alErase rid ts.rows,
        tombstones := setInsert rid ts.tombstones,
        embeddings := alErase rid ts.embeddings,
        embedding_meta := alErase rid ts.embedding_meta },
      tick := t } := by
  have hrep : replayState (w.wal ++ [WalRecord.deleteRow rid]) =
      some { rts with
        rows := alErase rid rts.rows,
        tombstones := setInsert rid rts.tombstones,
        embeddings := alErase rid rts.embeddings,
        embedding_meta := alErase rid rts.embedding_meta } := by
    rw [replayState_append, hr]
    rfl
  refine WF_mk_some _ _ _ rfl hrep ?_
  constructor
  · exact hwf.alloc_bound
  · intro p hp
    exact hwf.rows_bound p (mem_alErase _ _ _ hp)
  · intro id hid
    rcases (mem_setInsert _ _ _).mp hid with rfl | hid
    · exact hlt
    · exact hwf.tombs_bound id hid
  · exact hwf.fs_bound
  · exact nodup_keys_alErase _ _ hwf.rows_nodup
  · exact nodup_setInsert _ _ hwf.tombs_nodup
  · intro p hp hmem
    rcases (mem_setInsert _ _ _).mp hmem with heq | hmem
    · exact alErase_mem_ne _ _ hwf.rows_nodup p hp heq
    · exact hwf.disj p (mem_alErase _ _ _ hp) hmem
  · intro p hp
    exact hwf.id_match p (mem_alErase _ _ _ hp)
  · exact hwf.fs_keys_nodup
  · exact hwf.fs_seq_nodup
  · exact hwf.files_nodup
  · exact hwf.files_match
  · exact hwf.entries_sorted
  · exact hwf.seq_bound
  · exact hwf.replay_nri
  · intro p hp
    exact hwf.replay_rows_bound p (mem_alErase _ _ _ hp)
  · exact nodup_keys_alErase _ _ hwf.replay_rows_nodup
  · intro p hp
    exact hwf.replay_id_match p (mem_alErase _ _ _ hp)
  · intro id hid
    rcases (mem_setInsert _ _ _).mp hid with rfl | hid
    · rw [hwf.replay_nri]
      exact hlt
    · exact hwf.replay_tombs_bound id hid
  · exact nodup_setInsert _ _ hwf.replay_tombs_nodup
  · intro p hp hmem
    rcases (mem_setInsert _ _ _).mp hmem with heq | hmem
    · exact alErase_mem_ne _ _ hwf.replay_rows_nodup p hp heq
    · exact hwf.replay_disj p (mem_alErase _ _ _ hp) hmem

/-! ## Well-formedness preservation by each engine operation -/

theorem WF_createTableW (failAt : Nat → Bool) (schema : TableSchema)
    (spec : Option EmbeddingSpec) (w : World) (hwf : WF w) :
    WF (createTableW failAt schema spec w).2 := by
  rcases WF_destruct w hwf with ⟨ht, hr, ha, hf⟩ | ⟨ts, rts, ht, hr, hts⟩
  · simp only [createTableW, ht]
    cases hv : schema.validate_schema with
    | error e => exact hwf
    | ok u =>
      cases u
      by_cases hfa : failAt w.tick
      · simp only [walAppend, hfa, if_true]
        exact WF_tick w _ hwf
      · simp only [walAppend, hfa, Bool.false_eq_true, if_false, if_true]
        refine WF_mk_some _ (freshTableState schema spec) (freshTableState schema spec) rfl ?_ ?_
        · rw [replayState_append, hr]
          rfl
        · constructor <;> simp [freshTableState, hf, ha]
  · simp only [createTableW, ht]
    exact hwf

theorem WF_putRow_step' (w : World) (ts rts : TableState) (ht : w.table = some ts)
    (hr : replayState w.wal = some rts) (hwf : WFts w ts rts)
    (rid : Nat) (fields : Fields) (hle : rid ≤ ts.next_row_id)
    (alloc' : List Nat)
    (halloc : alloc' = w.allocated ∨ (alloc' = w.allocated ++ [rid] ∧ rid = ts.next_row_id))
    (ts' : TableState)
    (hts' : ts' = { ts with
        next_row_id := if ts.next_row_id ≤ rid then rid + 1 else ts.next_row_id,
        rows := alInsert rid ⟨rid, fields⟩ ts.rows,
        tombstones := ts.tombstones.erase rid })
    (t : Nat) :
    WF { w with
      wal := w.wal ++ [.putRow rid ⟨rid, fields⟩],
      table := some ts',
      allocated := alloc', tick := t } := by
  subst hts'
  exact WF_putRow_step w ts rts ht hr hwf rid fields hle alloc' halloc t

theorem WF_insertRowW (E : Ext) (failAt : Nat → Bool) (fields : Fields) (w : World)
    (hwf : WF w) : WF (insertRowW E failAt fields w).2 := by
  rcases WF_destruct w hwf with ⟨ht, _, _, _⟩ | ⟨ts, rts, ht, hr, hts⟩
  · simp only [insertRowW, ht]
    exact hwf
  · simp only [insertRowW, ht]
    cases hv : ts.schema.validate_row fields with
    | error e => exact hwf
    | ok u =>
      cases u
      by_cases hfa : failAt w.tick
      · simp only [walAppend, hfa, if_true, Bool.not_true, Bool.false_eq_true, if_false]
        exact WF_tick w _ hwf
      · simp only [walAppend, hfa, Bool.false_eq_true, if_false, Bool.not_true, if_true]
        cases hspec : ts.embedding_spec with
        | none =>
          exact WF_putRow_step' w ts rts ht hr hts ts.next_row_id fields (le_refl _)
            _ (Or.inr ⟨rfl, rfl⟩) _ (by rw [← hspec]) _
        | some spec =>
          dsimp only
          have hcore := WF_putRow_step' w ts rts ht hr hts ts.next_row_id fields (le_refl _)
            (w.allocated ++ [ts.next_row_id]) (Or.inr ⟨rfl, rfl⟩)
            { schema := ts.schema,
              next_row_id :=
                if ts.next_row_id ≤ ts.next_row_id then ts.next_row_id + 1 else ts.next_row_id,
              rows := alInsert ts.next_row_id ⟨ts.next_row_id, fields⟩ ts.rows,
              tombstones := ts.tombstones.erase ts.next_row_id,
              embeddings := ts.embeddings,
              embedding_meta := ts.embedding_meta,
              embedding_spec := some spec,
              sst_files := ts.sst_files,
              next_sst_seq := ts.next_sst_seq } (by rw [← hspec]) (w.tick + 1)
          cases hhash : spec.content_hash E fields with
          | error e => exact hcore
          | ok hash =>
            by_cases hfa2 : failAt (w.tick + 1)
            · simp only [walAppend, hfa2, if_true, Bool.not_true, Bool.false_eq_true, if_false]
              exact WF_tick _ _ hcore
            · simp only [walAppend, hfa2, Bool.false_eq_true, if_false, Bool.not_true, if_true]
              rcases WF_destruct _ hcore with ⟨ht1, _, _, _⟩ | ⟨ts1, rts1, ht1, hr1, hts1⟩
              · cases ht1
              · injection ht1 with ht1e
                subst ht1e
                refine WF_metaRecord_step _ _ rts1 rfl hr1 hts1
                  (.enqueueEmbedding ts.next_row_id hash) trivial _ ?_ ?_ ?_ ?_ ?_ _
                all_goals rfl

theorem WF_updateRowW (E : Ext) (failAt : Nat → Bool) (rid : Nat) (fields : Fields) (w : World)
    (hwf : WF w) : WF (updateRowW E failAt rid fields w).2 := by
  rcases WF_destruct w hwf with ⟨ht, _, _, _⟩ | ⟨ts, rts, ht, hr, hts⟩
  · simp only [updateRowW, ht]
    exact hwf
  · simp only [updateRowW, ht]
    by_cases hre : row_exists w.fs ts rid
    case neg =>
      rw [Bool.not_eq_true] at hre
      simp only [hre, Bool.not_false, if_true]
      exact hwf
    case pos =>
      obtain ⟨row, hrow⟩ := Option.isSome_iff_exists.mp hre
      have hlt : rid < ts.next_row_id := load_row_id_bound w ts rts hts rid row hrow
      have hnle : ¬ ts.next_row_id ≤ rid := by omega
      simp only [hre, Bool.not_true, Bool.false_eq_true, if_false]
      cases hv : ts.schema.validate_row fields with
      | error e => exact hwf
      | ok u =>
        cases u
        by_cases hfa : failAt w.tick
        · simp only [walAppend, hfa, if_true, Bool.not_true, Bool.false_eq_true, if_false]
          exact WF_tick w _ hwf
        · simp only [walAppend, hfa, Bool.false_eq_true, if_false, Bool.not_true, if_true]
          cases hspec : ts.embedding_spec with
          | none =>
            exact WF_putRow_step' w ts rts ht hr hts rid fields (le_of_lt hlt)
              _ (Or.inl rfl) _ (by rw [if_neg hnle, ← hspec]) _
          | some spec =>
            dsimp only
            have hcore := WF_putRow_step' w ts rts ht hr hts rid fields (le_of_lt hlt)
              w.allocated (Or.inl rfl)
              { schema := ts.schema,
                next_row_id := ts.next_row_id,
                rows := alInsert rid ⟨rid, fields⟩ ts.rows,
                tombstones := ts.tombstones.erase rid,
                embeddings := ts.embeddings,
                embedding_meta := ts.embedding_meta,
                embedding_spec := some spec,
                sst_files := ts.sst_files,
                next_sst_seq := ts.next_sst_seq } (by rw [if_neg hnle, ← hspec]) (w.tick + 1)
            cases hhash : spec.content_hash E fields with
            | error e => exact hcore
            | ok hash =>
              by_cases hfa2 : failAt (w.tick + 1)
              · simp only [walAppend, hfa2, if_true, Bool.not_true, Bool.false_eq_true, if_false]
                exact WF_tick _ _ hcore
              · simp only [walAppend, hfa2, Bool.false_eq_true, if_false, Bool.not_true, if_true]
                rcases WF_destruct _ hcore with ⟨ht1, _, _, _⟩ | ⟨ts1, rts1, ht1, hr1, hts1⟩
                · cases ht1
                · injection ht1 with ht1e
                  subst ht1e
                  refine WF_metaRecord_step _ _ rts1 rfl hr1 hts1
                    (.enqueueEmbedding rid hash) trivial _ ?_ ?_ ?_ ?_ ?_ _
                  all_goals rfl

theorem WF_deleteRowW (failAt : Nat → Bool) (rid : Nat) (w : World)
    (hwf : WF w) : WF (deleteRowW failAt rid w).2 := by
  rcases WF_destruct w hwf with ⟨ht, _, _, _⟩ | ⟨ts, rts, ht, hr, hts⟩
  · simp only [deleteRowW, ht]
    exact hwf
  · simp only [deleteRowW, ht]
    by_cases hre : row_exists w.fs ts rid
    case neg =>
      rw [Bool.not_eq_true] at hre
      simp only [hre, Bool.not_false, if_true]
      exact hwf
    case pos =>
      obtain ⟨row, hrow⟩ := Option.isSome_iff_exists.mp hre
      have hlt : rid < ts.next_row_id := load_row_id_bound w ts rts hts rid row hrow
      simp only [hre, Bool.not_true, Bool.false_eq_true, if_false]
      by_cases hfa : failAt w.tick
      · simp only [walAppend, hfa, if_true, Bool.not_true, Bool.false_eq_true, if_false]
        exact WF_tick w _ hwf
      · simp only [walAppend, hfa, Bool.false_eq_true, if_false, Bool.not_true, if_true]
        exact WF_deleteRow_step w ts rts ht hr hts rid hlt _

theorem nodup_append_singleton {β : Type} (l : List β) (a : β) (h : l.Nodup) (ha : a ∉ l) :
    (l ++ [a]).Nodup := by
  rw [List.nodup_append]
  refine ⟨h, List.nodup_singleton _, ?_⟩
  intro x hx hxa
  rw [List.mem_singleton] at hxa
  subst hxa
  exact ha hx

theorem WF_flush_step (w : World) (ts rts : TableState) (ht : w.table = some ts)
    (hr : replayState w.wal = some rts) (hwf : WFts w ts rts)
    (fs1 : FsT) (ts1 : TableState) (hfl : flushTableState w.fs ts = (fs1, ts1)) :
    WF { w with fs := fs1, table := some ts1 } := by
  simp only [flushTableState] at hfl
  by_cases hc : (ts.rows.isEmpty && ts.tombstones.isEmpty) = true
  · rw [if_pos hc] at hfl
    injection hfl with h1 h2
    subst h1
    subst h2
    refine WF_mk_some _ ts rts rfl hr ?_
    exact WFts_congr _ _ _ _ _ _ hwf rfl rfl rfl rfl rfl rfl rfl rfl rfl rfl
  · rw [if_neg hc] at hfl
    injection hfl with h1 h2
    subst h1
    subst h2
    have hfile_not_key : (⟨0, ts.next_sst_seq⟩ : SstFile) ∉ w.fs.map Prod.fst := by
      intro hmem
      have hf := (hwf.files_match _).mpr hmem
      have := hwf.seq_bound _ hf
      simp at this
    have hfile_not_files : (⟨0, ts.next_sst_seq⟩ : SstFile) ∉ ts.sst_files := by
      intro hmem
      have := hwf.seq_bound _ hmem
      simp at this
    have hW : writeSst w.fs ⟨0, ts.next_sst_seq⟩
        (insSort (fun a b => a.row_id ≤ b.row_id)
          (ts.rows.map (fun p => SstEntry.mk p.2.id (some p.2)) ++
            ts.tombstones.map (fun rid => SstEntry.mk rid none))) =
        w.fs ++ [(⟨0, ts.next_sst_seq⟩,
          insSort (fun a b => a.row_id ≤ b.row_id)
            (ts.rows.map (fun p => SstEntry.mk p.2.id (some p.2)) ++
              ts.tombstones.map (fun rid => SstEntry.mk rid none)))] := by
      unfold writeSst
      exact alInsert_of_not_mem _ _ _ hfile_not_key
    have hEb : ∀ e ∈ insSort (fun a b => a.row_id ≤ b.row_id)
        (ts.rows.map (fun p => SstEntry.mk p.2.id (some p.2)) ++
          ts.tombstones.map (fun rid => SstEntry.mk rid none)),
        e.row_id < ts.next_row_id := by
      intro e he
      have he' := (insSort_perm _ _).mem_iff.mp he
      rcases List.mem_append.mp he' with hrow | htomb
      · rcases List.mem_map.mp hrow with ⟨p, hp, rfl⟩
        simpa [hwf.id_match p hp] using hwf.rows_bound p hp
      · rcases List.mem_map.mp htomb with ⟨rid, hrid, rfl⟩
        exact hwf.tombs_bound rid hrid
    have hmapid : ((ts.rows.map (fun p => SstEntry.mk p.2.id (some p.2)) ++
        ts.tombstones.map (fun rid => SstEntry.mk rid none)).map SstEntry.row_id) =
        ts.rows.map Prod.fst ++ ts.tombstones := by
      rw [List.map_append, List.map_map, List.map_map]
      congr 1
      · exact List.map_congr_left (fun p hp => hwf.id_match p hp)
      · rw [show (SstEntry.row_id ∘ fun rid => SstEntry.mk rid none) = id from rfl,
          List.map_id]
    have hnd : ((insSort (fun a b => a.row_id ≤ b.row_id)
        (ts.rows.map (fun p => SstEntry.mk p.2.id (some p.2)) ++
          ts.tombstones.map (fun rid => SstEntry.mk rid none))).map SstEntry.row_id).Nodup := by
      refine (((insSort_perm _ _).map SstEntry.row_id).nodup_iff).mpr ?_
      rw [hmapid]
      refine hwf.rows_nodup.append hwf.tombs_nodup ?_
      intro a ha hat
      rcases List.mem_map.mp ha with ⟨p, hp, rfl⟩
      exact hwf.disj p hp hat
    have hsorted : (insSort (fun a b => a.row_id ≤ b.row_id)
        (ts.rows.map (fun p => SstEntry.mk p.2.id (some p.2)) ++
          ts.tombstones.map (fun rid => SstEntry.mk rid none))).Pairwise
        (fun a b => a.row_id < b.row_id) := by
      have h1 := insSort_sorted (fun a b => decide (a.row_id ≤ b.row_id))
        (fun a b c hab hbc => by
          simp only [decide_eq_true_eq] at hab hbc ⊢
          omega)
        (fun a b => by
          simp only [Bool.or_eq_true, decide_eq_true_eq]
          omega)
        (ts.rows.map (fun p => SstEntry.mk p.2.id (some p.2)) ++
          ts.tombstones.map (fun rid => SstEntry.mk rid none))
      have h2 := List.pairwise_map.mp hnd
      exact (h1.and h2).imp (fun h => Nat.lt_of_le_of_ne (of_decide_eq_true h.1) h.2)
    have hkeys : ((w.fs ++ [((⟨0, ts.next_sst_seq⟩ : SstFile),
        insSort (fun a b : SstEntry => a.row_id ≤ b.row_id)
          (ts.rows.map (fun p => SstEntry.mk p.2.id (some p.2)) ++
            ts.tombstones.map (fun rid => SstEntry.mk rid none)))]).map Prod.fst) =
        w.fs.map Prod.fst ++ [⟨0, ts.next_sst_seq⟩] := by
      simp
    have hseq_not : ts.next_sst_seq ∉ w.fs.map (fun fe => fe.1.seq) := by
      intro hmem
      rcases List.mem_map.mp hmem with ⟨fe, hfe, hfeq⟩
      have hk : fe.1 ∈ w.fs.map Prod.fst := List.mem_map.mpr ⟨fe, hfe, rfl⟩
      have := hwf.seq_bound _ ((hwf.files_match _).mpr hk)
      omega
    have hseqs : ((w.fs ++ [((⟨0, ts.next_sst_seq⟩ : SstFile),
        insSort (fun a b : SstEntry => a.row_id ≤ b.row_id)
          (ts.rows.map (fun p => SstEntry.mk p.2.id (some p.2)) ++
            ts.tombstones.map (fun rid => SstEntry.mk rid none)))]).map (fun fe => fe.1.seq)) =
        w.fs.map (fun fe => fe.1.seq) ++ [ts.next_sst_seq] := by
      simp
    rw [hW]
    refine WF_mk_some _ _ rts rfl hr ?_
    refine ⟨?_, ?_, ?_, ?_, ?_, ?_, ?_, ?_, ?_, ?_, ?_, ?_, ?_, ?_, ?_, ?_, ?_, ?_, ?_, ?_, ?_⟩
    · exact hwf.alloc_bound
    · intro p hp
      cases hp
    · intro id hid
      cases hid
    · intro fe hfe e he
      rcases List.mem_append.mp hfe with hold | hnew
      · exact hwf.fs_bound fe hold e he
      · rw [List.mem_singleton] at hnew
        subst hnew
        exact hEb e he
    · exact List.nodup_nil
    · exact List.nodup_nil
    · intro p hp
      cases hp
    · intro p hp
      cases hp
    · rw [hkeys]
      exact nodup_append_singleton _ _ hwf.fs_keys_nodup hfile_not_key
    · rw [hseqs]
      exact nodup_append_singleton _ _ hwf.fs_seq_nodup hseq_not
    · exact nodup_append_singleton _ _ hwf.files_nodup hfile_not_files
    · intro f
      rw [hkeys]
      simp only [List.mem_append, List.mem_singleton]
      exact or_congr (hwf.files_match f) Iff.rfl
    · intro fe hfe
      rcases List.mem_append.mp hfe with hold | hnew
      · exact hwf.entries_sorted fe hold
      · rw [List.mem_singleton] at hnew
        subst hnew
        exact hsorted
    · intro f hf
      rcases List.mem_append.mp hf with hold | hnew
      · exact Nat.lt_trans (hwf.seq_bound f hold) (Nat.lt_succ_self _)
      · rw [List.mem_singleton] at hnew
        subst hnew
        exact Nat.lt_succ_self _
    · exact hwf.replay_nri
    · exact hwf.replay_rows_bound
    · exact hwf.replay_rows_nodup
    · exact hwf.replay_id_match
    · exact hwf.replay_tombs_bound
    · exact hwf.replay_tombs_nodup
    · exact hwf.replay_disj

theorem WF_flushTableW (w : World) (hwf : WF w) : WF (flushTableW w).2 := by
  rcases WF_destruct w hwf with ⟨ht, _, _, _⟩ | ⟨ts, rts, ht, hr, hts⟩
  · simp only [flushTableW, ht]
    exact hwf
  · simp only [flushTableW, ht]
    cases hfl : flushTableState w.fs ts with
    | mk fs1 ts1 =>
      dsimp only
      exact WF_flush_step w ts rts ht hr hts fs1 ts1 hfl

theorem WF_compactTableW (w : World) (hwf : WF w) : WF (compactTableW w).2 := by
  rcases WF_destruct w hwf with ⟨ht, _, _, _⟩ | ⟨ts, rts, ht, hr, hts⟩
  · simp only [compactTableW, ht]
    exact hwf
  · simp only [compactTableW, ht]
    by_cases hlz : (ts.sst_files.filter (fun f => decide (f.level = 0))).isEmpty = true
    · rw [if_pos hlz]
      exact hwf
    · rw [if_neg hlz]
      have hne : ts.sst_files.filter (fun f => decide (f.level = 0)) ≠ [] := by
        intro h
        rw [h] at hlz
        exact hlz rfl
      rw [compactLevelZero_eq w.fs _ ts.next_sst_seq hne]
      dsimp only
      have hnf_not_files : (⟨1, ts.next_sst_seq⟩ : SstFile) ∉ ts.sst_files := by
        intro hmem
        have := hts.seq_bound _ hmem
        simp at this
      have hnf_not_key : (⟨1, ts.next_sst_seq⟩ : SstFile) ∉ w.fs.map Prod.fst := by
        intro hmem
        exact hnf_not_files ((hts.files_match _).mpr hmem)
      have hnf_not_lz : (⟨1, ts.next_sst_seq⟩ : SstFile) ∉
          ts.sst_files.filter (fun f => decide (f.level = 0)) := by
        intro hmem
        exact hnf_not_files (List.mem_of_mem_filter hmem)
      have hW : writeSst w.fs ⟨1, ts.next_sst_seq⟩
          (compactOut w.fs (ts.sst_files.filter (fun f => decide (f.level = 0)))) =
          w.fs ++ [(⟨1, ts.next_sst_seq⟩,
            compactOut w.fs (ts.sst_files.filter (fun f => decide (f.level = 0))))] := by
        unfold writeSst
        exact alInsert_of_not_mem _ _ _ hnf_not_key
      have hkeysapp : ((w.fs ++ [((⟨1, ts.next_sst_seq⟩ : SstFile),
          compactOut w.fs (ts.sst_files.filter (fun f => decide (f.level = 0))))]).map
            Prod.fst) = w.fs.map Prod.fst ++ [⟨1, ts.next_sst_seq⟩] := by
        simp
      have hndapp : ((w.fs ++ [((⟨1, ts.next_sst_seq⟩ : SstFile),
          compactOut w.fs (ts.sst_files.filter (fun f => decide (f.level = 0))))]).map
            Prod.fst).Nodup := by
        rw [hkeysapp]
        exact nodup_append_singleton _ _ hts.fs_keys_nodup hnf_not_key
      have hseq_not : ts.next_sst_seq ∉ w.fs.map (fun fe => fe.1.seq) := by
        intro hmem
        rcases List.mem_map.mp hmem with ⟨fe, hfe, hfeq⟩
        have hk : fe.1 ∈ w.fs.map Prod.fst := List.mem_map.mpr ⟨fe, hfe, rfl⟩
        have := hts.seq_bound _ ((hts.files_match _).mpr hk)
        omega
      have hsubl := removeFiles_sublist
        (ts.sst_files.filter (fun f => decide (f.level = 0)))
        (w.fs ++ [(⟨1, ts.next_sst_seq⟩,
          compactOut w.fs (ts.sst_files.filter (fun f => decide (f.level = 0))))])
      have hreadSorted : ∀ f ∈ ts.sst_files.filter (fun f => decide (f.level = 0)),
          (readSst w.fs f).Pairwise (fun a b => a.row_id < b.row_id) := by
        intro f hf
        have hfs : f ∈ ts.sst_files := List.mem_of_mem_filter hf
        have hk : f ∈ w.fs.map Prod.fst := (hts.files_match _).mp hfs
        rw [mem_keys_lookup_isSome] at hk
        obtain ⟨es, hes⟩ := Option.isSome_iff_exists.mp hk
        have hmem : (f, es) ∈ w.fs := alLookup_mem _ _ _ hes
        have : readSst w.fs f = es := by
          unfold readSst
          rw [hes]
          rfl
        rw [this]
        exact hts.entries_sorted _ hmem
      have hseqinj : ∀ x ∈ ts.sst_files, ∀ y ∈ ts.sst_files, x.seq = y.seq → x = y := by
        intro x hx y hy hxy
        have hkx : x ∈ w.fs.map Prod.fst := (hts.files_match _).mp hx
        have hky : y ∈ w.fs.map Prod.fst := (hts.files_match _).mp hy
        rcases List.mem_map.mp hkx with ⟨fex, hfex, hfex1⟩
        rcases List.mem_map.mp hky with ⟨fey, hfey, hfey1⟩
        have hfeq : fex = fey := by
          refine map_nodup_inj (fun fe => fe.1.seq) w.fs hts.fs_seq_nodup _ _ hfex hfey ?_
          show fex.1.seq = fey.1.seq
          rw [hfex1, hfey1, hxy]
        rw [← hfex1, ← hfey1, hfeq]
      have hfilesSeqNodup : ((ts.sst_files.filter
          (fun f => decide (f.level = 0))).map SstFile.seq).Nodup := by
        refine List.Nodup.map_on ?_ (hts.files_nodup.filter _)
        intro x hx y hy hxy
        exact hseqinj x (List.mem_of_mem_filter hx) y (List.mem_of_mem_filter hy) hxy
      have houtb : ∀ e ∈ compactOut w.fs
          (ts.sst_files.filter (fun f => decide (f.level = 0))),
          e.row_id < ts.next_row_id := by
        intro e he
        rw [compactOut_mem_iff w.fs _ hfilesSeqNodup hreadSorted] at he
        obtain ⟨f, hf, hef, _⟩ := he
        have hfs : f ∈ ts.sst_files := List.mem_of_mem_filter hf
        have hk : f ∈ w.fs.map Prod.fst := (hts.files_match _).mp hfs
        rw [mem_keys_lookup_isSome] at hk
        obtain ⟨es, hes⟩ := Option.isSome_iff_exists.mp hk
        have hmem : (f, es) ∈ w.fs := alLookup_mem _ _ _ hes
        have hre : readSst w.fs f = es := by
          unfold readSst
          rw [hes]
          rfl
        rw [hre] at hef
        exact hts.fs_bound _ hmem e hef
      rw [hW]
      refine WF_mk_some _ _ rts rfl hr ?_
      refine ⟨?_, ?_, ?_, ?_, ?_, ?_, ?_, ?_, ?_, ?_, ?_, ?_, ?_, ?_, ?_, ?_, ?_, ?_, ?_,
        ?_, ?_⟩
      · exact hts.alloc_bound
      · exact hts.rows_bound
      · exact hts.tombs_bound
      · intro fe hfe e he
        rcases List.mem_append.mp (hsubl.subset hfe) with hold | hnew
        · exact hts.fs_bound fe hold e he
        · rw [List.mem_singleton] at hnew
          subst hnew
          exact houtb e he
      · exact hts.rows_nodup
      · exact hts.tombs_nodup
      · exact hts.disj
      · exact hts.id_match
      · exact removeFiles_keys_nodup _ _ hndapp
      · refine List.Nodup.sublist (hsubl.map (fun fe => fe.1.seq)) ?_
        have : ((w.fs ++ [((⟨1, ts.next_sst_seq⟩ : SstFile),
            compactOut w.fs (ts.sst_files.filter (fun f => decide (f.level = 0))))]).map
              (fun fe => fe.1.seq)) = w.fs.map (fun fe => fe.1.seq) ++ [ts.next_sst_seq] := by
          simp
        rw [this]
        exact nodup_append_singleton _ _ hts.fs_seq_nodup hseq_not
      · refine nodup_append_singleton _ _ (hts.files_nodup.filter _) ?_
        intro hmem
        exact hnf_not_files (List.mem_of_mem_filter hmem)
      · intro f
        have hk2 : f ∈ ((removeFiles (w.fs ++ [(⟨1, ts.next_sst_seq⟩,
            compactOut w.fs (ts.sst_files.filter (fun f => decide (f.level = 0))))])
              (ts.sst_files.filter (fun f => decide (f.level = 0)))).map Prod.fst) ↔
            (f ∉ ts.sst_files.filter (fun f => decide (f.level = 0)) ∧
              (f ∈ w.fs.map Prod.fst ∨ f = ⟨1, ts.next_sst_seq⟩)) := by
          rw [mem_keys_lookup_isSome, removeFiles_lookup _ _ _ hndapp]
          by_cases hk : f ∈ ts.sst_files.filter (fun f => decide (f.level = 0))
          · simp [hk]
          · rw [if_neg hk, ← mem_keys_lookup_isSome, hkeysapp]
            simp [hk]
        rw [hk2]
        constructor
        · intro hmem
          rcases List.mem_append.mp hmem with hfil | hnf
          · have hfs : f ∈ ts.sst_files := List.mem_of_mem_filter hfil
            have hlev : f.level ≠ 0 := by
              have := List.mem_filter.mp hfil
              simpa using this.2
            refine ⟨?_, Or.inl ((hts.files_match _).mp hfs)⟩
            intro hin
            have := List.mem_filter.mp hin
            exact hlev (by simpa using this.2)
          · rw [List.mem_singleton] at hnf
            subst hnf
            exact ⟨hnf_not_lz, Or.inr rfl⟩
        · rintro ⟨hnot, hin | rfl⟩
          · have hfs : f ∈ ts.sst_files := (hts.files_match _).mpr hin
            refine List.mem_append.mpr (Or.inl ?_)
            rw [List.mem_filter]
            refine ⟨hfs, ?_⟩
            simp only [decide_eq_true_eq]
            intro hlev0
            exact hnot (List.mem_filter.mpr ⟨hfs, by simpa using hlev0⟩)
          · exact List.mem_append.mpr (Or.inr (List.mem_singleton.mpr rfl))
      · intro fe hfe
        rcases List.mem_append.mp (hsubl.subset hfe) with hold | hnew
        · exact hts.entries_sorted fe hold
        · rw [List.mem_singleton] at hnew
          subst hnew
          exact compactOut_sorted _ _
      · intro f hf
        rcases List.mem_append.mp hf with hold | hnew
        · exact Nat.lt_trans (hts.seq_bound f (List.mem_of_mem_filter hold))
            (Nat.lt_succ_self _)
        · rw [List.mem_singleton] at hnew
          subst hnew
          exact Nat.lt_succ_self _
      · exact hts.replay_nri
      · exact hts.replay_rows_bound
      · exact hts.replay_rows_nodup
      · exact hts.replay_id_match
      · exact hts.replay_tombs_bound
      · exact hts.replay_tombs_nodup
      · exact hts.replay_disj

theorem WF_checkpointW (failAt : Nat → Bool) (w : World) (hwf : WF w) :
    WF (checkpointW failAt w).2 := by
  rcases WF_destruct w hwf with ⟨ht, hrn, hal, hfs⟩ | ⟨ts, rts, ht, hr, hts⟩
  · simp only [checkpointW, ht]
    exact WF_mk_none _ rfl rfl hal hfs
  · simp only [checkpointW, ht]
    cases hfl : flushTableState w.fs ts with
    | mk fs1 ts1 =>
      dsimp only
      cases hnw : newWalAppendAll failAt w.tick (checkpointRecords ts1) with
      | mk tick1 ok =>
        dsimp only
        have hflush := WF_flush_step w ts rts ht hr hts fs1 ts1 hfl
        cases ok with
        | false =>
          simp only [Bool.false_eq_true, if_false]
          exact WF_tick _ tick1 hflush
        | true =>
          simp only [if_true]
          obtain ⟨rts', hrep', hrw, hrt, hrnri⟩ := replay_checkpointRecords ts1
          rcases WF_destruct _ hflush with ⟨htf, _, _, _⟩ | ⟨tsf, rtsf, htf, hrf, hwff⟩
          · cases htf
          · injection htf with htfe
            subst htfe
            refine WF_mk_some _ _ rts' rfl hrep' ?_
            refine ⟨hwff.alloc_bound, hwff.rows_bound, hwff.tombs_bound, hwff.fs_bound,
              hwff.rows_nodup, hwff.tombs_nodup, hwff.disj, hwff.id_match,
              hwff.fs_keys_nodup, hwff.fs_seq_nodup, hwff.files_nodup, hwff.files_match,
              hwff.entries_sorted, hwff.seq_bound, hrnri, ?_, ?_, ?_, ?_, ?_, ?_⟩
            · rw [hrw]
              intro p hp
              cases hp
            · rw [hrw]
              exact List.nodup_nil
            · rw [hrw]
              intro p hp
              cases hp
            · rw [hrt]
              intro id hid
              cases hid
            · rw [hrt]
              exact List.nodup_nil
            · rw [hrw]
              intro p hp
              cases hp

theorem WF_reopenW (w : World) (hwf : WF w) : WF (reopenW w) := by
  rcases WF_destruct w hwf with ⟨ht, hrn, hal, hfs⟩ | ⟨ts, rts, ht, hr, hts⟩
  · simp only [reopenW, openWorld, hrn, Option.map_none']
    exact WF_mk_none _ rfl hrn hal hfs
  · simp only [reopenW, openWorld, hr, Option.map_some']
    refine WF_mk_some _ _ rts rfl hr ?_
    have hnri : rts.next_row_id = ts.next_row_id := hts.replay_nri
    refine ⟨?_, ?_, ?_, ?_, ?_, ?_, ?_, ?_, ?_, ?_, ?_, ?_, ?_, ?_, ?_, ?_, ?_, ?_, ?_,
      ?_, ?_⟩
    · intro id hid
      have h1 := hts.alloc_bound id hid
      show id < rts.next_row_id
      omega
    · intro p hp
      exact hts.replay_rows_bound p hp
    · intro id hid
      exact hts.replay_tombs_bound id hid
    · intro fe hfe e he
      have h1 := hts.fs_bound fe hfe e he
      show e.row_id < rts.next_row_id
      omega
    · exact hts.replay_rows_nodup
    · exact hts.replay_tombs_nodup
    · exact hts.replay_disj
    · exact hts.replay_id_match
    · exact hts.fs_keys_nodup
    · exact hts.fs_seq_nodup
    · exact ((insSort_perm _ _).nodup_iff).mpr hts.fs_keys_nodup
    · intro f
      exact (insSort_perm _ _).mem_iff
    · exact hts.entries_sorted
    · intro f hf
      have h1 := maxSeq_ge (listSstFiles w.fs) f hf
      show f.seq < maxSeq (listSstFiles w.fs) + 1
      omega
    · rfl
    · exact hts.replay_rows_bound
    · exact hts.replay_rows_nodup
    · exact hts.replay_id_match
    · exact hts.replay_tombs_bound
    · exact hts.replay_tombs_nodup
    · exact hts.replay_disj

theorem metaAdjust_fields (ts : TableState) (rid : Nat) (f : EmbeddingMeta → EmbeddingMeta) :
    (metaAdjust ts rid f).rows = ts.rows ∧ (metaAdjust ts rid f).tombstones = ts.tombstones ∧
    (metaAdjust ts rid f).next_row_id = ts.next_row_id ∧
    (metaAdjust ts rid f).sst_files = ts.sst_files ∧
    (metaAdjust ts rid f).next_sst_seq = ts.next_sst_seq := by
  unfold metaAdjust
  split
  · exact ⟨rfl, rfl, rfl, rfl, rfl⟩
  · exact ⟨rfl, rfl, rfl, rfl, rfl⟩

theorem WF_metaMap_step (w : World) (hwf : WF w) (r : WalRecord) (hmeta : isMetaRecord r)
    (g : TableState → TableState)
    (hg : ∀ ts, (g ts).rows = ts.rows ∧ (g ts).tombstones = ts.tombstones ∧
      (g ts).next_row_id = ts.next_row_id ∧ (g ts).sst_files = ts.sst_files ∧
      (g ts).next_sst_seq = ts.next_sst_seq) (t : Nat) :
    WF { w with wal := w.wal ++ [r], table := w.table.map g, tick := t } := by
  rcases WF_destruct w hwf with ⟨ht, hrn, hal, hfs⟩ | ⟨ts, rts, ht, hr, hts⟩
  · refine WF_mk_none _ ?_ ?_ hal hfs
    · show w.table.map g = none
      rw [ht]
      rfl
    · show replayState (w.wal ++ [r]) = none
      rw [replayState_append, hrn]
      cases r with
      | enqueueEmbedding rid hash => rfl
      | updateEmbeddingStatus rid st le att rt => rfl
      | storeEmbedding rid vec => rfl
      | createTable s sp => cases hmeta
      | setNextRowId n => cases hmeta
      | putRow rid row => cases hmeta
      | deleteRow rid => cases hmeta
  · have hmk : w.table.map g = some (g ts) := by
      rw [ht]
      rfl
    obtain ⟨h1, h2, h3, h4, h5⟩ := hg ts
    have hstep := WF_metaRecord_step w ts rts ht hr hts r hmeta (g ts) h1 h2 h3 h4 h5 t
    rw [hmk]
    exact hstep

theorem WF_retryLoop (failAt : Nat → Bool) (ids : List Nat) :
    ∀ (count : Nat) (w : World), WF w → WF (retryLoop failAt count ids w).2 := by
  induction ids with
  | nil =>
    intro count w hwf
    exact hwf
  | cons rid rest ih =>
    intro count w hwf
    by_cases hfa : failAt w.tick
    · simp only [retryLoop, walAppend, hfa, if_true, Bool.not_true, Bool.false_eq_true,
        if_false]
      exact WF_tick w _ hwf
    · simp only [retryLoop, walAppend, hfa, Bool.false_eq_true, if_false, Bool.not_true,
        if_true]
      refine ih (count + 1) _ ?_
      exact WF_metaMap_step w hwf
        (.updateEmbeddingStatus rid .pending none (some 0) (some 0)) trivial
        _ (fun ts => metaAdjust_fields ts rid _) (w.tick + 1)

theorem WF_retryFailedJobsW (failAt : Nat → Bool) (filter : Option Nat) (w : World)
    (hwf : WF w) : WF (retryFailedJobsW failAt filter w).2 := by
  cases ht : w.table with
  | none =>
    simp only [retryFailedJobsW, ht]
    exact hwf
  | some ts =>
    simp only [retryFailedJobsW, ht]
    exact WF_retryLoop failAt _ 0 w hwf

theorem WF_jobLoop (failAt : Nat → Bool) (embedder : String → Except String (List Rat))
    (now_ms : Nat) (jobs : List (Nat × String)) :
    ∀ (count : Nat) (w : World), WF w → WF (jobLoop failAt embedder now_ms count jobs w).2 := by
  induction jobs with
  | nil =>
    intro count w hwf
    exact hwf
  | cons job rest ih =>
    intro count w hwf
    obtain ⟨rid, input⟩ := job
    cases hemb : embedder input with
    | ok vec =>
      by_cases hfa : failAt w.tick
      · simp only [jobLoop, hemb, walAppend, hfa, if_true, Bool.not_true, Bool.false_eq_true,
          if_false]
        exact WF_tick w _ hwf
      · simp only [jobLoop, hemb, walAppend, hfa, Bool.false_eq_true, if_false, Bool.not_true,
          if_true]
        have hW2 : WF { w with
            wal := w.wal ++ [WalRecord.storeEmbedding rid vec],
            table := w.table.map (fun ts => { ts with
              embeddings := alInsert rid vec ts.embeddings }),
            tick := w.tick + 1 } :=
          WF_metaMap_step w hwf (.storeEmbedding rid vec) trivial
            (fun ts => { ts with embeddings := alInsert rid vec ts.embeddings })
            (fun ts => ⟨rfl, rfl, rfl, rfl, rfl⟩) (w.tick + 1)
        by_cases hfa2 : failAt (w.tick + 1)
        · simp only [hfa2, if_true, Bool.not_true, Bool.false_eq_true, if_false]
          exact WF_tick _ _ hW2
        · simp only [hfa2, Bool.false_eq_true, if_false, Bool.not_true, if_true]
          refine ih (count + 1) _ ?_
          exact WF_metaMap_step _ hW2
            (.updateEmbeddingStatus rid .ready none (some 0) (some 0)) trivial
            _ (fun ts => metaAdjust_fields ts rid _) (w.tick + 1 + 1)
    | error err =>
      by_cases hfa : failAt w.tick
      · simp only [jobLoop, hemb, walAppend, hfa, if_true, Bool.not_true, Bool.false_eq_true,
          if_false]
        exact WF_tick w _ hwf
      · simp only [jobLoop, hemb, walAppend, hfa, Bool.false_eq_true, if_false, Bool.not_true,
          if_true]
        refine ih (count + 1) _ ?_
        exact WF_metaMap_step w hwf
          (.updateEmbeddingStatus rid _ (some err) (some _) (some _)) trivial
          _ (fun ts => metaAdjust_fields ts rid _) (w.tick + 1)

theorem WF_processPendingJobsW (E : Ext) (failAt : Nat → Bool)
    (embedder : String → Except String (List Rat)) (limit : Option Nat) (now_ms : Nat)
    (w : World) (hwf : WF w) :
    WF (processPendingJobsW E failAt embedder limit now_ms w).2 := by
  cases ht : w.table with
  | none =>
    simp only [processPendingJobsW, ht]
    exact hwf
  | some ts =>
    simp only [processPendingJobsW, ht]
    cases hspec : ts.embedding_spec with
    | none => exact hwf
    | some spec =>
      dsimp only
      cases hcol : collectJobs E spec w.fs ts (pendingIds ts limit now_ms) with
      | error e => exact hwf
      | ok jobs => exact WF_jobLoop failAt embedder now_ms jobs 0 w hwf

theorem WF_stepOp (E : Ext) (failAt : Nat → Bool) (w : World) (hwf : WF w) (op : Op) :
    WF (stepOp E failAt w op) := by
  cases op with
  | create schema spec => exact WF_createTableW failAt schema spec w hwf
  | insert fields => exact WF_insertRowW E failAt fields w hwf
  | update rid fields => exact WF_updateRowW E failAt rid fields w hwf
  | delete rid => exact WF_deleteRowW failAt rid w hwf
  | flush => exact WF_flushTableW w hwf
  | compact => exact WF_compactTableW w hwf
  | checkpoint => exact WF_checkpointW failAt w hwf
  | reopen => exact WF_reopenW w hwf
  | retryFailed filter => exact WF_retryFailedJobsW failAt filter w hwf
  | processJobs embedder limit now_ms =>
    exact WF_processPendingJobsW E failAt embedder limit now_ms w hwf

theorem WF_runOps (E : Ext) (failAt : Nat → Bool) (ops : List Op) :
    ∀ w : World, WF w → WF (runOps E failAt ops w) := by
  induction ops with
  | nil =>
    intro w hwf
    exact hwf
  | cons op rest ih =>
    intro w hwf
    exact ih _ (WF_stepOp E failAt w hwf op)

theorem WF_initWorld : WF initWorld := by
  exact ⟨rfl, rfl⟩

set_option maxRecDepth 100000 in
/-- **C8.** In every engine state reachable by any sequence of operations —
including flush, compact, checkpoint, and close/reopen (WAL replay), under
every pattern of WAL-append I/O failures and every choice of the external
black boxes — the table's `next_row_id` strictly exceeds every row id ever
allocated by `insert_row`; and concretely, after creating a table, inserting
200 rows, running checkpoint and reopening, the next `insert_row` returns
id 201. -/
theorem claim_C8 :
    (∀ (E : Ext) (failAt : Nat → Bool) (ops : List Op),
      ∀ id ∈ (runOps E failAt ops initWorld).allocated,
        ∃ ts, (runOps E failAt ops initWorld).table = some ts ∧ id < ts.next_row_id) ∧
    (insertRowW extId okOracle fieldsX (runOps extId okOracle opsS5 initWorld)).1 =
      .ok 201 := by
  constructor
  · intro E failAt ops id hid
    have hwf := WF_runOps E failAt ops initWorld WF_initWorld
    rcases WF_destruct _ hwf with ⟨ht, hrn, hal, hfs⟩ | ⟨ts, rts, ht, hr, hts⟩
    · rw [hal] at hid
      cases hid
    · exact ⟨ts, ht, hts.alloc_bound id hid⟩
  · decide

set_option maxRecDepth 10000 in
theorem claim_C8_witness :
    ∃ ts, (runOps extId okOracle
        [Op.create sampleSchema none, Op.insert fieldsX] initWorld).table = some ts ∧
      1 < ts.next_row_id :=
  claim_C8.1 extId okOracle [Op.create sampleSchema none, Op.insert fieldsX] 1 (by decide)

theorem bsGo_complete (es : List SstEntry)
    (hs : es.Pairwise (fun a b => a.row_id < b.row_id)) (target : Nat)
    (idx : Nat) (hidx : idx < es.length)
    (hrid : (es.get ⟨idx, hidx⟩).row_id = target) :
    ∀ (fuel lo hi : Nat), lo ≤ idx → idx < hi → hi ≤ es.length → hi - lo ≤ fuel →
      (bsGo es target lo hi fuel).isSome := by
  have hmono : ∀ (i j : Nat) (hi : i < es.length) (hj : j < es.length), i < j →
      (es.get ⟨i, hi⟩).row_id < (es.get ⟨j, hj⟩).row_id := by
    intro i j hi hj hij
    exact List.pairwise_iff_get.mp hs ⟨i, hi⟩ ⟨j, hj⟩ hij
  intro fuel
  induction fuel with
  | zero =>
    intro lo hi hlo hhi hlen hfuel
    omega
  | succ fuel ih =>
    intro lo hi hlo hhi hlen hfuel
    have hlt : lo < hi := by omega
    have hmidlt : (lo + hi) / 2 < es.length := by omega
    have hget : es.get? ((lo + hi) / 2) = some (es.get ⟨(lo + hi) / 2, hmidlt⟩) :=
      List.get?_eq_get hmidlt
    simp only [bsGo, if_pos hlt, hget]
    by_cases heq : (es.get ⟨(lo + hi) / 2, hmidlt⟩).row_id = target
    · rw [if_pos heq]
      rfl
    · rw [if_neg heq]
      by_cases hlt2 : (es.get ⟨(lo + hi) / 2, hmidlt⟩).row_id < target
      · rw [if_pos hlt2]
        have hidxgt : (lo + hi) / 2 < idx := by
          rcases Nat.lt_trichotomy idx ((lo + hi) / 2) with h3 | h3 | h3
          · have := hmono idx ((lo + hi) / 2) hidx hmidlt h3
            omega
          · exfalso
            apply heq
            have : (⟨(lo + hi) / 2, hmidlt⟩ : Fin es.length) = ⟨idx, hidx⟩ := by
              apply Fin.ext
              exact h3.symm
            rw [this]
            exact hrid
          · exact h3
        exact ih ((lo + hi) / 2 + 1) hi hidxgt hhi hlen (by omega)
      · rw [if_neg hlt2]
        have hidxlt : idx < (lo + hi) / 2 := by
          rcases Nat.lt_trichotomy idx ((lo + hi) / 2) with h3 | h3 | h3
          · exact h3
          · exfalso
            apply heq
            have : (⟨(lo + hi) / 2, hmidlt⟩ : Fin es.length) = ⟨idx, hidx⟩ := by
              apply Fin.ext
              exact h3.symm
            rw [this]
            exact hrid
          · have := hmono ((lo + hi) / 2) idx hmidlt hidx h3
            omega
        exact ih lo ((lo + hi) / 2) hlo hidxlt (by omega) (by omega)

theorem findEntry_complete (es : List SstEntry)
    (hs : es.Pairwise (fun a b => a.row_id < b.row_id)) (target : Nat)
    (h : ∃ e ∈ es, e.row_id = target) : (findEntry es target).isSome := by
  obtain ⟨e, he, hrid⟩ := h
  obtain ⟨n, hn⟩ := List.mem_iff_get.mp he
  refine bsGo_complete es hs target n.1 n.2 ?_ (es.length + 1) 0 es.length
    (Nat.zero_le _) n.2 (le_refl _) (by omega)
  rw [show (⟨n.1, n.2⟩ : Fin es.length) = n from rfl, hn]
  exact hrid

theorem loadRowSst_finds (fs : FsT) (i : Nat) (fields : Fields) (files : List SstFile)
    (hsorted : ∀ f ∈ files, (readSst fs f).Pairwise (fun a b => a.row_id < b.row_id))
    (hall : ∀ f ∈ files, ∀ e ∈ readSst fs f, e.row_id = i →
      e.row = some (⟨i, fields⟩ : RowData))
    (hex : ∃ f ∈ files, ∃ e ∈ readSst fs f, e.row_id = i) :
    loadRowSst fs i files = some ⟨i, fields⟩ := by
  induction files with
  | nil =>
    obtain ⟨f, hf, _⟩ := hex
    cases hf
  | cons f rest ih =>
    simp only [loadRowSst]
    cases hfe : findEntry (readSst fs f) i with
    | some entry =>
      obtain ⟨hmem, hid⟩ := findEntry_sound _ _ _ hfe
      exact hall f (List.mem_cons_self _ _) entry hmem hid
    | none =>
      refine ih (fun g hg => hsorted g (List.mem_cons_of_mem _ hg))
        (fun g hg => hall g (List.mem_cons_of_mem _ hg)) ?_
      obtain ⟨g, hg, he⟩ := hex
      rcases List.mem_cons.mp hg with rfl | hg'
      · exfalso
        have hc := findEntry_complete _ (hsorted g (List.mem_cons_self _ _)) i he
        rw [hfe] at hc
        cases hc
      · exact ⟨g, hg', he⟩

theorem readSst_sorted_of_WFts (w : World) (ts rts : TableState) (hts : WFts w ts rts)
    (g : SstFile) (hg : g ∈ ts.sst_files) :
    (readSst w.fs g).Pairwise (fun a b => a.row_id < b.row_id) := by
  have hk : g ∈ w.fs.map Prod.fst := (hts.files_match _).mp hg
  rw [mem_keys_lookup_isSome] at hk
  obtain ⟨es, hes⟩ := Option.isSome_iff_exists.mp hk
  have hmem : (g, es) ∈ w.fs := alLookup_mem _ _ _ hes
  have hre : readSst w.fs g = es := by
    unfold readSst
    rw [hes]
    rfl
  rw [hre]
  exact hts.entries_sorted _ hmem

theorem pinned_getRow (w : World) (i : Nat) (fields : Fields) (hwf : WF w)
    (hp : rowPinned w i fields) : getRowW w i = .ok (some ⟨i, fields⟩) := by
  obtain ⟨hlast, hfsall, ts, ht, hcase⟩ := hp
  rcases WF_destruct w hwf with ⟨ht', _, _, _⟩ | ⟨ts', rts, ht', hr, hts⟩
  · rw [ht] at ht'
    cases ht'
  · rw [ht] at ht'
    injection ht' with he
    subst he
    simp only [getRowW, ht]
    rcases hcase with hmem | ⟨hnone, htomb, f, hf, e, he, hei⟩
    · unfold load_row
      rw [hmem]
    · unfold load_row
      rw [hnone, if_neg htomb]
      rw [loadRowSst_finds w.fs i fields ts.sst_files.reverse
        (fun g hg => readSst_sorted_of_WFts w ts rts hts g (List.mem_reverse.mp hg))
        ?_ ⟨f, List.mem_reverse.mpr hf, e, he, hei⟩]
      intro g hg e' he' hei'
      obtain ⟨entries, hge, hee⟩ := mem_readSst _ _ _ he'
      exact hfsall (g, entries) hge e' hee hei'

theorem lastRowEffect_append (wal : List WalRecord) (r : WalRecord) (i : Nat) :
    lastRowEffect (wal ++ [r]) i =
      match r with
      | .createTable _ _ => some none
      | .putRow rid row => if rid = i then some (some row) else lastRowEffect wal i
      | .deleteRow rid => if rid = i then some none else lastRowEffect wal i
      | _ => lastRowEffect wal i := by
  unfold lastRowEffect
  rw [List.foldl_append]
  cases r <;> rfl

theorem replay_lastRowEffect (wal : List WalRecord) (i : Nat) (row : RowData) :
    ∀ rts, replayState wal = some rts →
      lastRowEffect wal i = some (some row) → alLookup i rts.rows = some row := by
  induction wal using List.reverseRecOn with
  | nil =>
    intro rts hr hl
    cases hr
  | append_singleton wal r ih =>
    intro rts hr hl
    rw [replayState_append] at hr
    rw [lastRowEffect_append] at hl
    cases r with
    | createTable s sp =>
      simp at hl
    | setNextRowId n =>
      cases hprev : replayState wal with
      | none =>
        rw [hprev] at hr
        cases hr
      | some ts0 =>
        rw [hprev] at hr
        simp only [applyRecord, Option.map_some'] at hr
        injection hr with hre
        subst hre
        exact ih ts0 hprev hl
    | putRow rid prow =>
      dsimp only at hl
      by_cases hri : rid = i
      · rw [if_pos hri] at hl
        injection hl with hl1
        injection hl1 with hl2
        cases hprev : replayState wal with
        | none =>
          rw [hprev] at hr
          cases hr
        | some ts0 =>
          rw [hprev] at hr
          simp only [applyRecord, Option.map_some'] at hr
          injection hr with hre
          subst hre
          show alLookup i (alInsert rid prow ts0.rows) = some row
          rw [hri, hl2]
          exact alLookup_insert_self i row ts0.rows
      · rw [if_neg hri] at hl
        cases hprev : replayState wal with
        | none =>
          rw [hprev] at hr
          cases hr
        | some ts0 =>
          rw [hprev] at hr
          simp only [applyRecord, Option.map_some'] at hr
          injection hr with hre
          subst hre
          show alLookup i (alInsert rid prow ts0.rows) = some row
          rw [alLookup_insert_ne rid i prow ts0.rows (fun h => hri h.symm)]
          exact ih ts0 hprev hl
    | deleteRow rid =>
      dsimp only at hl
      by_cases hri : rid = i
      · rw [if_pos hri] at hl
        simp at hl
      · rw [if_neg hri] at hl
        cases hprev : replayState wal with
        | none =>
          rw [hprev] at hr
          cases hr
        | some ts0 =>
          rw [hprev] at hr
          simp only [applyRecord, Option.map_some'] at hr
          injection hr with hre
          subst hre
          show alLookup i (alErase rid ts0.rows) = some row
          rw [alLookup_erase_ne rid i ts0.rows (fun h => hri h.symm)]
          exact ih ts0 hprev hl
    | enqueueEmbedding rid hash =>
      cases hprev : replayState wal with
      | none =>
        rw [hprev] at hr
        cases hr
      | some ts0 =>
        rw [hprev] at hr
        simp only [applyRecord, Option.map_some'] at hr
        injection hr with hre
        subst hre
        exact ih ts0 hprev hl
    | updateEmbeddingStatus rid st le att rt =>
      cases hprev : replayState wal with
      | none =>
        rw [hprev] at hr
        cases hr
      | some ts0 =>
        rw [hprev] at hr
        simp only [applyRecord, Option.map_some'] at hr
        injection hr with hre
        subst hre
        show alLookup i (metaAdjust ts0 rid _).rows = some row
        rw [(metaAdjust_fields ts0 rid _).1]
        exact ih ts0 hprev hl
    | storeEmbedding rid vec =>
      cases hprev : replayState wal with
      | none =>
        rw [hprev] at hr
        cases hr
      | some ts0 =>
        rw [hprev] at hr
        simp only [applyRecord, Option.map_some'] at hr
        injection hr with hre
        subst hre
        exact ih ts0 hprev hl

theorem pinned_reopen (w : World) (i : Nat) (fields : Fields) (hwf : WF w)
    (hp : rowPinned w i fields) : rowPinned (reopenW w) i fields := by
  obtain ⟨hlast, hfsall, ts, ht, hcase⟩ := hp
  rcases WF_destruct w hwf with ⟨ht', _, _, _⟩ | ⟨ts', rts, ht', hr, hts⟩
  · rw [ht] at ht'
    cases ht'
  · refine ⟨hlast, hfsall, ?_⟩
    simp only [reopenW, openWorld, hr, Option.map_some']
    refine ⟨_, rfl, Or.inl ?_⟩
    show alLookup i rts.rows = some ⟨i, fields⟩
    exact replay_lastRowEffect w.wal i ⟨i, fields⟩ rts hr hlast

theorem pinned_flush (w : World) (i : Nat) (fields : Fields) (hwf : WF w)
    (hp : rowPinned w i fields) : rowPinned (flushTableW w).2 i fields := by
  obtain ⟨hlast, hfsall, ts, ht, hcase⟩ := hp
  rcases WF_destruct w hwf with ⟨ht', _, _, _⟩ | ⟨ts', rts, ht', hr, hts⟩
  · rw [ht] at ht'
    cases ht'
  · rw [ht] at ht'
    injection ht' with he
    subst he
    simp only [flushTableW, ht]
    cases hfl : flushTableState w.fs ts with
    | mk fs1 ts1 =>
      dsimp only
      simp only [flushTableState] at hfl
      by_cases hc : (ts.rows.isEmpty && ts.tombstones.isEmpty) = true
      · rw [if_pos hc] at hfl
        injection hfl with h1 h2
        subst h1
        subst h2
        exact ⟨hlast, hfsall, ts, rfl, hcase⟩
      · rw [if_neg hc] at hfl
        injection hfl with h1 h2
        subst h1
        subst h2
        have hfile_not_key : (⟨0, ts.next_sst_seq⟩ : SstFile) ∉ w.fs.map Prod.fst := by
          intro hmem
          have hf := (hts.files_match _).mpr hmem
          have := hts.seq_bound _ hf
          simp at this
        have hmemS : ∀ e ∈ insSort (fun a b => a.row_id ≤ b.row_id)
            (ts.rows.map (fun p => SstEntry.mk p.2.id (some p.2)) ++
              ts.tombstones.map (fun rid => SstEntry.mk rid none)),
            e.row_id = i → e.row = some (⟨i, fields⟩ : RowData) := by
          intro e he hei
          have he' := (insSort_perm _ _).mem_iff.mp he
          rcases List.mem_append.mp he' with hrow | htombe
          · rcases List.mem_map.mp hrow with ⟨p, hpm, rfl⟩
            have hpid : p.2.id = p.1 := hts.id_match p hpm
            have hp1 : p.1 = i := by
              rw [← hpid]
              exact hei
            have hlk : alLookup i ts.rows = some p.2 := by
              refine alLookup_of_mem_nodup i p.2 ts.rows ?_ hts.rows_nodup
              rw [← hp1]
              exact hpm
            rcases hcase with hmem | ⟨hnone, _, _⟩
            · rw [hmem] at hlk
              injection hlk with hlk2
              rw [hlk2]
            · rw [hnone] at hlk
              cases hlk
          · rcases List.mem_map.mp htombe with ⟨rid, hridm, rfl⟩
            have hri : rid = i := hei
            subst hri
            exfalso
            rcases hcase with hmem | ⟨_, htomb, _⟩
            · exact hts.disj _ (alLookup_mem _ _ _ hmem) hridm
            · exact htomb hridm
        refine ⟨hlast, ?_, ?_⟩
        · intro fe hfe e he hei
          rw [show writeSst w.fs ⟨0, ts.next_sst_seq⟩
              (insSort (fun a b => a.row_id ≤ b.row_id)
                (ts.rows.map (fun p => SstEntry.mk p.2.id (some p.2)) ++
                  ts.tombstones.map (fun rid => SstEntry.mk rid none))) =
              w.fs ++ [(⟨0, ts.next_sst_seq⟩,
                insSort (fun a b => a.row_id ≤ b.row_id)
                  (ts.rows.map (fun p => SstEntry.mk p.2.id (some p.2)) ++
                    ts.tombstones.map (fun rid => SstEntry.mk rid none)))]
              from alInsert_of_not_mem _ _ _ hfile_not_key] at hfe
          rcases List.mem_append.mp hfe with hold | hnew
          · exact hfsall fe hold e he hei
          · rw [List.mem_singleton] at hnew
            subst hnew
            exact hmemS e he hei
        · refine ⟨_, rfl, Or.inr ⟨rfl, List.not_mem_nil i, ?_⟩⟩
          rcases hcase with hmem | ⟨hnone, htomb, f, hf, e, he, hei⟩
          · refine ⟨⟨0, ts.next_sst_seq⟩,
              List.mem_append.mpr (Or.inr (List.mem_singleton.mpr rfl)),
              ⟨(⟨i, fields⟩ : RowData).id, some ⟨i, fields⟩⟩, ?_, rfl⟩
            have hre : readSst (writeSst w.fs ⟨0, ts.next_sst_seq⟩
                (insSort (fun a b => a.row_id ≤ b.row_id)
                  (ts.rows.map (fun p => SstEntry.mk p.2.id (some p.2)) ++
                    ts.tombstones.map (fun rid => SstEntry.mk rid none))))
                (⟨0, ts.next_sst_seq⟩ : SstFile) =
                insSort (fun a b => a.row_id ≤ b.row_id)
                  (ts.rows.map (fun p => SstEntry.mk p.2.id (some p.2)) ++
                    ts.tombstones.map (fun rid => SstEntry.mk rid none)) := by
              unfold readSst writeSst
              rw [alLookup_insert_self]
              rfl
            rw [hre]
            refine ((insSort_perm _ _).mem_iff).mpr ?_
            refine List.mem_append.mpr (Or.inl ?_)
            exact List.mem_map.mpr ⟨(i, ⟨i, fields⟩), alLookup_mem _ _ _ hmem, rfl⟩
          · have hfnf : f ≠ (⟨0, ts.next_sst_seq⟩ : SstFile) := by
              intro hfe
              have := hts.seq_bound f hf
              rw [hfe] at this
              simp at this
            refine ⟨f, List.mem_append.mpr (Or.inl hf), e, ?_, hei⟩
            have hre : readSst (writeSst w.fs ⟨0, ts.next_sst_seq⟩
                (insSort (fun a b => a.row_id ≤ b.row_id)
                  (ts.rows.map (fun p => SstEntry.mk p.2.id (some p.2)) ++
                    ts.tombstones.map (fun rid => SstEntry.mk rid none)))) f =
                readSst w.fs f := by
              unfold readSst writeSst
              rw [alLookup_insert_ne _ _ _ _ hfnf]
            rw [hre]
            exact he

theorem exists_max_seq (files : List SstFile) (P : SstFile → Prop)
    (h : ∃ f ∈ files, P f) :
    ∃ g ∈ files, P g ∧ ∀ h ∈ files, P h → h.seq ≤ g.seq := by
  induction files with
  | nil =>
    obtain ⟨f, hf, _⟩ := h
    cases hf
  | cons a rest ih =>
    by_cases hPrest : ∃ f ∈ rest, P f
    · obtain ⟨g, hg, hPg, hmax⟩ := ih hPrest
      by_cases hPa : P a
      · by_cases hcmp : a.seq ≤ g.seq
        · refine ⟨g, List.mem_cons_of_mem _ hg, hPg, ?_⟩
          intro x hx hPx
          rcases List.mem_cons.mp hx with rfl | hx'
          · exact hcmp
          · exact hmax x hx' hPx
        · refine ⟨a, List.mem_cons_self _ _, hPa, ?_⟩
          intro x hx hPx
          rcases List.mem_cons.mp hx with rfl | hx'
          · exact le_refl _
          · exact le_trans (hmax x hx' hPx) (Nat.le_of_not_le hcmp)
      · refine ⟨g, List.mem_cons_of_mem _ hg, hPg, ?_⟩
        intro x hx hPx
        rcases List.mem_cons.mp hx with rfl | hx'
        · exact absurd hPx hPa
        · exact hmax x hx' hPx
    · obtain ⟨f, hf, hPf⟩ := h
      rcases List.mem_cons.mp hf with rfl | hf'
      · refine ⟨f, List.mem_cons_self _ _, hPf, ?_⟩
        intro x hx hPx
        rcases List.mem_cons.mp hx with rfl | hx'
        · exact le_refl _
        · exact absurd ⟨x, hx', hPx⟩ hPrest
      · exact absurd ⟨f, hf', hPf⟩ hPrest

theorem lz_seq_nodup (w : World) (ts rts : TableState) (hts : WFts w ts rts) :
    ((ts.sst_files.filter (fun f => decide (f.level = 0))).map SstFile.seq).Nodup := by
  have hseqinj : ∀ x ∈ ts.sst_files, ∀ y ∈ ts.sst_files, x.seq = y.seq → x = y := by
    intro x hx y hy hxy
    have hkx : x ∈ w.fs.map Prod.fst := (hts.files_match _).mp hx
    have hky : y ∈ w.fs.map Prod.fst := (hts.files_match _).mp hy
    rcases List.mem_map.mp hkx with ⟨fex, hfex, hfex1⟩
    rcases List.mem_map.mp hky with ⟨fey, hfey, hfey1⟩
    have hfeq : fex = fey := by
      refine map_nodup_inj (fun fe => fe.1.seq) w.fs hts.fs_seq_nodup _ _ hfex hfey ?_
      show fex.1.seq = fey.1.seq
      rw [hfex1, hfey1, hxy]
    rw [← hfex1, ← hfey1, hfeq]
  refine List.Nodup.map_on ?_ (hts.files_nodup.filter _)
  intro x hx y hy hxy
  exact hseqinj x (List.mem_of_mem_filter hx) y (List.mem_of_mem_filter hy) hxy

theorem pinned_compact (w : World) (i : Nat) (fields : Fields) (hwf : WF w)
    (hp : rowPinned w i fields) : rowPinned (compactTableW w).2 i fields := by
  obtain ⟨hlast, hfsall, ts, ht, hcase⟩ := hp
  rcases WF_destruct w hwf with ⟨ht', _, _, _⟩ | ⟨ts', rts, ht', hr, hts⟩
  · rw [ht] at ht'
    cases ht'
  · rw [ht] at ht'
    injection ht' with he2
    subst he2
    simp only [compactTableW, ht]
    by_cases hlz : (ts.sst_files.filter (fun f => decide (f.level = 0))).isEmpty = true
    · rw [if_pos hlz]
      exact ⟨hlast, hfsall, ts, ht, hcase⟩
    · rw [if_neg hlz]
      have hne : ts.sst_files.filter (fun f => decide (f.level = 0)) ≠ [] := by
        intro h
        rw [h] at hlz
        exact hlz rfl
      rw [compactLevelZero_eq w.fs _ ts.next_sst_seq hne]
      dsimp only
      have hnf_not_files : (⟨1, ts.next_sst_seq⟩ : SstFile) ∉ ts.sst_files := by
        intro hmem
        have := hts.seq_bound _ hmem
        simp at this
      have hnf_not_key : (⟨1, ts.next_sst_seq⟩ : SstFile) ∉ w.fs.map Prod.fst := by
        intro hmem
        exact hnf_not_files ((hts.files_match _).mpr hmem)
      have hnf_not_lz : (⟨1, ts.next_sst_seq⟩ : SstFile) ∉
          ts.sst_files.filter (fun f => decide (f.level = 0)) := by
        intro hmem
        exact hnf_not_files (List.mem_of_mem_filter hmem)
      have hW : writeSst w.fs ⟨1, ts.next_sst_seq⟩
          (compactOut w.fs (ts.sst_files.filter (fun f => decide (f.level = 0)))) =
          w.fs ++ [(⟨1, ts.next_sst_seq⟩,
            compactOut w.fs (ts.sst_files.filter (fun f => decide (f.level = 0))))] := by
        unfold writeSst
        exact alInsert_of_not_mem _ _ _ hnf_not_key
      have hndins : ((writeSst w.fs ⟨1, ts.next_sst_seq⟩
          (compactOut w.fs (ts.sst_files.filter (fun f => decide (f.level = 0))))).map
            Prod.fst).Nodup := by
        rw [hW]
        have hk : ((w.fs ++ [((⟨1, ts.next_sst_seq⟩ : SstFile),
            compactOut w.fs (ts.sst_files.filter (fun f => decide (f.level = 0))))]).map
              Prod.fst) = w.fs.map Prod.fst ++ [⟨1, ts.next_sst_seq⟩] := by
          simp
        rw [hk]
        exact nodup_append_singleton _ _ hts.fs_keys_nodup hnf_not_key
      have hfilesSeqNodup := lz_seq_nodup w ts rts hts
      have hreadSorted : ∀ f ∈ ts.sst_files.filter (fun f => decide (f.level = 0)),
          (readSst w.fs f).Pairwise (fun a b => a.row_id < b.row_id) :=
        fun f hf => readSst_sorted_of_WFts w ts rts hts f (List.mem_of_mem_filter hf)
      refine ⟨hlast, ?_, ?_⟩
      · intro fe hfe e he hei
        have hfe2 := (removeFiles_sublist _ _).subset hfe
        rw [hW] at hfe2
        rcases List.mem_append.mp hfe2 with hold | hnew
        · exact hfsall fe hold e he hei
        · rw [List.mem_singleton] at hnew
          subst hnew
          have hee := (compactOut_mem_iff w.fs _ hfilesSeqNodup hreadSorted e).mp he
          obtain ⟨f, hf, hef, _⟩ := hee
          obtain ⟨entries, hge, heee⟩ := mem_readSst _ _ _ hef
          exact hfsall (f, entries) hge e heee hei
      · refine ⟨_, rfl, ?_⟩
        rcases hcase with hmem | ⟨hnone, htomb, f, hf, e, he, hei⟩
        · exact Or.inl hmem
        · refine Or.inr ⟨hnone, htomb, ?_⟩
          by_cases hflev : f.level = 0
          · have hflz : f ∈ ts.sst_files.filter (fun f => decide (f.level = 0)) :=
              List.mem_filter.mpr ⟨hf, by simp [hflev]⟩
            obtain ⟨g, hg, ⟨eg, heg, hegi⟩, hmax⟩ := exists_max_seq
              (ts.sst_files.filter (fun f => decide (f.level = 0)))
              (fun g => ∃ e ∈ readSst w.fs g, e.row_id = i)
              ⟨f, hflz, ⟨e, he, hei⟩⟩
            refine ⟨⟨1, ts.next_sst_seq⟩,
              List.mem_append.mpr (Or.inr (List.mem_singleton.mpr rfl)), eg, ?_, hegi⟩
            have hlook : alLookup (⟨1, ts.next_sst_seq⟩ : SstFile)
                (removeFiles (writeSst w.fs ⟨1, ts.next_sst_seq⟩
                  (compactOut w.fs (ts.sst_files.filter (fun f => decide (f.level = 0)))))
                  (ts.sst_files.filter (fun f => decide (f.level = 0)))) =
                some (compactOut w.fs
                  (ts.sst_files.filter (fun f => decide (f.level = 0)))) := by
              rw [removeFiles_lookup _ _ _ hndins, if_neg hnf_not_lz]
              unfold writeSst
              exact alLookup_insert_self _ _ _
            unfold readSst
            rw [hlook]
            show eg ∈ compactOut w.fs (ts.sst_files.filter (fun f => decide (f.level = 0)))
            refine (compactOut_mem_iff w.fs _ hfilesSeqNodup hreadSorted eg).mpr
              ⟨g, hg, heg, ?_⟩
            intro h hh hhe
            obtain ⟨e2, he2, he2i⟩ := hhe
            refine hmax h hh ⟨e2, he2, ?_⟩
            rw [he2i, hegi]
          · have hff : f ∈ ts.sst_files.filter (fun f => decide (f.level ≠ 0)) :=
              List.mem_filter.mpr ⟨hf, by simp [hflev]⟩
            have hfnotlz : f ∉ ts.sst_files.filter (fun f => decide (f.level = 0)) := by
              intro hin
              have := List.mem_filter.mp hin
              exact hflev (by simpa using this.2)
            have hfnf : f ≠ (⟨1, ts.next_sst_seq⟩ : SstFile) := by
              intro hfe2
              have := hts.seq_bound f hf
              rw [hfe2] at this
              simp at this
            refine ⟨f, List.mem_append.mpr (Or.inl hff), e, ?_, hei⟩
            have hlook : alLookup f
                (removeFiles (writeSst w.fs ⟨1, ts.next_sst_seq⟩
                  (compactOut w.fs (ts.sst_files.filter (fun f => decide (f.level = 0)))))
                  (ts.sst_files.filter (fun f => decide (f.level = 0)))) =
                alLookup f w.fs := by
              rw [removeFiles_lookup _ _ _ hndins, if_neg hfnotlz]
              unfold writeSst
              exact alLookup_insert_ne _ _ _ _ hfnf
            unfold readSst
            rw [hlook]
            exact he

theorem pinned_insert (E : Ext) (failAt : Nat → Bool) (fields : Fields) (w : World)
    (hwf : WF w) (rid : Nat) (hok : (insertRowW E failAt fields w).1 = .ok rid) :
    rowPinned (insertRowW E failAt fields w).2 rid fields := by
  rcases WF_destruct w hwf with ⟨ht, _, _, _⟩ | ⟨ts, rts, ht, hr, hts⟩
  · simp only [insertRowW, ht] at hok
    cases hok
  · simp only [insertRowW, ht] at hok ⊢
    cases hv : ts.schema.validate_row fields with
    | error e =>
      rw [hv] at hok
      simp at hok
    | ok u =>
      cases u
      rw [hv] at hok
      by_cases hfa : failAt w.tick
      · simp only [walAppend, hfa, if_true, Bool.not_true, Bool.false_eq_true, if_false]
          at hok ⊢
        simp at hok
      · simp only [walAppend, hfa, Bool.false_eq_true, if_false, Bool.not_true, if_true]
          at hok ⊢
        cases hspec : ts.embedding_spec with
        | none =>
          rw [hspec] at hok
          dsimp only at hok ⊢
          injection hok with hre
          subst hre
          refine ⟨?_, ?_, ?_⟩
          · rw [lastRowEffect_append]
            dsimp only
            rw [if_pos rfl]
          · intro fe hfe e he hei
            have := hts.fs_bound fe hfe e he
            omega
          · refine ⟨_, rfl, Or.inl ?_⟩
            exact alLookup_insert_self _ _ _
        | some spec =>
          rw [hspec] at hok
          dsimp only at hok ⊢
          cases hhash : spec.content_hash E fields with
          | error e =>
            rw [hhash] at hok
            simp at hok
          | ok hash =>
            rw [hhash] at hok
            dsimp only at hok ⊢
            by_cases hfa2 : failAt (w.tick + 1)
            · simp only [hfa2, if_true, Bool.not_true, Bool.false_eq_true, if_false] at hok
              simp at hok
            · simp only [hfa2, Bool.false_eq_true, if_false, Bool.not_true, if_true]
                at hok ⊢
              injection hok with hre
              subst hre
              refine ⟨?_, ?_, ?_⟩
              · rw [lastRowEffect_append]
                dsimp only
                rw [lastRowEffect_append]
                dsimp only
                rw [if_pos rfl]
              · intro fe hfe e he hei
                have := hts.fs_bound fe hfe e he
                omega
              · refine ⟨_, rfl, Or.inl ?_⟩
                exact alLookup_insert_self _ _ _

theorem pinned_safeOps (E : Ext) (failAt : Nat → Bool) (i : Nat) (fields : Fields)
    (ops : List Op) (hsafe : ∀ op ∈ ops, op = .flush ∨ op = .compact ∨ op = .reopen) :
    ∀ w : World, WF w → rowPinned w i fields →
      WF (runOps E failAt ops w) ∧ rowPinned (runOps E failAt ops w) i fields := by
  induction ops with
  | nil => exact fun w hwf hp => ⟨hwf, hp⟩
  | cons op rest ih =>
    intro w hwf hp
    have hop := hsafe op (List.mem_cons_self _ _)
    have hstep : WF (stepOp E failAt w op) ∧ rowPinned (stepOp E failAt w op) i fields := by
      rcases hop with rfl | rfl | rfl
      · exact ⟨WF_flushTableW w hwf, pinned_flush w i fields hwf hp⟩
      · exact ⟨WF_compactTableW w hwf, pinned_compact w i fields hwf hp⟩
      · exact ⟨WF_reopenW w hwf, pinned_reopen w i fields hwf hp⟩
    exact ih (fun op' hop' => hsafe op' (List.mem_cons_of_mem _ hop')) _ hstep.1 hstep.2

set_option maxRecDepth 40000 in
/-- **C1.** A row inserted successfully into a table (in any well-formed
reachable state, under any I/O-failure oracle and external black boxes) and
not subsequently deleted or overwritten is returned intact by `get_row` —
with exactly the inserted fields — before and after every sequence of
`flush_table`, `compact_table`, and engine close/reopen; and concretely,
after create, insert, flush, compact, update, flush, reopen, `get_row 1`
returns the updated row. -/
theorem claim_C1 :
    (∀ (E : Ext) (failAt : Nat → Bool) (w : World), WF w →
      ∀ (fields : Fields) (rid : Nat),
        (insertRowW E failAt fields w).1 = .ok rid →
        ∀ ops : List Op, (∀ op ∈ ops, op = .flush ∨ op = .compact ∨ op = .reopen) →
          getRowW (runOps E failAt ops (insertRowW E failAt fields w).2) rid =
            .ok (some ⟨rid, fields⟩)) ∧
    getRowW (runOps extId okOracle opsC1seq initWorld) 1 = .ok (some ⟨1, fieldsV2⟩) := by
  constructor
  · intro E failAt w hwf fields rid hok ops hsafe
    have hwf2 := WF_insertRowW E failAt fields w hwf
    have hpin := pinned_insert E failAt fields w hwf rid hok
    have hfin := pinned_safeOps E failAt rid fields ops hsafe _ hwf2 hpin
    exact pinned_getRow _ _ _ hfin.1 hfin.2
  · decide

set_option maxRecDepth 40000 in
theorem claim_C1_witness :
    getRowW (runOps extId okOracle [Op.flush, Op.reopen]
      (insertRowW extId okOracle fieldsV1
        (createTableW okOracle sampleSchema none initWorld).2).2) 1 =
      .ok (some ⟨1, fieldsV1⟩) :=
  claim_C1.1 extId okOracle _
    (WF_createTableW okOracle sampleSchema none initWorld WF_initWorld)
    fieldsV1 1 (by decide) [Op.flush, Op.reopen]
    (by
      intro op hop
      rcases List.mem_cons.mp hop with rfl | hop2
      · exact Or.inl rfl
      · rcases List.mem_cons.mp hop2 with rfl | hop3
        · exact Or.inr (Or.inr rfl)
        · cases hop3)

/-- **C2** (corrected).  An erroring `create_table` or `delete_row` leaves the
durable and in-memory state (WAL, SST directory, table, allocation history)
unchanged; an erroring `insert_row` or `update_row` either leaves it unchanged
or — when the failure strikes after the `PutRow` WAL append, i.e. in the
content-hash computation or the `EnqueueEmbedding` append — leaves exactly
that `PutRow` durably logged and applied to the in-memory table, refuting the
claim that every erroring mutation leaves the state unchanged. -/
theorem claim_C2 :
    (∀ (failAt : Nat → Bool) (schema : TableSchema) (spec : Option EmbeddingSpec)
        (w : World) (e : String),
      (createTableW failAt schema spec w).1 = .error e →
        (createTableW failAt schema spec w).2.wal = w.wal ∧
        (createTableW failAt schema spec w).2.fs = w.fs ∧
        (createTableW failAt schema spec w).2.table = w.table ∧
        (createTableW failAt schema spec w).2.allocated = w.allocated) ∧
    (∀ (failAt : Nat → Bool) (rid : Nat) (w : World) (e : String),
      (deleteRowW failAt rid w).1 = .error e →
        (deleteRowW failAt rid w).2.wal = w.wal ∧
        (deleteRowW failAt rid w).2.fs = w.fs ∧
        (deleteRowW failAt rid w).2.table = w.table ∧
        (deleteRowW failAt rid w).2.allocated = w.allocated) ∧
    (∀ (E : Ext) (failAt : Nat → Bool) (fields : Fields) (w : World) (e : String),
      (insertRowW E failAt fields w).1 = .error e →
        ((insertRowW E failAt fields w).2.wal = w.wal ∧
         (insertRowW E failAt fields w).2.fs = w.fs ∧
         (insertRowW E failAt fields w).2.table = w.table ∧
         (insertRowW E failAt fields w).2.allocated = w.allocated) ∨
        (∃ ts, w.table = some ts ∧
          (insertRowW E failAt fields w).2.wal =
            w.wal ++ [.putRow ts.next_row_id ⟨ts.next_row_id, fields⟩] ∧
          (insertRowW E failAt fields w).2.fs = w.fs ∧
          (insertRowW E failAt fields w).2.table = some { ts with
            next_row_id :=
              if ts.next_row_id ≤ ts.next_row_id then ts.next_row_id + 1
              else ts.next_row_id,
            rows := alInsert ts.next_row_id ⟨ts.next_row_id, fields⟩ ts.rows,
            tombstones := ts.tombstones.erase ts.next_row_id } ∧
          (insertRowW E failAt fields w).2.allocated = w.allocated ++ [ts.next_row_id])) ∧
    (∀ (E : Ext) (failAt : Nat → Bool) (rid : Nat) (fields : Fields) (w : World)
        (e : String),
      (updateRowW E failAt rid fields w).1 = .error e →
        ((updateRowW E failAt rid fields w).2.wal = w.wal ∧
         (updateRowW E failAt rid fields w).2.fs = w.fs ∧
         (updateRowW E failAt rid fields w).2.table = w.table ∧
         (updateRowW E failAt rid fields w).2.allocated = w.allocated) ∨
        (∃ ts, w.table = some ts ∧
          (updateRowW E failAt rid fields w).2.wal =
            w.wal ++ [.putRow rid ⟨rid, fields⟩] ∧
          (updateRowW E failAt rid fields w).2.fs = w.fs ∧
          (updateRowW E failAt rid fields w).2.table = some { ts with
            rows := alInsert rid ⟨rid, fields⟩ ts.rows,
            tombstones := ts.tombstones.erase rid } ∧
          (updateRowW E failAt rid fields w).2.allocated = w.allocated)) := by
  refine ⟨?_, ?_, ?_, ?_⟩
  · intro failAt schema spec w e herr
    simp only [createTableW] at herr ⊢
    cases ht : w.table with
    | some ts =>
      exact ⟨rfl, rfl, ht, rfl⟩
    | none =>
      rw [ht] at herr
      dsimp only at herr
      dsimp only
      cases hv : schema.validate_schema with
      | error e2 =>
        exact ⟨rfl, rfl, ht, rfl⟩
      | ok u =>
        cases u
        rw [hv] at herr
        by_cases hfa : failAt w.tick
        · simp only [walAppend, hfa, if_true, Bool.false_eq_true, if_false]
          refine ⟨?_, ?_, ?_, ?_⟩ <;> first | rfl | trivial | exact ht
        · simp only [walAppend, hfa, Bool.false_eq_true, if_false, if_true] at herr
          simp at herr
  · intro failAt rid w e herr
    simp only [deleteRowW] at herr ⊢
    cases ht : w.table with
    | none =>
      exact ⟨rfl, rfl, ht, rfl⟩
    | some ts =>
      rw [ht] at herr
      dsimp only at herr
      dsimp only
      by_cases hre : row_exists w.fs ts rid
      · simp only [hre, Bool.not_true, Bool.false_eq_true, if_false] at herr ⊢
        by_cases hfa : failAt w.tick
        · simp only [walAppend, hfa, if_true, Bool.not_true, Bool.false_eq_true, if_false]
          refine ⟨?_, ?_, ?_, ?_⟩ <;> first | rfl | trivial | exact ht
        · simp only [walAppend, hfa, Bool.false_eq_true, if_false, Bool.not_true, if_true]
            at herr
          simp at herr
      · rw [Bool.not_eq_true] at hre
        simp only [hre, Bool.not_false, if_true]
        refine ⟨?_, ?_, ?_, ?_⟩ <;> first | rfl | trivial | exact ht
  · intro E failAt fields w e herr
    simp only [insertRowW] at herr ⊢
    cases ht : w.table with
    | none =>
      exact Or.inl ⟨rfl, rfl, ht, rfl⟩
    | some ts =>
      rw [ht] at herr
      dsimp only at herr
      dsimp only
      cases hv : ts.schema.validate_row fields with
      | error e2 =>
        exact Or.inl ⟨rfl, rfl, ht, rfl⟩
      | ok u =>
        cases u
        rw [hv] at herr
        by_cases hfa : failAt w.tick
        · simp only [walAppend, hfa, if_true, Bool.not_true, Bool.false_eq_true, if_false]
          refine Or.inl ⟨?_, ?_, ?_, ?_⟩ <;> first | rfl | trivial | exact ht
        · simp only [walAppend, hfa, Bool.false_eq_true, if_false, Bool.not_true, if_true]
            at herr ⊢
          cases hspec : ts.embedding_spec with
          | none =>
            rw [hspec] at herr
            simp at herr
          | some spec =>
            rw [hspec] at herr
            dsimp only at herr ⊢
            cases hhash : spec.content_hash E fields with
            | error e2 =>
              refine Or.inr ⟨ts, ?_, ?_, ?_, ?_, ?_⟩ <;> first | rfl | trivial | (rw [hspec])
            | ok hash =>
              rw [hhash] at herr
              dsimp only at herr ⊢
              by_cases hfa2 : failAt (w.tick + 1)
              · simp only [hfa2, if_true, Bool.not_true, Bool.not_false, Bool.false_eq_true, if_false]
                refine Or.inr ⟨ts, ?_, ?_, ?_, ?_, ?_⟩ <;> first | rfl | trivial | (rw [hspec])
              · simp only [hfa2, Bool.false_eq_true, if_false, Bool.not_true, if_true]
                  at herr
                simp at herr
  · intro E failAt rid fields w e herr
    simp only [updateRowW] at herr ⊢
    cases ht : w.table with
    | none =>
      exact Or.inl ⟨rfl, rfl, ht, rfl⟩
    | some ts =>
      rw [ht] at herr
      dsimp only at herr
      dsimp only
      by_cases hre : row_exists w.fs ts rid
      · simp only [hre, Bool.not_true, Bool.false_eq_true, if_false] at herr ⊢
        cases hv : ts.schema.validate_row fields with
        | error e2 =>
          exact Or.inl ⟨rfl, rfl, ht, rfl⟩
        | ok u =>
          cases u
          rw [hv] at herr
          by_cases hfa : failAt w.tick
          · simp only [walAppend, hfa, if_true, Bool.not_true, Bool.false_eq_true,
              if_false]
            refine Or.inl ⟨?_, ?_, ?_, ?_⟩ <;> first | rfl | trivial | exact ht
          · simp only [walAppend, hfa, Bool.false_eq_true, if_false, Bool.not_true,
              if_true] at herr ⊢
            cases hspec : ts.embedding_spec with
            | none =>
              rw [hspec] at herr
              simp at herr
            | some spec =>
              rw [hspec] at herr
              dsimp only at herr ⊢
              cases hhash : spec.content_hash E fields with
              | error e2 =>
                refine Or.inr ⟨ts, ?_, ?_, ?_, ?_, ?_⟩ <;> first | rfl | trivial | (rw [hspec])
              | ok hash =>
                rw [hhash] at herr
                dsimp only at herr ⊢
                by_cases hfa2 : failAt (w.tick + 1)
                · simp only [hfa2, if_true, Bool.not_true, Bool.not_false, Bool.false_eq_true, if_false]
                  refine Or.inr ⟨ts, ?_, ?_, ?_, ?_, ?_⟩ <;> first | rfl | trivial | (rw [hspec])
                · simp only [hfa2, Bool.false_eq_true, if_false, Bool.not_true, if_true]
                    at herr
                  simp at herr
      · rw [Bool.not_eq_true] at hre
        simp only [hre, Bool.not_false, if_true]
        refine Or.inl ⟨?_, ?_, ?_, ?_⟩ <;> first | rfl | trivial | exact ht

/-- **C2**, counterexample to the claim as stated: on a table whose embedding
spec names a missing source field, `insert_row` returns an error (the
content-hash computation fails) yet the in-memory table has changed — the
`PutRow` was already applied. -/
theorem claim_C2_counterexample :
    (∃ e, (insertRowW extId okOracle fieldsV1 worldC2).1 = .error e) ∧
    (insertRowW extId okOracle fieldsV1 worldC2).2.table ≠ worldC2.table :=
  ⟨⟨"missing embedding field: missing", by decide⟩, by decide⟩

theorem claim_C2_witness :
    ((insertRowW extId okOracle fieldsV1 worldC2).2.wal = worldC2.wal ∧
     (insertRowW extId okOracle fieldsV1 worldC2).2.fs = worldC2.fs ∧
     (insertRowW extId okOracle fieldsV1 worldC2).2.table = worldC2.table ∧
     (insertRowW extId okOracle fieldsV1 worldC2).2.allocated = worldC2.allocated) ∨
    (∃ ts, worldC2.table = some ts ∧
      (insertRowW extId okOracle fieldsV1 worldC2).2.wal =
        worldC2.wal ++ [.putRow ts.next_row_id ⟨ts.next_row_id, fieldsV1⟩] ∧
      (insertRowW extId okOracle fieldsV1 worldC2).2.fs = worldC2.fs ∧
      (insertRowW extId okOracle fieldsV1 worldC2).2.table = some { ts with
        next_row_id :=
          if ts.next_row_id ≤ ts.next_row_id then ts.next_row_id + 1
          else ts.next_row_id,
        rows := alInsert ts.next_row_id ⟨ts.next_row_id, fieldsV1⟩ ts.rows,
        tombstones := ts.tombstones.erase ts.next_row_id } ∧
      (insertRowW extId okOracle fieldsV1 worldC2).2.allocated =
        worldC2.allocated ++ [ts.next_row_id]) :=
  claim_C2.2.2.1 extId okOracle fieldsV1 worldC2 "missing embedding field: missing"
    (by decide)

/-- **C3** (corrected).  `open` performs no locking whatsoever — the engine
has no lock file and keeps no handle state beyond the world itself — so
opening a directory that is already open never fails and never returns a
conflict error: a second `open` of the same directory succeeds, returns an
equivalent handle (open is idempotent), and leaves the persistent state
untouched. -/
theorem claim_C3 :
    ∀ w : World, reopenW (reopenW w) = reopenW w ∧
      (reopenW w).wal = w.wal ∧ (reopenW w).fs = w.fs := by
  intro w
  refine ⟨?_, rfl, rfl⟩
  simp only [reopenW, openWorld]

/-- **C3**, counterexample to the claim as stated: with a created table in a
directory already held open, a second open (and even a third) succeeds and
yields a live handle with the table present — no "already in use" conflict
error exists anywhere in the engine. -/
theorem claim_C3_counterexample :
    (reopenW (runOps extId okOracle [Op.create sampleSchema none, Op.insert fieldsV1]
      initWorld)).table.isSome = true ∧
    (reopenW (reopenW (runOps extId okOracle
      [Op.create sampleSchema none, Op.insert fieldsV1] initWorld))).table.isSome = true := by
  decide

end EmbedDb
